import Mathlib

/-! # go-config: layered configuration store

Shallow embedding of `layer.go`, `config.go`, `view.go` and `ini.go`.

* A Go `string` is a finite byte sequence.  It is represented by `List Char`, each byte by
  the character with the same code; the code only compares bytes with ASCII constants.
* `*Layer` and `*Config` are references: they are addresses (`Nat`) into a `Heap`, and every
  method takes the heap and returns the heap it leaves behind.  References are never nil.
* A call that can panic returns a `Result`: the panic value (if any) together with the heap at
  the moment the call ended.
* Mutexes only serialise calls; every method is modelled as one atomic step.
* A loop whose number of iterations is not the length of a list runs on fuel; its result is
  an `Exec`, with `outOfFuel` kept apart from a return and from a panic, and the entry point
  supplies a bound that the theorems show to be enough.
* The iteration order of a Go map is unspecified.  Where it shows in a result
  (`KeyList.ToSlice`), the order is an argument, constrained to be an arrangement of the keys.
* `int` values are only compared, never computed with beyond sums of string positions, so they
  are integers without overflow.
-/

namespace GoConfig

/-- Go strings, as byte sequences. -/
abbrev Str := List Char

/-- Outcome of a call that may panic: `panic` is the panic value when the call panicked, and
`state` is the state left behind when the call ended (normally or by the panic). -/
structure Result (σ : Type) where
  panic : Option String
  state : σ

/-- Result of running code whose loops the embedding bounds by a number of iterations: a
normal return, a panic, or the bound was reached. -/
inductive Exec (α : Type) where
  | ret (a : α)
  | panic (msg : String)
  | outOfFuel
deriving DecidableEq

/-! ## Go maps `map[string]string`

A map is a list of bindings; lookup takes the first binding of a key, and assignment and
deletion remove every older binding of the key, so the keys stay pairwise distinct. -/

/-- Map lookup `m[key]`, with the comma-ok result as an option. -/
def mapGet : List (Str × Str) → Str → Option Str
  | [], _ => none
  | (k, v) :: m, key => if k = key then some v else mapGet m key

/-- Builtin `delete(m, key)`. -/
def mapDelete (m : List (Str × Str)) (key : Str) : List (Str × Str) :=
  m.filter (fun p => decide (p.1 ≠ key))

/-- Assignment `m[key] = value`. -/
def mapSet (m : List (Str × Str)) (key value : Str) : List (Str × Str) :=
  (key, value) :: mapDelete m key

/-! ## layer.go -/

/-- Config layer storing key-value pairs in memory (`type Layer struct`, without the mutex). -/
structure Layer where
  name : Str
  values : List (Str × Str)
  writable : Bool

/-- One entry of a `Config` (`type configItem struct`); `layer` is a `*Layer`. -/
structure configItem where
  layer : Nat
  prio : Int
  writable : Bool
deriving DecidableEq

/-- Collection of config layers with priorities (`type Config struct`, without the mutex). -/
structure Config where
  items : List configItem

/-- The objects reachable through `*Layer` and `*Config` references. -/
structure Heap where
  layers : Nat → Layer
  configs : Nat → Config

/-- Store `x` at layer address `l`. -/
def Heap.setLayer (h : Heap) (l : Nat) (x : Layer) : Heap :=
  { h with layers := fun a => if a = l then x else h.layers a }

/-- Store `x` at config address `c`. -/
def Heap.setConfig (h : Heap) (c : Nat) (x : Config) : Heap :=
  { h with configs := fun a => if a = c then x else h.configs a }

/-- The object `NewLayer(name)` allocates. -/
def NewLayer (name : Str) : Layer :=
  { name := name, values := [], writable := true }

def Layer.Name (h : Heap) (l : Nat) : Str :=
  (h.layers l).name

def Layer.LockReadOnly (h : Heap) (l : Nat) : Heap :=
  h.setLayer l { h.layers l with writable := false }

def Layer.IsWritable (h : Heap) (l : Nat) : Bool :=
  (h.layers l).writable

def Layer.GetString (h : Heap) (l : Nat) (key : Str) : Str × Bool :=
  match mapGet (h.layers l).values key with
  | some ret => (ret, true)
  | none => ([], false)

def Layer.Clear (h : Heap) (l : Nat) : Result Heap :=
  if !(h.layers l).writable then
    ⟨some "trying to clear a read-only layer", h⟩
  else
    ⟨none, h.setLayer l { h.layers l with values := [] }⟩

def Layer.SetString (h : Heap) (l : Nat) (key value : Str) : Result Heap :=
  if !(h.layers l).writable then
    ⟨some "trying to write a read-only layer", h⟩
  else
    ⟨none, h.setLayer l { h.layers l with values := mapSet (h.layers l).values key value }⟩

def Layer.DeleteValue (h : Heap) (l : Nat) (key : Str) : Result Heap :=
  if !(h.layers l).writable then
    ⟨some "trying to delete from read-only layer", h⟩
  else
    ⟨none, h.setLayer l { h.layers l with values := mapDelete (h.layers l).values key }⟩

/-! ## config.go -/

/-- The object `NewConfig()` allocates. -/
def NewConfig : Config :=
  { items := [] }

/-- The slot search of `addLayerImpl`: the index of the first item whose priority is lower
than `prio`, or the length of the list. -/
def findSlot (prio : Int) : List configItem → Nat
  | [] => 0
  | item :: rest => if item.prio < prio then 0 else findSlot prio rest + 1

/-- Library `slices.Insert(s, i, v)` for `i ≤ len(s)`. -/
def slicesInsert {α : Type} (s : List α) (i : Nat) (v : α) : List α :=
  s.take i ++ v :: s.drop i

def Config.addLayerImpl (h : Heap) (c : Nat) (layer : Nat) (prio : Int) (writable : Bool) : Heap :=
  let items := (h.configs c).items
  h.setConfig c { items := slicesInsert items (findSlot prio items) ⟨layer, prio, writable⟩ }

def Config.AddLayer (h : Heap) (c : Nat) (layer : Nat) (prio : Int) : Heap :=
  Config.addLayerImpl h c layer prio false

def Config.AddWritableLayer (h : Heap) (c : Nat) (layer : Nat) (prio : Int) : Heap :=
  Config.addLayerImpl h c layer prio true

/-- Library `slices.IndexFunc(s, f)`, with `none` for `-1`. -/
def slicesIndexFunc {α : Type} (f : α → Bool) : List α → Option Nat
  | [] => none
  | x :: rest => if f x then some 0 else (slicesIndexFunc f rest).map (· + 1)

/-- Library `slices.Delete(s, i, i+1)` for `i < len(s)`. -/
def slicesDelete {α : Type} (s : List α) (i : Nat) : List α :=
  s.take i ++ s.drop (i + 1)

def Config.RemoveLayer (h : Heap) (c : Nat) (layer : Nat) : Bool × Heap :=
  let items := (h.configs c).items
  match slicesIndexFunc (fun item => decide (item.layer = layer)) items with
  | none => (false, h)
  | some idx => (true, h.setConfig c { items := slicesDelete items idx })

def Config.Layers (h : Heap) (c : Nat) : List Nat :=
  (h.configs c).items.map (fun item => item.layer)

/-- The loop of `Config.IsWritable`. -/
def Config.IsWritable.loop (h : Heap) : List configItem → Bool
  | [] => false
  | item :: rest =>
    if item.writable && Layer.IsWritable h item.layer then true else Config.IsWritable.loop h rest

def Config.IsWritable (h : Heap) (c : Nat) : Bool :=
  Config.IsWritable.loop h (h.configs c).items

/-- The loop of `Config.GetString`. -/
def Config.GetString.loop (h : Heap) (key : Str) : List configItem → Str × Bool
  | [] => ([], false)
  | item :: rest =>
    match Layer.GetString h item.layer key with
    | (s, true) => (s, true)
    | (_, false) => Config.GetString.loop h key rest

def Config.GetString (h : Heap) (c : Nat) (key : Str) : Str × Bool :=
  Config.GetString.loop h key (h.configs c).items

/-- The loop of `Config.SetString`. -/
def Config.SetString.loop (h : Heap) (key value : Str) : List configItem → Result Heap
  | [] => ⟨some "config is not writable", h⟩
  | item :: rest =>
    if item.writable && Layer.IsWritable h item.layer then
      Layer.SetString h item.layer key value
    else
      Config.SetString.loop h key value rest

def Config.SetString (h : Heap) (c : Nat) (key value : Str) : Result Heap :=
  Config.SetString.loop h key value (h.configs c).items

def Config.DeleteValue (h : Heap) (_c : Nat) (_key : Str) : Heap :=
  h

/-- One call of `AddLayer` (`writable = false`) or `AddWritableLayer` (`writable = true`). -/
structure AddCall where
  layer : Nat
  prio : Int
  writable : Bool
deriving DecidableEq

/-- The entry an add call creates. -/
def AddCall.item (a : AddCall) : configItem :=
  ⟨a.layer, a.prio, a.writable⟩

/-- Perform an add call on the config at `c`. -/
def AddCall.run (c : Nat) (h : Heap) (a : AddCall) : Heap :=
  if a.writable then Config.AddWritableLayer h c a.layer a.prio
  else Config.AddLayer h c a.layer a.prio

/-- A structural operation on a config. -/
inductive ConfigOp where
  | add (a : AddCall)
  | remove (layer : Nat)
deriving DecidableEq

/-- Perform a structural operation on the config at `c`. -/
def ConfigOp.run (c : Nat) (h : Heap) : ConfigOp → Heap
  | .add a => a.run c h
  | .remove layer => (Config.RemoveLayer h c layer).2

/-- Layer `l` holds a value for `key` in heap `h`. -/
def Layer.holds (h : Heap) (l : Nat) (key : Str) : Prop :=
  (mapGet (h.layers l).values key).isSome = true

instance (h : Heap) (l : Nat) (key : Str) : Decidable (Layer.holds h l key) := by
  unfold Layer.holds
  infer_instance

/-- Resolution order on entries tagged with the position of the call that added them: higher
priority first, and among equal priorities the earlier call first. -/
def lexBefore (a b : Nat × configItem) : Prop :=
  b.2.prio < a.2.prio ∨ (a.2.prio = b.2.prio ∧ a.1 < b.1)

/-! ## Example state (the scenario of `TestConfig`) -/

def exampleHeap : Heap where
  layers := fun l =>
    if l = 1 then ⟨"l1".toList, [("my.cat".toList, "fish".toList), ("my.horse".toList, "hay".toList), ("his.cat".toList, "-".toList)], true⟩
    else if l = 2 then ⟨"l2".toList, [("my.dog".toList, "vegetables".toList), ("my.cat".toList, "mouse".toList)], true⟩
    else if l = 3 then ⟨"l3".toList, [("my.dog".toList, "bones".toList), ("my.rabbit".toList, "carrot".toList), ("your.cat".toList, "-".toList)], true⟩
    else NewLayer []
  configs := fun _ => NewConfig

def exampleCalls : List AddCall := [⟨2, 22, false⟩, ⟨3, 33, false⟩, ⟨1, 11, false⟩]

def exampleOps : List ConfigOp :=
  [.add ⟨2, 22, false⟩, .add ⟨3, 33, false⟩, .add ⟨1, 11, false⟩, .remove 3, .add ⟨9, 99, true⟩]

/-! ## Go library: package `strings`

Only the calls the repository makes are modelled: every cutset, separator and needle is
ASCII, so these functions work byte by byte. -/

/-- Library `strings.HasPrefix`. -/
def HasPrefix (s pfx : Str) : Bool :=
  pfx.isPrefixOf s

/-- Library `strings.HasSuffix`. -/
def HasSuffix (s suffix : Str) : Bool :=
  suffix.isSuffixOf s

/-- Library `strings.CutSuffix`. -/
def CutSuffix (s suffix : Str) : Str × Bool :=
  if HasSuffix s suffix then (s.take (s.length - suffix.length), true) else (s, false)

/-- Library `strings.IndexByte`: the index of the first `c` in `s`, or `-1`. -/
def IndexByte : Str → Char → Int
  | [], _ => -1
  | x :: rest, c =>
    if x = c then 0
    else if IndexByte rest c < 0 then -1 else IndexByte rest c + 1

/-- Library `strings.IndexRune` for an ASCII rune, where it is `IndexByte`. -/
def IndexRune (s : Str) (r : Char) : Int :=
  IndexByte s r

/-- Library `strings.ReplaceAll(s, old, new)` for a one-byte `old`. -/
def ReplaceAll : Str → Char → Str → Str
  | [], _, _ => []
  | c :: s, old, new => (if c = old then new else [c]) ++ ReplaceAll s old new

/-- Library `strings.TrimLeft(s, cutset)`. -/
def TrimLeft (s cutset : Str) : Str :=
  s.dropWhile (fun c => cutset.contains c)

/-- Library `strings.TrimRight(s, cutset)`. -/
def TrimRight (s cutset : Str) : Str :=
  (s.reverse.dropWhile (fun c => cutset.contains c)).reverse

/-- Library `strings.Trim(s, cutset)`. -/
def Trim (s cutset : Str) : Str :=
  TrimRight (TrimLeft s cutset) cutset

/-! ## view.go -/

/-- Key list type where `ListKeys` collects keys (`type KeyList struct`): the key set of the
map `v`, as a list without repetition. -/
structure KeyList where
  v : List Str

def KeyList.addKey (list : KeyList) (key : Str) : KeyList :=
  { v := if key ∈ list.v then list.v else list.v ++ [key] }

/-- A slice `s` is a possible result of `list.ToSlice()`: the keys of the map, each once, in
any order (Go map iteration order is unspecified). -/
def KeyList.ToSlice (list : KeyList) (s : List Str) : Prop :=
  s.Perm list.v

instance (list : KeyList) (s : List Str) : Decidable (list.ToSlice s) := by
  unfold KeyList.ToSlice
  infer_instance

/-- The implementations of interface `Viewable` in this package: `*Layer`, `*Config`,
`emptyViewable` and `View`. -/
inductive Viewable where
  | layer (l : Nat)
  | config (c : Nat)
  | emptyViewable
  | view (pfx : Str) (viewable : Viewable) (writable : Bool)
deriving DecidableEq

/-- View on a config entity (`type View struct`). -/
structure View where
  pfx : Str
  viewable : Viewable
  writable : Bool
deriving DecidableEq

/-- A `View` value stored in a `Viewable` interface. -/
def View.toViewable (view : View) : Viewable :=
  Viewable.view view.pfx view.viewable view.writable

def View.deriveKey (view : View) (key : Str) : Str :=
  view.pfx ++ key

/-- The prefix normalisation shared by `newViewImpl`, `Layer.ListKeys` and `LoadIni`:
append a dot unless the string is empty or already ends in one. -/
def ensureTrailingDot (p : Str) : Str :=
  if !HasSuffix p ['.'] && p != [] then p ++ ['.'] else p

def newViewImpl (viewable : Viewable) (pfx : Str) (writable : Bool) : View :=
  let pfx := ensureTrailingDot pfx
  match viewable with
  | Viewable.view p target w => ⟨View.deriveKey ⟨p, target, w⟩ pfx, target, writable⟩
  | _ => ⟨pfx, viewable, writable⟩

def NewEmptyView : View :=
  newViewImpl Viewable.emptyViewable [] false

def NewView (viewable : Viewable) (pfx : Str) : View :=
  newViewImpl viewable pfx true

def View.SubView (view : View) (pfx : Str) : View :=
  newViewImpl view.toViewable pfx true

def View.SubViewReadOnly (view : View) (pfx : Str) : View :=
  newViewImpl view.toViewable pfx false

/-- The loop body of `Layer.ListKeys` for one stored key `k`. -/
def Layer.ListKeys.step (pfx : Str) (direct : Bool) (out : KeyList) (k : Str) : KeyList :=
  if HasPrefix k pfx then
    let k := k.drop pfx.length
    let k := if direct then (if IndexRune k '.' ≥ 0 then k.take (IndexRune k '.').toNat else k) else k
    out.addKey k
  else out

def Layer.ListKeys (h : Heap) (l : Nat) (pfx : Str) (out : KeyList) (direct : Bool) : KeyList :=
  ((h.layers l).values.map Prod.fst).foldl (Layer.ListKeys.step (ensureTrailingDot pfx) direct) out

def Config.ListKeys (h : Heap) (c : Nat) (pfx : Str) (out : KeyList) (direct : Bool) : KeyList :=
  (h.configs c).items.foldl (fun out item => Layer.ListKeys h item.layer pfx out direct) out

/-- Method `IsWritable` through the interface. -/
def Viewable.IsWritable (h : Heap) : Viewable → Bool
  | .layer l => Layer.IsWritable h l
  | .config c => Config.IsWritable h c
  | .emptyViewable => false
  | .view _ target w => w && Viewable.IsWritable h target

/-- Method `GetString` through the interface. -/
def Viewable.GetString (h : Heap) : Viewable → Str → Str × Bool
  | .layer l, key => Layer.GetString h l key
  | .config c, key => Config.GetString h c key
  | .emptyViewable, _ => ([], false)
  | .view p target _, key => Viewable.GetString h target (p ++ key)

/-- Method `SetString` through the interface. -/
def Viewable.SetString (h : Heap) : Viewable → Str → Str → Result Heap
  | .layer l, key, value => Layer.SetString h l key value
  | .config c, key, value => Config.SetString h c key value
  | .emptyViewable, _, _ => ⟨some "empty viewable is not writable", h⟩
  | .view p target w, key, value =>
    if !w then ⟨some "trying to write a read-only view", h⟩
    else Viewable.SetString h target (p ++ key) value

/-- Method `DeleteValue` through the interface. -/
def Viewable.DeleteValue (h : Heap) : Viewable → Str → Result Heap
  | .layer l, key => Layer.DeleteValue h l key
  | .config c, key => ⟨none, Config.DeleteValue h c key⟩
  | .emptyViewable, _ => ⟨some "empty viewable is not writable", h⟩
  | .view p target w, key =>
    if !w then ⟨some "trying to delete from a read-only view", h⟩
    else Viewable.DeleteValue h target (p ++ key)

/-- Method `ListKeys` through the interface. -/
def Viewable.ListKeys (h : Heap) : Viewable → Str → KeyList → Bool → KeyList
  | .layer l, pfx, out, direct => Layer.ListKeys h l pfx out direct
  | .config c, pfx, out, direct => Config.ListKeys h c pfx out direct
  | .emptyViewable, _, out, _ => out
  | .view p target _, pfx, out, direct => Viewable.ListKeys h target (p ++ pfx) out direct

def View.IsWritable (h : Heap) (view : View) : Bool :=
  view.writable && Viewable.IsWritable h view.viewable

def View.GetString (h : Heap) (view : View) (key : Str) : Str × Bool :=
  Viewable.GetString h view.viewable (view.deriveKey key)

def View.SetString (h : Heap) (view : View) (key value : Str) : Result Heap :=
  if !view.writable then ⟨some "trying to write a read-only view", h⟩
  else Viewable.SetString h view.viewable (view.deriveKey key) value

def View.DeleteValue (h : Heap) (view : View) (key : Str) : Result Heap :=
  if !view.writable then ⟨some "trying to delete from a read-only view", h⟩
  else Viewable.DeleteValue h view.viewable (view.deriveKey key)

def View.ListKeys (h : Heap) (view : View) (pfx : Str) (out : KeyList) (direct : Bool) : KeyList :=
  Viewable.ListKeys h view.viewable (view.deriveKey pfx) out direct

/-- A mutating method call on a layer. -/
inductive LayerOp where
  | LockReadOnly
  | Clear
  | SetString (key value : Str)
  | DeleteValue (key : Str)
deriving DecidableEq

/-- Perform a method call on the layer at `l`.  A panic is recovered by the caller, and the
run goes on from the state the panicking call left behind. -/
def LayerOp.run (l : Nat) (h : Heap) : LayerOp → Heap
  | .LockReadOnly => Layer.LockReadOnly h l
  | .Clear => (Layer.Clear h l).state
  | .SetString key value => (Layer.SetString h l key value).state
  | .DeleteValue key => (Layer.DeleteValue h l key).state

/-! ## Go library: `bufio.Reader` and `io.Writer`

A reader delivers the bytes `data` and then ends with `err`: `io.EOF`, or another error.
A writer is the sequence of bytes written to it so far. -/

/-- A non-nil `error` value: `io.EOF` or any other error. -/
inductive GoError where
  | EOF
  | other (msg : String)
deriving DecidableEq

/-- State of a `*bufio.Reader`: the bytes still to come and the error that ends the stream. -/
structure Reader where
  data : Str
  err : GoError
deriving DecidableEq

/-- Library `(*bufio.Reader).ReadString(delim)`: the data up to and including the first
`delim` with a nil error, or else all remaining data with the error that ended the stream. -/
def Reader.ReadString (r : Reader) (delim : Char) : Str × Option GoError × Reader :=
  if IndexByte r.data delim < 0 then
    (r.data, some r.err, { r with data := [] })
  else
    (r.data.take ((IndexByte r.data delim).toNat + 1), none,
      { r with data := r.data.drop ((IndexByte r.data delim).toNat + 1) })

/-! ## ini.go -/

/-- The loop of `indexOfUnescapedEq`, run for at most `fuel` iterations. -/
def indexOfUnescapedEq.loop : Nat → Str → Int → Exec Int
  | 0, _, _ => Exec.outOfFuel
  | fuel + 1, s, st =>
    if IndexByte s '=' < 0 then Exec.ret (-1)
    else if IndexByte s '=' = 0 ∨ s[(IndexByte s '=' - 1).toNat]? ≠ some '\\' then
      Exec.ret (st + IndexByte s '=')
    else
      indexOfUnescapedEq.loop fuel (s.drop (IndexByte s '=' + 1).toNat) (st + (IndexByte s '=' + 1))

/-- Source `indexOfUnescapedEq`: the slice `s[1:]` panics on the empty string; every
iteration of the loop shortens the slice, so `len(s)` iterations suffice. -/
def indexOfUnescapedEq (s : Str) : Exec Int :=
  if s.length < 1 then Exec.panic "slice bounds out of range"
  else indexOfUnescapedEq.loop s.length (s.drop 1) 1

/-- The table of `unescapes`: the byte that the escape sequence backslash-`c` stands for. -/
def unescapes.table (c : Char) : Option Char :=
  if c = ':' then some ':'
  else if c = ';' then some ';'
  else if c = '=' then some '='
  else if c = 'r' then some '\r'
  else if c = 'n' then some '\n'
  else if c = 't' then some '\t'
  else if c = 'f' then some '\x0c'
  else if c = '0' then some '\x00'
  else if c = ' ' then some ' '
  else if c = '\\' then some '\\'
  else none

/-- Library `(*strings.Replacer).Replace` for `unescapes`: all old strings have two bytes and
start with a backslash, so the generic replacer scans from the left, replaces a match and
skips it, and copies any other byte. -/
def unescapes.Replace : Str → Str
  | [] => []
  | [c] => [c]
  | c :: d :: rest =>
    if c = '\\' then
      match unescapes.table d with
      | some r => r :: unescapes.Replace rest
      | none => c :: unescapes.Replace (d :: rest)
    else c :: unescapes.Replace (d :: rest)

/-- The cutset of the trims in `LoadIni`: space, tab and form feed. -/
def iniSpace : Str :=
  [' ', '\t', '\x0c']

/-- One pass through the body of the loop of `LoadIni`, after the line was read and its line
ending cut: the new value of `section` and the `SetString` call to make, if any. -/
def LoadIni.line (sect line : Str) : Exec (Str × Option (Str × Str)) :=
  if line = [] ∨ HasPrefix line [';'] = true then Exec.ret (sect, none)
  else if (HasPrefix line ['['] && HasSuffix line [']']) = true then
    Exec.ret (ensureTrailingDot ((line.take (line.length - 1)).drop 1), none)
  else
    match indexOfUnescapedEq line with
    | Exec.ret pos =>
      if pos < 0 then Exec.ret (sect, none)
      else
        Exec.ret (sect, some (sect ++ unescapes.Replace (Trim (line.take pos.toNat) iniSpace),
          unescapes.Replace (TrimLeft (line.drop (pos.toNat + 1)) iniSpace)))
    | Exec.panic msg => Exec.panic msg
    | Exec.outOfFuel => Exec.outOfFuel

/-- What a call of `LoadIni` leaves behind: how it ended (the returned error, or a panic), the
heap, and the reader. -/
structure LoadResult where
  exit : Exec (Option GoError)
  state : Heap
  reader : Reader

/-- One iteration of the loop of `LoadIni`, entered with `section = sect`: either the call
ends, by a return or a panic (left), or the loop goes on with a new heap, section and reader
(right). -/
def LoadIni.iter (h : Heap) (viewable : Viewable) (sect : Str) (reader : Reader) :
    LoadResult ⊕ (Heap × Str × Reader) :=
  match reader.ReadString '\n' with
  | (_, some (GoError.other msg), reader) =>
    Sum.inl ⟨Exec.ret (some (GoError.other msg)), h, reader⟩
  | (line, err, reader) =>
    match LoadIni.line sect (CutSuffix (CutSuffix line ['\n']).1 ['\r']).1 with
    | Exec.panic msg => Sum.inl ⟨Exec.panic msg, h, reader⟩
    | Exec.outOfFuel => Sum.inl ⟨Exec.outOfFuel, h, reader⟩
    | Exec.ret (sect, none) =>
      if err = some GoError.EOF then Sum.inl ⟨Exec.ret none, h, reader⟩
      else Sum.inr (h, sect, reader)
    | Exec.ret (sect, some (key, val)) =>
      match Viewable.SetString h viewable key val with
      | ⟨some msg, h⟩ => Sum.inl ⟨Exec.panic msg, h, reader⟩
      | ⟨none, h⟩ =>
        if err = some GoError.EOF then Sum.inl ⟨Exec.ret none, h, reader⟩
        else Sum.inr (h, sect, reader)

/-- The loop of `LoadIni`, run for at most `fuel` iterations, entered with `section = sect`. -/
def LoadIni.loop : Nat → Heap → Viewable → Str → Reader → LoadResult
  | 0, h, _, _, reader => ⟨Exec.outOfFuel, h, reader⟩
  | fuel + 1, h, viewable, sect, reader =>
    match LoadIni.iter h viewable sect reader with
    | Sum.inl result => result
    | Sum.inr (h, sect, reader) => LoadIni.loop fuel h viewable sect reader

/-- The loop of `LoadIni` entered with `section = sect`.  Every iteration that does not end
the call consumes a line, so `len(data) + 1` iterations suffice. -/
def LoadIni.resume (h : Heap) (viewable : Viewable) (sect : Str) (reader : Reader) : LoadResult :=
  LoadIni.loop (reader.data.length + 1) h viewable sect reader

def LoadIni (h : Heap) (viewable : Viewable) (reader : Reader) : LoadResult :=
  if !Viewable.IsWritable h viewable then
    ⟨Exec.panic "cannot load ini config to read-only target", h, reader⟩
  else
    LoadIni.resume h viewable [] reader

def escapeIniString (s : Str) (equal : Bool) : Str :=
  let s := ReplaceAll s '\\' ['\\', '\\']
  let s := ReplaceAll s '\n' ['\\', 'n']
  if equal then ReplaceAll s '=' ['\\', '='] else s

/-- The header `SaveIni` writes. -/
def iniHeader : Str :=
  ";\n; This INI file was autogenerated\n;\n\n".toList

/-- The loop of `saveIniInternal` over the slice of keys. -/
def saveIniInternal.loop (h : Heap) (viewable : Viewable) : Str → List Str → Str
  | writer, [] => writer
  | writer, key :: rest =>
    match Viewable.GetString h viewable key with
    | (val, true) =>
      saveIniInternal.loop h viewable
        (writer ++ escapeIniString key true ++ ['='] ++ escapeIniString val false ++ ['\n']) rest
    | (_, false) => saveIniInternal.loop h viewable writer rest

/-- Source `saveIniInternal`.  `keys` is the slice that `keylist.ToSlice()` returned, one of
the arrangements allowed by `KeyList.ToSlice`; the result is the writer after the call. -/
def saveIniInternal (h : Heap) (viewable : Viewable) (writer : Str) (head : Bool)
    (keys : List Str) : Str :=
  saveIniInternal.loop h viewable (if head then writer ++ iniHeader else writer) keys

def SaveIni (h : Heap) (viewable : Viewable) (writer : Str) (keys : List Str) : Str :=
  saveIniInternal h viewable writer true keys

/-- A heap whose only interesting object is a new layer at address `0`. -/
def freshHeap : Heap where
  layers := fun _ => NewLayer "test".toList
  configs := fun _ => NewConfig

/-- The test `indexOfUnescapedEq` applies to a position `i ≥ 1` of the line: an equal sign
that is at position 1 or does not follow a backslash. -/
def acceptsEq (ln : Str) (i : Nat) : Prop :=
  ln[i]? = some '=' ∧ (i = 1 ∨ ln[i - 1]? ≠ some '\\')

/-- An equal sign at position `i` of the line that is not immediately preceded by a
backslash. -/
def unescapedEqAt (ln : Str) (i : Nat) : Prop :=
  ln[i]? = some '=' ∧ (i = 0 ∨ ln[i - 1]? ≠ some '\\')

/-- The escape that the saved form of both keys and values starts from: every backslash is
replaced by two backslashes, and afterwards every line feed by backslash-`n`. -/
def iniEscape (s : Str) : Str :=
  ReplaceAll (ReplaceAll s '\\' ['\\', '\\']) '\n' ['\\', 'n']

/-- The line for key `k` with value `v`: the escaped key with every equal sign further
replaced by backslash-equal, an equal sign, the escaped value, a line feed. -/
def iniEntry (k v : Str) : Str :=
  ReplaceAll (iniEscape k) '=' ['\\', '='] ++ ['='] ++ iniEscape v ++ ['\n']

/-- The `SetString` call that a line read by `LoadIni` makes when the section is the root, if
it makes one. -/
def rootCall (ln : Str) : Option (Str × Str) :=
  match LoadIni.line [] (CutSuffix ln ['\r']).1 with
  | Exec.ret (_, call) => call
  | _ => none

/-- The heap after the calls `SetString(key, value)` on the layer at `l`, in order. -/
def storeAll (h : Heap) (l : Nat) (calls : List (Str × Str)) : Heap :=
  calls.foldl (fun h p => (Layer.SetString h l p.1 p.2).state) h

/-- What `escapeIniString` makes of one byte. -/
def escapeByte (equal : Bool) (c : Char) : Str :=
  if c = '\\' then ['\\', '\\']
  else if c = '\n' then ['\\', 'n']
  else if equal = true ∧ c = '=' then ['\\', '=']
  else [c]

/-- The first byte of `s`, if any, is none of `bad`. -/
def headOk (bad s : Str) : Bool :=
  match s.head? with
  | some c => !bad.contains c
  | none => true

/-- The last byte of `s`, if any, is none of `bad`. -/
def lastOk (bad s : Str) : Bool :=
  match s.getLast? with
  | some c => !bad.contains c
  | none => true

/-- Bindings that `LoadIni` reads back from the line `saveIniInternal` writes for them: the
key is not empty, begins with none of space, tab, form feed, `;`, `=` and ends with none of
space, tab, form feed, backslash; the value begins with none of space, tab, form feed and does
not end with a carriage return; and not both the key begins with `[` and the value ends with
`]`. -/
def iniRoundTrips (k v : Str) : Bool :=
  k != [] && headOk [' ', '\t', '\x0c', ';', '='] k && lastOk [' ', '\t', '\x0c', '\\'] k &&
    headOk iniSpace v && lastOk ['\r'] v &&
    !(k.head? == some '[' && v.getLast? == some ']')

/-- A heap with a new layer at address `0` and, at address `1`, a layer holding the value
` v` (with a leading space) for the key `k` and the value `w` for the empty key. -/
def iniExampleHeap : Heap where
  layers := fun l =>
    if l = 1 then ⟨"saved".toList, [("k".toList, " v".toList), ([], "w".toList)], true⟩
    else NewLayer "loaded".toList
  configs := fun _ => NewConfig

/-- A heap whose layers all hold the bindings of `TestSaveIni` that need escaping: the key
`key=1` with value `value1`, and the key `xx` with the two-line value `yy`, `zz`. -/
def saveExampleHeap : Heap where
  layers := fun _ =>
    ⟨"test".toList, [("key=1".toList, "value1".toList), ("xx".toList, "yy\nzz".toList)], true⟩
  configs := fun _ => NewConfig

/-- A config in which the layer at `3` was added twice, with priorities 33 and 5. -/
def twiceOps : List ConfigOp :=
  [.add ⟨3, 33, false⟩, .add ⟨3, 5, false⟩]

/-- A config with the read-only layer at `3` (priority 33) above the writable layer at `9`
(priority 5). -/
def shadowOps : List ConfigOp :=
  [.add ⟨3, 33, false⟩, .add ⟨9, 5, true⟩]

/-- A heap whose layers all hold the keys of the example in the documentation of
`Viewable.ListKeys`: `test.key.1`, `test.key.2` and `test.value.3`. -/
def listExampleHeap : Heap where
  layers := fun _ =>
    ⟨"test".toList, [("test.key.1".toList, "a".toList), ("test.key.2".toList, "b".toList),
      ("test.value.3".toList, "c".toList)], true⟩
  configs := fun _ => NewConfig

/-! ## Go library: package `strconv`

`ParseBool`, `FormatInt(i, 10)` and `ParseInt(s, 0, 64)`, the calls `view.go` makes.  A
result `none` stands for a non-nil error; the callers only test the error against nil. -/

/-- Library `strconv.ParseBool`: it accepts 1, t, T, TRUE, true, True, 0, f, F, FALSE, false,
False; any other value returns an error. -/
def ParseBool (str : Str) : Option Bool :=
  if str ∈ ["1".toList, "t".toList, "T".toList, "true".toList, "TRUE".toList, "True".toList]
  then some true
  else if str ∈ ["0".toList, "f".toList, "F".toList, "false".toList, "FALSE".toList,
    "False".toList]
  then some false
  else none

/-- The byte of the decimal digit `d`. -/
def digitByte (d : Nat) : Char :=
  Char.ofNat (48 + d)

/-- The decimal digits of `u`, most significant first; `fuel` bounds their number. -/
def formatDecimal : Nat → Nat → Str
  | 0, _ => []
  | fuel + 1, u =>
    if u < 10 then [digitByte u] else formatDecimal fuel (u / 10) ++ [digitByte (u % 10)]

/-- Library `strconv.FormatInt(i, 10)` for an `int64`: the decimal digits of the magnitude,
which has at most 20 of them, after a minus sign when `i` is negative. -/
def FormatInt (i : Int) : Str :=
  if i < 0 then '-' :: formatDecimal 20 (-i).toNat else formatDecimal 20 i.toNat

/-- Library `strconv`, internal `lower(c)`: `c | ('x' - 'X')`. -/
def lower (c : Char) : Char :=
  Char.ofNat (c.toNat ||| 0x20)

/-- The digit value `ParseUint` gives a byte, if it is a digit or a letter. -/
def digitVal (c : Char) : Option Nat :=
  if '0' ≤ c ∧ c ≤ '9' then some (c.toNat - 48)
  else if 'a' ≤ lower c ∧ lower c ≤ 'z' then some ((lower c).toNat - 97 + 10)
  else none

/-- The digit loop of `strconv.ParseUint` for bit size 64: `n` is the value so far and `us`
tells whether an underscore was seen; `none` is a syntax or range error. -/
def ParseUint.loop (base : Nat) (base0 : Bool) : Str → Nat → Bool → Option (Nat × Bool)
  | [], n, us => some (n, us)
  | c :: rest, n, us =>
    if c = '_' ∧ base0 = true then ParseUint.loop base base0 rest n true
    else
      match digitVal c with
      | none => none
      | some d =>
        if d ≥ base then none
        else if n ≥ (2 ^ 64 - 1) / base + 1 then none
        else if (n * base + d) % 2 ^ 64 < n * base ∨ (n * base + d) % 2 ^ 64 > 2 ^ 64 - 1 then none
        else ParseUint.loop base base0 rest ((n * base + d) % 2 ^ 64) us

/-- The loop of `strconv`, internal `underscoreOK`; `saw` is the kind of the last byte. -/
def underscoreOK.loop (hex : Bool) : Str → Char → Bool
  | [], saw => saw != '_'
  | c :: rest, saw =>
    if ('0' ≤ c ∧ c ≤ '9') ∨ (hex = true ∧ 'a' ≤ lower c ∧ lower c ≤ 'f') then
      underscoreOK.loop hex rest '0'
    else if c = '_' then
      if saw != '0' then false else underscoreOK.loop hex rest '_'
    else if saw = '_' then false
    else underscoreOK.loop hex rest '!'

/-- Library `strconv`, internal `underscoreOK`: underscores must separate digits, or a base
prefix and a digit. -/
def underscoreOK (s : Str) : Bool :=
  let s := if s.head? = some '-' ∨ s.head? = some '+' then s.tail else s
  if s.length ≥ 2 ∧ s.head? = some '0' ∧
      (s[1]?.map lower = some 'b' ∨ s[1]?.map lower = some 'o' ∨ s[1]?.map lower = some 'x')
  then underscoreOK.loop (s[1]?.map lower = some 'x') (s.drop 2) '0'
  else underscoreOK.loop false s '^'

/-- Library `strconv.ParseUint(s, 0, 64)`: the base is taken from the prefix of `s`. -/
def ParseUint (s : Str) : Option Nat :=
  if s = [] then none
  else
    let r :=
      if s.head? = some '0' then
        if s.length ≥ 3 ∧ s[1]?.map lower = some 'b' then ParseUint.loop 2 true (s.drop 2) 0 false
        else if s.length ≥ 3 ∧ s[1]?.map lower = some 'o' then
          ParseUint.loop 8 true (s.drop 2) 0 false
        else if s.length ≥ 3 ∧ s[1]?.map lower = some 'x' then
          ParseUint.loop 16 true (s.drop 2) 0 false
        else ParseUint.loop 8 true (s.drop 1) 0 false
      else ParseUint.loop 10 true s 0 false
    match r with
    | none => none
    | some (n, us) => if us = true ∧ underscoreOK s = false then none else some n

/-- The range check and sign of `strconv.ParseInt` for bit size 64. -/
def ParseInt.signed (neg : Bool) (s : Str) : Option Int :=
  match ParseUint s with
  | none => none
  | some un =>
    if neg = false ∧ un ≥ 2 ^ 63 then none
    else if neg = true ∧ un > 2 ^ 63 then none
    else some (if neg = true then -(un : Int) else (un : Int))

/-- Library `strconv.ParseInt(s, 0, 64)`. -/
def ParseInt (s : Str) : Option Int :=
  if s = [] then none
  else if s.head? = some '+' then ParseInt.signed false s.tail
  else if s.head? = some '-' then ParseInt.signed true s.tail
  else ParseInt.signed false s

/-! ## view.go: typed access -/

def View.GetInt (h : Heap) (view : View) (key : Str) : Int × Bool :=
  match View.GetString h view key with
  | (sv, true) =>
    match ParseInt sv with
    | some ret => (ret, true)
    | none => (0, false)
  | (_, false) => (0, false)

def View.SetInt (h : Heap) (view : View) (key : Str) (value : Int) : Result Heap :=
  View.SetString h view key (FormatInt value)

def View.GetBool (h : Heap) (view : View) (key : Str) : Bool × Bool :=
  match View.GetString h view key with
  | (sv, true) =>
    match ParseBool sv with
    | some ret => (ret, true)
    | none => (false, false)
  | (_, false) => (false, false)

def View.SetBool (h : Heap) (view : View) (key : Str) (value : Bool) : Result Heap :=
  View.SetString h view key (if value then "true".toList else "false".toList)

/-- A heap whose layers all hold the bindings `TestViewIntBool` stores. -/
def intBoolHeap : Heap where
  layers := fun _ =>
    ⟨"test".toList, [("year".toList, "2024".toList), ("numtrue".toList, "1".toList),
      ("altrue".toList, "true".toList), ("numstart".toList, "123text".toList),
      ("hex".toList, "0xff".toList)], true⟩
  configs := fun _ => NewConfig

/-! ## ini.go with the run-time checks of the index and slice expressions

Go panics on an index expression `s[i]` unless `0 ≤ i < len(s)` and on a slice expression
`s[a:b]` unless `0 ≤ a ≤ b ≤ len(s)`.  The definitions above read an index with `s[i]?` and
cut with `take` and `drop`, which are total; the ones below are the same code with these
checks written out, so that a failed check is a panic. -/

/-- The loop of `indexOfUnescapedEq` with the check of `s[idx-1]` and of `s[idx:]`. -/
def indexOfUnescapedEq.checkedLoop : Nat → Str → Int → Exec Int
  | 0, _, _ => Exec.outOfFuel
  | fuel + 1, s, st =>
    if IndexByte s '=' < 0 then Exec.ret (-1)
    else if IndexByte s '=' = 0 then Exec.ret (st + IndexByte s '=')
    else if IndexByte s '=' - 1 < 0 ∨ IndexByte s '=' - 1 ≥ s.length then
      Exec.panic "index out of range"
    else if s[(IndexByte s '=' - 1).toNat]? ≠ some '\\' then Exec.ret (st + IndexByte s '=')
    else if IndexByte s '=' + 1 < 0 ∨ IndexByte s '=' + 1 > s.length then
      Exec.panic "slice bounds out of range"
    else
      indexOfUnescapedEq.checkedLoop fuel (s.drop (IndexByte s '=' + 1).toNat)
        (st + (IndexByte s '=' + 1))

/-- Source `indexOfUnescapedEq` with the checks of `s[1:]`, `s[idx-1]` and `s[idx:]`. -/
def indexOfUnescapedEq.checked (s : Str) : Exec Int :=
  if s.length < 1 then Exec.panic "slice bounds out of range"
  else indexOfUnescapedEq.checkedLoop s.length (s.drop 1) 1

/-- The body of the loop of `LoadIni` with the checks of `line[1 : len(line)-1]`, `line[:pos]`
and `line[pos+1:]`, calling `indexOfUnescapedEq` with its checks. -/
def LoadIni.lineChecked (sect ln : Str) : Exec (Str × Option (Str × Str)) :=
  if ln = [] ∨ HasPrefix ln [';'] = true then Exec.ret (sect, none)
  else if (HasPrefix ln ['['] && HasSuffix ln [']']) = true then
    if (ln.length : Int) - 1 < 1 then Exec.panic "slice bounds out of range"
    else Exec.ret (ensureTrailingDot ((ln.take (ln.length - 1)).drop 1), none)
  else
    match indexOfUnescapedEq.checked ln with
    | Exec.ret pos =>
      if pos < 0 then Exec.ret (sect, none)
      else if pos > ln.length ∨ pos + 1 > ln.length then
        Exec.panic "slice bounds out of range"
      else
        Exec.ret (sect, some (sect ++ unescapes.Replace (Trim (ln.take pos.toNat) iniSpace),
          unescapes.Replace (TrimLeft (ln.drop (pos.toNat + 1)) iniSpace)))
    | Exec.panic msg => Exec.panic msg
    | Exec.outOfFuel => Exec.outOfFuel

/-! ## The lines of an INI stream -/

/-- The value of `section` after the loop of `LoadIni`, entered with `section = sect`, has
gone through the lines `lines` (given without their line feed). -/
def LoadIni.sectionAfter : Str → List Str → Str
  | sect, [] => sect
  | sect, ln :: rest =>
    match LoadIni.line sect (CutSuffix ln ['\r']).1 with
    | Exec.ret (sect', _) => LoadIni.sectionAfter sect' rest
    | _ => LoadIni.sectionAfter sect rest

/-- The `SetString` calls that the loop of `LoadIni`, entered with `section = sect`, makes
for the lines `lines` (given without their line feed), in order. -/
def LoadIni.calls : Str → List Str → List (Str × Str)
  | _, [] => []
  | sect, ln :: rest =>
    match LoadIni.line sect (CutSuffix ln ['\r']).1 with
    | Exec.ret (sect', some call) => call :: LoadIni.calls sect' rest
    | Exec.ret (sect', none) => LoadIni.calls sect' rest
    | _ => LoadIni.calls sect rest

/-- The heap after the calls `SetString(key, value)` on the target `viewable`, in order. -/
def Viewable.storeAll (h : Heap) (viewable : Viewable) (calls : List (Str × Str)) : Heap :=
  calls.foldl (fun h p => (Viewable.SetString h viewable p.1 p.2).state) h

/-! ## Specification of the entry list of a config

The insertions still present after a sequence of calls, described without the list the code
keeps: every add call is an insertion, tagged with the position of the call, and a remove
call takes away the first entry, in resolution order, that refers to the layer. -/

/-- Specification: the stable sort by descending priority. -/
def sortByPriority (ts : List (Nat × configItem)) : List (Nat × configItem) :=
  ts.insertionSort (fun x y => y.2.prio ≤ x.2.prio)

/-- Specification of one call: the insertions still present, in the order they were added,
and the number of calls made. -/
def presentStep (st : List (Nat × configItem) × Nat) : ConfigOp → List (Nat × configItem) × Nat
  | .add a => (st.1 ++ [(st.2, a.item)], st.2 + 1)
  | .remove layer =>
    match (sortByPriority st.1).find? (fun t => decide (t.2.layer = layer)) with
    | some t => (st.1.filter (fun u => decide (u ≠ t)), st.2 + 1)
    | none => (st.1, st.2 + 1)

/-- Specification: the insertions still present after the calls `ops` on a new config, in the
order they were added. -/
def presentInsertions (ops : List ConfigOp) : List (Nat × configItem) :=
  (ops.foldl presentStep ([], 0)).1

/-! ## Resolution order of a config -/

theorem mem_slicesInsert {α : Type} (s : List α) (i : Nat) (v x : α) :
    x ∈ slicesInsert s i v ↔ x = v ∨ x ∈ s := by
  unfold slicesInsert
  constructor
  · intro hx
    rcases List.mem_append.1 hx with h1 | h1
    · exact Or.inr (List.mem_of_mem_take h1)
    · rcases List.mem_cons.1 h1 with h2 | h2
      · exact Or.inl h2
      · exact Or.inr (List.mem_of_mem_drop h2)
  · intro hx
    rcases hx with h1 | h1
    · subst h1
      exact List.mem_append_right _ (List.mem_cons_self _ _)
    · have h2 : x ∈ s.take i ++ s.drop i := by rwa [List.take_append_drop]
      rcases List.mem_append.1 h2 with h3 | h3
      · exact List.mem_append_left _ h3
      · exact List.mem_append_right _ (List.mem_cons_of_mem _ h3)

theorem map_slicesInsert {α β : Type} (f : α → β) (s : List α) (i : Nat) (v : α) :
    (slicesInsert s i v).map f = slicesInsert (s.map f) i (f v) := by
  simp [slicesInsert, List.map_take, List.map_drop]

theorem map_slicesDelete {α β : Type} (f : α → β) (s : List α) (i : Nat) :
    (slicesDelete s i).map f = slicesDelete (s.map f) i := by
  simp [slicesDelete, List.map_take, List.map_drop]

theorem slicesDelete_sublist {α : Type} (s : List α) (i : Nat) : (slicesDelete s i).Sublist s := by
  unfold slicesDelete
  have h1 : (s.take i ++ s.drop (i + 1)).Sublist (s.take i ++ s.drop i) := by
    apply List.Sublist.append (List.Sublist.refl _)
    rw [← List.drop_drop]
    exact List.drop_sublist _ _
  rwa [List.take_append_drop] at h1

theorem lexBefore_prio_le {a b : Nat × configItem} (hab : lexBefore a b) : b.2.prio ≤ a.2.prio := by
  rcases hab with h1 | ⟨h1, _⟩
  · exact le_of_lt h1
  · exact le_of_eq h1.symm

/-- Inserting a new entry, tagged above all present tags, at the slot `addLayerImpl` picks
keeps the tagged list in resolution order. -/
theorem pairwise_insert_slot (n : Nat) (it : configItem) :
    ∀ ts : List (Nat × configItem), ts.Pairwise lexBefore → (∀ t ∈ ts, t.1 < n) →
      (slicesInsert ts (findSlot it.prio (ts.map Prod.snd)) (n, it)).Pairwise lexBefore := by
  intro ts
  induction ts with
  | nil => intro _ _; simp [slicesInsert, findSlot]
  | cons t ts ih =>
    intro hp hn
    rw [List.pairwise_cons] at hp
    by_cases hlt : t.2.prio < it.prio
    · have hs : findSlot it.prio ((t :: ts).map Prod.snd) = 0 := by simp [findSlot, hlt]
      rw [hs]
      simp only [slicesInsert, List.take_zero, List.drop_zero, List.nil_append]
      rw [List.pairwise_cons]
      refine ⟨?_, List.pairwise_cons.2 hp⟩
      intro x hx
      rcases List.mem_cons.1 hx with h1 | h1
      · subst h1; exact Or.inl hlt
      · exact Or.inl (lt_of_le_of_lt (lexBefore_prio_le (hp.1 x h1)) hlt)
    · have hs : findSlot it.prio ((t :: ts).map Prod.snd)
          = findSlot it.prio (ts.map Prod.snd) + 1 := by simp [findSlot, hlt]
      rw [hs]
      have hcons : slicesInsert (t :: ts) (findSlot it.prio (ts.map Prod.snd) + 1) (n, it)
          = t :: slicesInsert ts (findSlot it.prio (ts.map Prod.snd)) (n, it) := by
        simp [slicesInsert]
      rw [hcons, List.pairwise_cons]
      refine ⟨?_, ih hp.2 (fun x hx => hn x (List.mem_cons_of_mem _ hx))⟩
      intro x hx
      rcases (mem_slicesInsert _ _ _ _).1 hx with h1 | h1
      · subst h1
        have h2 : it.prio ≤ t.2.prio := not_lt.1 hlt
        rcases lt_or_eq_of_le h2 with h3 | h3
        · exact Or.inl h3
        · exact Or.inr ⟨h3.symm, hn t (List.mem_cons_self _ _)⟩
      · exact hp.1 x h1

theorem setConfig_configs_self (h : Heap) (c : Nat) (x : Config) :
    (h.setConfig c x).configs c = x := by
  simp [Heap.setConfig]

theorem setConfig_layers (h : Heap) (c : Nat) (x : Config) :
    (h.setConfig c x).layers = h.layers := rfl

theorem AddCall.run_items (c : Nat) (h : Heap) (a : AddCall) :
    ((a.run c h).configs c).items
      = slicesInsert (h.configs c).items (findSlot a.prio (h.configs c).items) a.item := by
  unfold AddCall.run
  split <;> rename_i hw
  · simp [Config.AddWritableLayer, Config.addLayerImpl, setConfig_configs_self, AddCall.item, hw]
  · simp [Config.AddLayer, Config.addLayerImpl, setConfig_configs_self, AddCall.item, hw]

theorem ConfigOp.run_layers (c : Nat) (h : Heap) (op : ConfigOp) :
    (op.run c h).layers = h.layers := by
  cases op with
  | add a =>
    simp only [ConfigOp.run, AddCall.run]
    split <;> rfl
  | remove layer =>
    simp only [ConfigOp.run, Config.RemoveLayer]
    split <;> rfl

theorem foldl_run_layers (c : Nat) (ops : List ConfigOp) :
    ∀ h : Heap, (ops.foldl (ConfigOp.run c) h).layers = h.layers := by
  induction ops with
  | nil => intro h; rfl
  | cons op ops ih => intro h; rw [List.foldl_cons, ih, ConfigOp.run_layers]

theorem RemoveLayer_items_sublist (c : Nat) (h : Heap) (layer : Nat) :
    ∃ i, (((Config.RemoveLayer h c layer).2).configs c).items = slicesDelete (h.configs c).items i
      ∨ (((Config.RemoveLayer h c layer).2).configs c).items = (h.configs c).items := by
  cases hidx : slicesIndexFunc (fun item => decide (item.layer = layer)) (h.configs c).items with
  | none => exact ⟨0, Or.inr (by simp [Config.RemoveLayer, hidx])⟩
  | some idx =>
    exact ⟨idx, Or.inl (by simp [Config.RemoveLayer, hidx, setConfig_configs_self])⟩

/-- Every state reached from a new config by add and remove calls has its entries in
resolution order: there is a tagging of the entries by the positions of the add calls that
created them, under which the list is ordered by `lexBefore`.  When no remove call was made,
every add call has its entry. -/
theorem run_tagged (c : Nat) (h0 : Heap) (hnew : h0.configs c = NewConfig) (ops : List ConfigOp) :
    ∃ ts : List (Nat × configItem),
      ts.map Prod.snd = ((ops.foldl (ConfigOp.run c) h0).configs c).items ∧
      ts.Pairwise lexBefore ∧
      (∀ t ∈ ts, ∃ a, ops[t.1]? = some (ConfigOp.add a) ∧ t.2 = a.item) ∧
      ((∀ op ∈ ops, ∃ a, op = ConfigOp.add a) → ∀ i, i < ops.length → ∃ t ∈ ts, t.1 = i) := by
  induction ops using List.reverseRecOn with
  | nil =>
    refine ⟨[], ?_, List.Pairwise.nil, ?_, ?_⟩
    · simp [hnew, NewConfig]
    · intro t ht; cases ht
    · intro _ i hi; simp at hi
  | append_singleton ops op ih =>
    obtain ⟨ts, hmap, hpw, htag, hall⟩ := ih
    have hlt : ∀ t ∈ ts, t.1 < ops.length := by
      intro t ht
      obtain ⟨a, ha, _⟩ := htag t ht
      by_contra hcon
      rw [List.getElem?_eq_none (not_lt.1 hcon)] at ha
      cases ha
    have htag' : ∀ t ∈ ts, ∃ a, (ops ++ [op])[t.1]? = some (ConfigOp.add a) ∧ t.2 = a.item := by
      intro t ht
      obtain ⟨a, ha, hb⟩ := htag t ht
      exact ⟨a, by rw [List.getElem?_append_left (hlt t ht)]; exact ha, hb⟩
    rw [List.foldl_append, List.foldl_cons, List.foldl_nil]
    cases op with
    | add a =>
      refine ⟨slicesInsert ts (findSlot a.item.prio (ts.map Prod.snd)) (ops.length, a.item),
        ?_, pairwise_insert_slot _ _ ts hpw hlt, ?_, ?_⟩
      · rw [map_slicesInsert, hmap]
        simp only [ConfigOp.run]
        rw [AddCall.run_items]
        rfl
      · intro t ht
        rcases (mem_slicesInsert _ _ _ _).1 ht with h1 | h1
        · subst h1
          exact ⟨a, by simp, rfl⟩
        · exact htag' t h1
      · intro hadd i hi
        rw [List.length_append, List.length_singleton] at hi
        rcases Nat.lt_succ_iff_lt_or_eq.1 hi with h1 | h1
        · obtain ⟨t, ht, hti⟩ :=
            hall (fun op hop => hadd op (List.mem_append_left _ hop)) i h1
          exact ⟨t, (mem_slicesInsert _ _ _ _).2 (Or.inr ht), hti⟩
        · exact ⟨(ops.length, a.item), (mem_slicesInsert _ _ _ _).2 (Or.inl rfl), h1.symm⟩
    | remove layer =>
      obtain ⟨i, hi⟩ := RemoveLayer_items_sublist c (ops.foldl (ConfigOp.run c) h0) layer
      simp only [ConfigOp.run]
      rcases hi with hi | hi
      · refine ⟨slicesDelete ts i, ?_, hpw.sublist (slicesDelete_sublist ts i), ?_, ?_⟩
        · rw [map_slicesDelete, hmap, hi]
        · intro t ht
          exact htag' t ((slicesDelete_sublist ts i).subset ht)
        · intro hadd
          obtain ⟨a, ha⟩ := hadd (ConfigOp.remove layer) (by simp)
          cases ha
      · refine ⟨ts, by rw [hmap, hi], hpw, htag', ?_⟩
        intro hadd
        obtain ⟨a, ha⟩ := hadd (ConfigOp.remove layer) (by simp)
        cases ha

/-- The scan of `Config.GetString` over entries in resolution order stops at the first entry
whose layer holds the key, and every other entry holding the key comes later in that order. -/
theorem getString_loop_spec (h : Heap) (k : Str) :
    ∀ ts : List (Nat × configItem), ts.Pairwise lexBefore →
      ((∀ t ∈ ts, ¬ Layer.holds h t.2.layer k) ∧
          Config.GetString.loop h k (ts.map Prod.snd) = ([], false)) ∨
      (∃ t ∈ ts, ∃ v, mapGet (h.layers t.2.layer).values k = some v ∧
          Config.GetString.loop h k (ts.map Prod.snd) = (v, true) ∧
          ∀ u ∈ ts, Layer.holds h u.2.layer k → u = t ∨ lexBefore t u) := by
  intro ts
  induction ts with
  | nil => intro _; exact Or.inl ⟨by simp, rfl⟩
  | cons t ts ih =>
    intro hp
    rw [List.pairwise_cons] at hp
    cases hget : mapGet (h.layers t.2.layer).values k with
    | some v =>
      refine Or.inr ⟨t, List.mem_cons_self _ _, v, hget, ?_, ?_⟩
      · simp [Config.GetString.loop, Layer.GetString, hget]
      · intro u hu _
        rcases List.mem_cons.1 hu with h1 | h1
        · exact Or.inl h1
        · exact Or.inr (hp.1 u h1)
    | none =>
      have hstep : Config.GetString.loop h k ((t :: ts).map Prod.snd)
          = Config.GetString.loop h k (ts.map Prod.snd) := by
        simp [Config.GetString.loop, Layer.GetString, hget]
      rw [hstep]
      rcases ih hp.2 with ⟨h1, h2⟩ | ⟨u, hu, v, h1, h2, h3⟩
      · refine Or.inl ⟨?_, h2⟩
        intro x hx
        rcases List.mem_cons.1 hx with h4 | h4
        · subst h4; simp [Layer.holds, hget]
        · exact h1 x h4
      · refine Or.inr ⟨u, List.mem_cons_of_mem _ hu, v, h1, h2, ?_⟩
        intro x hx hh
        rcases List.mem_cons.1 hx with h4 | h4
        · subst h4; simp [Layer.holds, hget] at hh
        · exact h3 x h4 hh

theorem foldl_addCall_eq (c : Nat) (calls : List AddCall) (h : Heap) :
    calls.foldl (AddCall.run c) h = (calls.map ConfigOp.add).foldl (ConfigOp.run c) h := by
  rw [List.foldl_map]
  rfl

/-- C1: on a config built by add calls only, `GetString` returns the value of the member layer
of highest priority that holds the key, the earliest added among equal priorities, and it
returns the empty string and false exactly when no member layer holds the key. -/
theorem config_getString_highest_priority (h0 : Heap) (c : Nat) (calls : List AddCall) (k : Str)
    (hnew : h0.configs c = NewConfig) :
    ((∃ a ∈ calls, Layer.holds (calls.foldl (AddCall.run c) h0) a.layer k) →
      ∃ (i : Fin calls.length) (v : Str),
        mapGet (((calls.foldl (AddCall.run c) h0).layers (calls.get i).layer)).values k = some v ∧
        (∀ j : Fin calls.length,
          Layer.holds (calls.foldl (AddCall.run c) h0) (calls.get j).layer k →
            (calls.get j).prio < (calls.get i).prio ∨
              ((calls.get j).prio = (calls.get i).prio ∧ i ≤ j)) ∧
        Config.GetString (calls.foldl (AddCall.run c) h0) c k = (v, true)) ∧
    (Config.GetString (calls.foldl (AddCall.run c) h0) c k = ([], false) ↔
      ∀ a ∈ calls, ¬ Layer.holds (calls.foldl (AddCall.run c) h0) a.layer k) := by
  obtain ⟨ts, hmap, hpw, htag, hall⟩ := run_tagged c h0 hnew (calls.map ConfigOp.add)
  rw [← foldl_addCall_eq] at hmap
  have hall' : ∀ i, i < calls.length → ∃ t ∈ ts, t.1 = i := by
    intro i hi
    exact hall (by intro op hop; obtain ⟨a, _, ha⟩ := List.mem_map.1 hop; exact ⟨a, ha.symm⟩) i
      (by simpa using hi)
  have htag' : ∀ t ∈ ts, ∃ hlt : t.1 < calls.length, t.2 = (calls.get ⟨t.1, hlt⟩).item := by
    intro t ht
    obtain ⟨a, ha, hb⟩ := htag t ht
    rw [List.getElem?_map] at ha
    cases hc : calls[t.1]? with
    | none => rw [hc] at ha; cases ha
    | some b =>
      rw [hc] at ha
      simp only [Option.map_some', Option.some.injEq, ConfigOp.add.injEq] at ha
      obtain ⟨hlt, hget⟩ := List.getElem?_eq_some_iff.1 hc
      refine ⟨hlt, ?_⟩
      rw [hb, ← ha]
      simp [List.get_eq_getElem, hget]
  have hmem : ∀ a ∈ calls, ∃ t ∈ ts, t.2 = a.item := by
    intro a ha
    obtain ⟨i, hi, hget⟩ := List.getElem_of_mem ha
    obtain ⟨t, ht, hti⟩ := hall' i hi
    obtain ⟨hlt, h2⟩ := htag' t ht
    refine ⟨t, ht, ?_⟩
    rw [h2]
    subst hti
    simp [List.get_eq_getElem, hget]
  unfold Config.GetString
  rw [← hmap]
  rcases getString_loop_spec (calls.foldl (AddCall.run c) h0) k ts hpw with
    ⟨h1, h2⟩ | ⟨t, ht, v, h1, h2, h3⟩
  · constructor
    · rintro ⟨a, ha, hh⟩
      obtain ⟨t, ht, hta⟩ := hmem a ha
      exact absurd (by rw [hta]; exact hh) (h1 t ht)
    · constructor
      · intro _ a ha hh
        obtain ⟨t, ht, hta⟩ := hmem a ha
        exact absurd (by rw [hta]; exact hh) (h1 t ht)
      · intro _; exact h2
  · obtain ⟨hlt, hti⟩ := htag' t ht
    have hlayer : t.2.layer = (calls.get ⟨t.1, hlt⟩).layer := by rw [hti]; rfl
    have hprio : t.2.prio = (calls.get ⟨t.1, hlt⟩).prio := by rw [hti]; rfl
    constructor
    · intro _
      refine ⟨⟨t.1, hlt⟩, v, by rw [← hlayer]; exact h1, ?_, h2⟩
      intro j hj
      obtain ⟨u, hu, huj⟩ := hall' j.1 j.2
      obtain ⟨hltu, hui⟩ := htag' u hu
      have hju : (⟨u.1, hltu⟩ : Fin calls.length) = j := Fin.ext huj
      rw [hju] at hui
      have hul : u.2.layer = (calls.get j).layer := by rw [hui]; rfl
      have hup : u.2.prio = (calls.get j).prio := by rw [hui]; rfl
      rcases h3 u hu (by rw [hul]; exact hj) with h4 | h4
      · right
        subst h4
        exact ⟨by rw [← hup, ← hprio], by rw [Fin.le_def]; exact le_of_eq huj⟩
      · rcases h4 with h5 | ⟨h5, h6⟩
        · left; rw [← hup, ← hprio]; exact h5
        · right
          exact ⟨by rw [← hup, ← hprio]; exact h5.symm,
            by rw [Fin.le_def]; simp only; rw [← huj]; exact le_of_lt h6⟩
    · constructor
      · intro hfalse
        rw [h2] at hfalse
        cases hfalse
      · intro hnone
        exfalso
        refine hnone (calls.get ⟨t.1, hlt⟩) (List.get_mem _ _ _) ?_
        rw [← hlayer]
        simp [Layer.holds, h1]

theorem config_getString_highest_priority_witness :
    exampleHeap.configs 0 = NewConfig ∧
    (Config.GetString (exampleCalls.foldl (AddCall.run 0) exampleHeap) 0 "my.duck".toList
        = ([], false) ↔
      ∀ a ∈ exampleCalls,
        ¬ Layer.holds (exampleCalls.foldl (AddCall.run 0) exampleHeap) a.layer "my.duck".toList) :=
  ⟨rfl, (config_getString_highest_priority exampleHeap 0 exampleCalls "my.duck".toList rfl).2⟩

/-- Stable insertion by descending priority of an entry tagged below all present tags keeps
a tagged list in resolution order. -/
theorem pairwise_orderedInsert_prio (a : Nat × configItem) :
    ∀ q : List (Nat × configItem), q.Pairwise lexBefore → (∀ x ∈ q, a.1 < x.1) →
      (q.orderedInsert (fun x y => y.2.prio ≤ x.2.prio) a).Pairwise lexBefore := by
  intro q
  induction q with
  | nil => intro _ _; simp
  | cons b q ih =>
    intro hp ha
    rw [List.pairwise_cons] at hp
    by_cases hle : b.2.prio ≤ a.2.prio
    · rw [List.orderedInsert, if_pos hle, List.pairwise_cons]
      refine ⟨?_, List.pairwise_cons.2 hp⟩
      intro x hx
      have hxb : x.2.prio ≤ b.2.prio := by
        rcases List.mem_cons.1 hx with h1 | h1
        · rw [h1]
        · exact lexBefore_prio_le (hp.1 x h1)
      rcases lt_or_eq_of_le (le_trans hxb hle) with h2 | h2
      · exact Or.inl h2
      · exact Or.inr ⟨h2.symm, ha x hx⟩
    · rw [List.orderedInsert, if_neg hle, List.pairwise_cons]
      refine ⟨?_, ih hp.2 (fun x hx => ha x (List.mem_cons_of_mem _ hx))⟩
      intro x hx
      rcases (List.mem_orderedInsert _).1 hx with h1 | h1
      · subst h1; exact Or.inl (not_le.1 hle)
      · exact hp.1 x h1

/-- Stable sorting by descending priority of entries listed in the order of their tags yields
the resolution order. -/
theorem pairwise_insertionSort_prio :
    ∀ p : List (Nat × configItem), p.Pairwise (fun a b => a.1 < b.1) →
      (p.insertionSort (fun x y => y.2.prio ≤ x.2.prio)).Pairwise lexBefore := by
  intro p
  induction p with
  | nil => intro _; simp
  | cons a p ih =>
    intro hp
    rw [List.pairwise_cons] at hp
    rw [List.insertionSort]
    refine pairwise_orderedInsert_prio a _ (ih hp.2) ?_
    intro x hx
    exact hp.1 x ((List.mem_insertionSort _).1 hx)

theorem lexBefore_asymm (a b : Nat × configItem) (hab : lexBefore a b) (hba : lexBefore b a) :
    False := by
  rcases hab with h1 | ⟨h1, h2⟩ <;> rcases hba with h3 | ⟨h3, h4⟩ <;> omega

/-- Two lists in resolution order with the same elements are equal. -/
theorem eq_of_perm_of_lexBefore {l₁ l₂ : List (Nat × configItem)} (hp : l₁.Perm l₂)
    (h₁ : l₁.Pairwise lexBefore) (h₂ : l₂.Pairwise lexBefore) : l₁ = l₂ := by
  haveI : IsAntisymm (Nat × configItem) lexBefore :=
    ⟨fun a b hab hba => (lexBefore_asymm a b hab hba).elim⟩
  exact List.eq_of_perm_of_sorted hp h₁ h₂

/-- Sorting by tag a list with distinct tags orders it strictly by tag. -/
theorem pairwise_insertionSort_tag (ts : List (Nat × configItem))
    (hnd : (ts.map Prod.fst).Nodup) :
    (ts.insertionSort (fun a b => a.1 ≤ b.1)).Pairwise (fun a b => a.1 < b.1) := by
  haveI : IsTotal (Nat × configItem) (fun a b => a.1 ≤ b.1) := ⟨fun a b => Nat.le_total a.1 b.1⟩
  haveI : IsTrans (Nat × configItem) (fun a b => a.1 ≤ b.1) :=
    ⟨fun a b c hab hbc => Nat.le_trans hab hbc⟩
  have hs : (ts.insertionSort (fun a b => a.1 ≤ b.1)).Pairwise (fun a b => a.1 ≤ b.1) :=
    List.sorted_insertionSort _ ts
  have hnd' : ((ts.insertionSort (fun a b => a.1 ≤ b.1)).map Prod.fst).Nodup :=
    ((List.perm_insertionSort _ ts).map Prod.fst).nodup_iff.2 hnd
  have hne : (ts.insertionSort (fun a b => a.1 ≤ b.1)).Pairwise (fun a b => a.1 ≠ b.1) := by
    rw [List.Nodup, List.pairwise_map] at hnd'
    exact hnd'
  exact (hs.and hne).imp (fun h => lt_of_le_of_ne h.1 h.2)

/-! ## Views -/

theorem hasSuffix_singleton (s : Str) (c : Char) :
    HasSuffix s [c] = true ↔ s.getLast? = some c := by
  unfold HasSuffix
  rw [List.isSuffixOf_iff_suffix]
  constructor
  · rintro ⟨t, ht⟩
    rw [← ht]
    simp
  · intro hl
    obtain ⟨t, ht⟩ : ∃ t, s = t ++ [c] := by
      rcases List.eq_nil_or_concat s with h1 | ⟨t, x, h1⟩
      · subst h1; simp at hl
      · subst h1
        simp at hl
        exact ⟨t, by rw [hl, List.concat_eq_append]⟩
    exact ⟨t, ht.symm⟩

theorem ensureTrailingDot_of_plain (p : Str) (hne : p ≠ []) (hdot : p.getLast? ≠ some '.') :
    ensureTrailingDot p = p ++ ['.'] := by
  have h1 : HasSuffix p ['.'] = false := by
    rw [← Bool.not_eq_true, hasSuffix_singleton]
    exact hdot
  simp [ensureTrailingDot, h1, hne]

theorem ensureTrailingDot_nil : ensureTrailingDot [] = [] := by
  simp [ensureTrailingDot]

theorem ensureTrailingDot_of_dot (p : Str) (hdot : p.getLast? = some '.') :
    ensureTrailingDot p = p := by
  have h1 : HasSuffix p ['.'] = true := (hasSuffix_singleton p '.').2 hdot
  simp [ensureTrailingDot, h1]

/-- Reading through a view made by `newViewImpl` reads the wrapped value at the normalised
prefix followed by the key. -/
theorem newViewImpl_getString (h : Heap) (S : Viewable) (p : Str) (w : Bool) (key : Str) :
    View.GetString h (newViewImpl S p w) key
      = Viewable.GetString h S (ensureTrailingDot p ++ key) := by
  cases S <;>
    simp [newViewImpl, View.GetString, View.deriveKey, Viewable.GetString, List.append_assoc]

theorem toViewable_getString (h : Heap) (v : View) (key : Str) :
    Viewable.GetString h v.toViewable key = View.GetString h v key := by
  simp [View.toViewable, Viewable.GetString, View.GetString, View.deriveKey]

/-- C7: for prefixes `a` and `b` that are non-empty and do not end in a dot, a view with prefix
`b` over a view with prefix `a` reads the same as one view with prefix `a.b`, namely the
target at `a.b.c`; likewise with `SubView` for the outer view. -/
theorem view_prefix_composition (h : Heap) (S : Viewable) (a b c : Str)
    (ha : a ≠ []) (hadot : a.getLast? ≠ some '.')
    (hb : b ≠ []) (hbdot : b.getLast? ≠ some '.') :
    View.GetString h (NewView (NewView S a).toViewable b) c
        = View.GetString h (NewView S (a ++ ['.'] ++ b)) c ∧
    View.GetString h (NewView S (a ++ ['.'] ++ b)) c
        = Viewable.GetString h S (a ++ ['.'] ++ b ++ ['.'] ++ c) ∧
    View.GetString h ((NewView S a).SubView b) c
        = Viewable.GetString h S (a ++ ['.'] ++ b ++ ['.'] ++ c) := by
  have hab : a ++ ['.'] ++ b ≠ [] := by simp [ha]
  have habdot : (a ++ ['.'] ++ b).getLast? ≠ some '.' := by
    rw [List.getLast?_append_of_ne_nil _ hb]
    exact hbdot
  have h1 : View.GetString h (NewView (NewView S a).toViewable b) c
      = Viewable.GetString h S (a ++ ['.'] ++ b ++ ['.'] ++ c) := by
    unfold NewView
    rw [newViewImpl_getString, toViewable_getString, newViewImpl_getString,
      ensureTrailingDot_of_plain a ha hadot, ensureTrailingDot_of_plain b hb hbdot]
    simp [List.append_assoc]
  have h2 : View.GetString h (NewView S (a ++ ['.'] ++ b)) c
      = Viewable.GetString h S (a ++ ['.'] ++ b ++ ['.'] ++ c) := by
    unfold NewView
    rw [newViewImpl_getString, ensureTrailingDot_of_plain _ hab habdot]
  refine ⟨h1.trans h2.symm, h2, ?_⟩
  unfold View.SubView
  exact h1

theorem view_prefix_composition_witness :
    ("my".toList ≠ [] ∧ "my".toList.getLast? ≠ some '.' ∧
      "test".toList ≠ [] ∧ "test".toList.getLast? ≠ some '.') ∧
    View.GetString exampleHeap
        (NewView (NewView (Viewable.layer 3) "my".toList).toViewable "test".toList) "dog".toList
      = View.GetString exampleHeap
        (NewView (Viewable.layer 3) ("my".toList ++ ['.'] ++ "test".toList)) "dog".toList :=
  ⟨by decide,
    (view_prefix_composition exampleHeap (Viewable.layer 3) "my".toList "test".toList
      "dog".toList (by decide) (by decide) (by decide) (by decide)).1⟩

/-! ## Layers -/

theorem Heap.setLayer_self (h : Heap) (l : Nat) : h.setLayer l (h.layers l) = h := by
  cases h with
  | mk layers configs =>
    simp only [Heap.setLayer, Heap.mk.injEq, and_true]
    funext a
    split
    · rename_i heq; rw [heq]
    · rfl

theorem Heap.setLayer_layers_self (h : Heap) (l : Nat) (x : Layer) :
    (h.setLayer l x).layers l = x := by
  simp [Heap.setLayer]

theorem Heap.setLayer_layers_ne (h : Heap) (l a : Nat) (x : Layer) (hne : a ≠ l) :
    (h.setLayer l x).layers a = h.layers a := by
  simp [Heap.setLayer, hne]

theorem Heap.setLayer_configs (h : Heap) (l : Nat) (x : Layer) :
    (h.setLayer l x).configs = h.configs := rfl

theorem Layer.lockReadOnly_of_locked (h : Heap) (l : Nat) (hw : (h.layers l).writable = false) :
    Layer.LockReadOnly h l = h := by
  unfold Layer.LockReadOnly
  have hx : ({ h.layers l with writable := false } : Layer) = h.layers l := by
    cases hl : h.layers l with
    | mk name values writable =>
      rw [hl] at hw
      simp at hw
      simp [hw]
  rw [hx, Heap.setLayer_self]

/-- On a locked layer every mutating call leaves the whole heap as it was. -/
theorem LayerOp.run_of_locked (h : Heap) (l : Nat) (hw : (h.layers l).writable = false)
    (op : LayerOp) : op.run l h = h := by
  cases op with
  | LockReadOnly => exact Layer.lockReadOnly_of_locked h l hw
  | Clear => simp [LayerOp.run, Layer.Clear, hw]
  | SetString key value => simp [LayerOp.run, Layer.SetString, hw]
  | DeleteValue key => simp [LayerOp.run, Layer.DeleteValue, hw]

theorem LayerOp.foldl_run_of_locked (l : Nat) (ops : List LayerOp) :
    ∀ h : Heap, (h.layers l).writable = false → ops.foldl (LayerOp.run l) h = h := by
  induction ops with
  | nil => intro h _; rfl
  | cons op ops ih =>
    intro h hw
    rw [List.foldl_cons, LayerOp.run_of_locked h l hw op]
    exact ih h hw

/-- C8: after `LockReadOnly`, whatever method calls follow, the layer is not writable, each of
`SetString`, `DeleteValue` and `Clear` panics and leaves the heap (so the stored mapping) as
it was, the mapping is still the one held when the layer was locked, and `LockReadOnly`
again changes nothing. -/
theorem layer_lock_is_permanent (h : Heap) (l : Nat) (ops : List LayerOp) (key value : Str) :
    Layer.IsWritable (ops.foldl (LayerOp.run l) (Layer.LockReadOnly h l)) l = false ∧
    (ops.foldl (LayerOp.run l) (Layer.LockReadOnly h l)).layers l
      = { h.layers l with writable := false } ∧
    ((Layer.SetString (ops.foldl (LayerOp.run l) (Layer.LockReadOnly h l)) l key value).panic
        = some "trying to write a read-only layer" ∧
      (Layer.SetString (ops.foldl (LayerOp.run l) (Layer.LockReadOnly h l)) l key value).state
        = ops.foldl (LayerOp.run l) (Layer.LockReadOnly h l)) ∧
    ((Layer.DeleteValue (ops.foldl (LayerOp.run l) (Layer.LockReadOnly h l)) l key).panic
        = some "trying to delete from read-only layer" ∧
      (Layer.DeleteValue (ops.foldl (LayerOp.run l) (Layer.LockReadOnly h l)) l key).state
        = ops.foldl (LayerOp.run l) (Layer.LockReadOnly h l)) ∧
    ((Layer.Clear (ops.foldl (LayerOp.run l) (Layer.LockReadOnly h l)) l).panic
        = some "trying to clear a read-only layer" ∧
      (Layer.Clear (ops.foldl (LayerOp.run l) (Layer.LockReadOnly h l)) l).state
        = ops.foldl (LayerOp.run l) (Layer.LockReadOnly h l)) ∧
    Layer.LockReadOnly (ops.foldl (LayerOp.run l) (Layer.LockReadOnly h l)) l
      = ops.foldl (LayerOp.run l) (Layer.LockReadOnly h l) := by
  have hlock : ((Layer.LockReadOnly h l).layers l).writable = false := by
    simp [Layer.LockReadOnly, Heap.setLayer_layers_self]
  have hrun : ops.foldl (LayerOp.run l) (Layer.LockReadOnly h l) = Layer.LockReadOnly h l :=
    LayerOp.foldl_run_of_locked l ops _ hlock
  rw [hrun]
  refine ⟨hlock, ?_, ?_, ?_, ?_, Layer.lockReadOnly_of_locked _ l hlock⟩
  · simp [Layer.LockReadOnly, Heap.setLayer_layers_self]
  · simp [Layer.SetString, hlock]
  · simp [Layer.DeleteValue, hlock]
  · simp [Layer.Clear, hlock]

/-! ## Maps -/

theorem mapGet_mapDelete_ne (m : List (Str × Str)) (key k : Str) (hk : k ≠ key) :
    mapGet (mapDelete m key) k = mapGet m k := by
  induction m with
  | nil => rfl
  | cons p m ih =>
    obtain ⟨a, b⟩ := p
    by_cases ha : a = key
    · subst ha
      have h1 : mapDelete ((a, b) :: m) a = mapDelete m a := by simp [mapDelete]
      rw [h1, ih]
      simp [mapGet, Ne.symm hk]
    · have h1 : mapDelete ((a, b) :: m) key = (a, b) :: mapDelete m key := by
        simp [mapDelete, ha]
      rw [h1]
      simp only [mapGet, ih]

theorem mapGet_mapDelete_self (m : List (Str × Str)) (key : Str) :
    mapGet (mapDelete m key) key = none := by
  induction m with
  | nil => rfl
  | cons p m ih =>
    obtain ⟨a, b⟩ := p
    by_cases ha : a = key
    · subst ha
      have h1 : mapDelete ((a, b) :: m) a = mapDelete m a := by simp [mapDelete]
      rw [h1, ih]
    · have h1 : mapDelete ((a, b) :: m) key = (a, b) :: mapDelete m key := by
        simp [mapDelete, ha]
      rw [h1]
      simp [mapGet, ih, ha]

theorem mapGet_mapSet_self (m : List (Str × Str)) (key value : Str) :
    mapGet (mapSet m key value) key = some value := by
  simp [mapSet, mapGet]

theorem mapGet_mapSet_ne (m : List (Str × Str)) (key value k : Str) (hk : k ≠ key) :
    mapGet (mapSet m key value) k = mapGet m k := by
  simp [mapSet, mapGet, Ne.symm hk, mapGet_mapDelete_ne m key k hk]
/-! ## Writing through a config -/

theorem isWritable_loop_iff (h : Heap) (items : List configItem) :
    Config.IsWritable.loop h items = true ↔
      ∃ item ∈ items, item.writable = true ∧ Layer.IsWritable h item.layer = true := by
  induction items with
  | nil => simp [Config.IsWritable.loop]
  | cons x rest ih =>
    by_cases hx : (x.writable && Layer.IsWritable h x.layer) = true
    · have h1 : Config.IsWritable.loop h (x :: rest) = true := by
        simp [Config.IsWritable.loop, hx]
      rw [h1]
      simp only [true_iff]
      rw [Bool.and_eq_true] at hx
      exact ⟨x, List.mem_cons_self _ _, hx⟩
    · have h1 : Config.IsWritable.loop h (x :: rest) = Config.IsWritable.loop h rest := by
        simp only [Config.IsWritable.loop, hx]
        rfl
      rw [h1, ih]
      constructor
      · rintro ⟨item, hm, hw⟩
        exact ⟨item, List.mem_cons_of_mem _ hm, hw⟩
      · rintro ⟨item, hm, hw⟩
        rcases List.mem_cons.1 hm with h2 | h2
        · subst h2
          exact absurd (Bool.and_eq_true _ _ ▸ hw) hx
        · exact ⟨item, h2, hw⟩

/-- The scan of `Config.SetString`: it writes to the first eligible entry, or panics without
touching the heap when there is none. -/
theorem setString_loop_spec (h : Heap) (key value : Str) (items : List configItem) :
    (Config.IsWritable.loop h items = false ∧
      Config.SetString.loop h key value items = ⟨some "config is not writable", h⟩) ∨
    (∃ pre item post, items = pre ++ item :: post ∧
      (∀ x ∈ pre, ¬ (x.writable = true ∧ Layer.IsWritable h x.layer = true)) ∧
      item.writable = true ∧ Layer.IsWritable h item.layer = true ∧
      Config.SetString.loop h key value items = Layer.SetString h item.layer key value) := by
  induction items with
  | nil => exact Or.inl ⟨rfl, rfl⟩
  | cons x rest ih =>
    by_cases hx : (x.writable && Layer.IsWritable h x.layer) = true
    · refine Or.inr ⟨[], x, rest, rfl, by simp, ?_, ?_, ?_⟩
      · exact (Bool.and_eq_true _ _ ▸ hx).1
      · exact (Bool.and_eq_true _ _ ▸ hx).2
      · simp [Config.SetString.loop, hx]
    · have h1 : Config.IsWritable.loop h (x :: rest) = Config.IsWritable.loop h rest := by
        simp only [Config.IsWritable.loop, hx]
        rfl
      have h2 : Config.SetString.loop h key value (x :: rest)
          = Config.SetString.loop h key value rest := by
        simp only [Config.SetString.loop, hx]
        rfl
      rw [h1, h2]
      rcases ih with h3 | ⟨pre, item, post, h3, h4, h5, h6, h7⟩
      · exact Or.inl h3
      · refine Or.inr ⟨x :: pre, item, post, by rw [h3]; rfl, ?_, h5, h6, h7⟩
        intro y hy
        rcases List.mem_cons.1 hy with h8 | h8
        · subst h8
          intro hc
          exact hx (Bool.and_eq_true _ _ ▸ hc)
        · exact h4 y h8

theorem Layer.setString_of_writable (h : Heap) (l : Nat) (key value : Str)
    (hw : Layer.IsWritable h l = true) :
    Layer.SetString h l key value
      = ⟨none, h.setLayer l { h.layers l with values := mapSet (h.layers l).values key value }⟩ := by
  unfold Layer.IsWritable at hw
  simp [Layer.SetString, hw]

/-- C9: a config is writable iff some entry added with `AddWritableLayer` is present and its
layer is writable; `SetString` panics exactly when the config is not writable, and then
leaves the heap untouched; a config holding only entries added with `AddLayer` is not
writable, whatever its layers are. -/
theorem config_isWritable_iff (c : Nat) (h0 : Heap) (ops : List ConfigOp) (ls : Nat → Layer)
    (key value : Str) (hnew : h0.configs c = NewConfig) :
    (Config.IsWritable ⟨ls, (ops.foldl (ConfigOp.run c) h0).configs⟩ c = true ↔
      ∃ a, ConfigOp.add a ∈ ops ∧ a.writable = true ∧
        a.item ∈ ((ops.foldl (ConfigOp.run c) h0).configs c).items ∧
        Layer.IsWritable ⟨ls, (ops.foldl (ConfigOp.run c) h0).configs⟩ a.layer = true) ∧
    ((Config.SetString ⟨ls, (ops.foldl (ConfigOp.run c) h0).configs⟩ c key value).panic.isSome
        = true ↔
      Config.IsWritable ⟨ls, (ops.foldl (ConfigOp.run c) h0).configs⟩ c = false) ∧
    (Config.IsWritable ⟨ls, (ops.foldl (ConfigOp.run c) h0).configs⟩ c = false →
      (Config.SetString ⟨ls, (ops.foldl (ConfigOp.run c) h0).configs⟩ c key value).state
        = ⟨ls, (ops.foldl (ConfigOp.run c) h0).configs⟩) ∧
    ((∀ a, ConfigOp.add a ∈ ops → a.writable = false) →
      Config.IsWritable ⟨ls, (ops.foldl (ConfigOp.run c) h0).configs⟩ c = false) := by
  obtain ⟨ts, hmap, _, htag, _⟩ := run_tagged c h0 hnew ops
  have hfrom : ∀ item ∈ ((ops.foldl (ConfigOp.run c) h0).configs c).items,
      ∃ a, ConfigOp.add a ∈ ops ∧ item = a.item := by
    intro item hitem
    rw [← hmap] at hitem
    obtain ⟨t, ht, hti⟩ := List.mem_map.1 hitem
    obtain ⟨a, ha, hb⟩ := htag t ht
    exact ⟨a, List.getElem?_mem ha, by rw [← hti, hb]⟩
  have hiff : Config.IsWritable ⟨ls, (ops.foldl (ConfigOp.run c) h0).configs⟩ c = true ↔
      ∃ a, ConfigOp.add a ∈ ops ∧ a.writable = true ∧
        a.item ∈ ((ops.foldl (ConfigOp.run c) h0).configs c).items ∧
        Layer.IsWritable ⟨ls, (ops.foldl (ConfigOp.run c) h0).configs⟩ a.layer = true := by
    unfold Config.IsWritable
    rw [isWritable_loop_iff]
    constructor
    · rintro ⟨item, hm, hw, hl⟩
      obtain ⟨a, ha, hb⟩ := hfrom item hm
      subst hb
      exact ⟨a, ha, hw, hm, hl⟩
    · rintro ⟨a, _, hw, hm, hl⟩
      exact ⟨a.item, hm, hw, hl⟩
  refine ⟨hiff, ?_, ?_, ?_⟩
  · unfold Config.SetString Config.IsWritable
    rcases setString_loop_spec ⟨ls, (ops.foldl (ConfigOp.run c) h0).configs⟩ key value
      ((ops.foldl (ConfigOp.run c) h0).configs c).items with ⟨h1, h2⟩ | ⟨pre, item, post, h1, _, h3, h4, h5⟩
    · simp only [h1, h2, Option.isSome_some]
    · have hw : Config.IsWritable.loop ⟨ls, (ops.foldl (ConfigOp.run c) h0).configs⟩
          ((ops.foldl (ConfigOp.run c) h0).configs c).items = true :=
        (isWritable_loop_iff _ _).2 ⟨item, by simp only [h1]; simp, h3, h4⟩
      simp only [h5, Layer.setString_of_writable _ _ _ _ h4, hw]
      simp
  · intro hnw
    unfold Config.SetString
    unfold Config.IsWritable at hnw
    rcases setString_loop_spec ⟨ls, (ops.foldl (ConfigOp.run c) h0).configs⟩ key value
      ((ops.foldl (ConfigOp.run c) h0).configs c).items with ⟨_, h2⟩ | ⟨pre, item, post, h1, _, h3, h4, _⟩
    · simp only [h2]
    · have hw : Config.IsWritable.loop ⟨ls, (ops.foldl (ConfigOp.run c) h0).configs⟩
          ((ops.foldl (ConfigOp.run c) h0).configs c).items = true :=
        (isWritable_loop_iff _ _).2 ⟨item, by simp only [h1]; simp, h3, h4⟩
      simp only [hw] at hnw
      cases hnw
  · intro hall
    rw [← Bool.not_eq_true, hiff]
    rintro ⟨a, ha, hw, _, _⟩
    rw [hall a ha] at hw
    cases hw

theorem config_isWritable_iff_witness :
    exampleHeap.configs 0 = NewConfig ∧
    Config.IsWritable
      ⟨exampleHeap.layers, (exampleOps.foldl (ConfigOp.run 0) exampleHeap).configs⟩ 0 = true :=
  ⟨rfl, (config_isWritable_iff 0 exampleHeap exampleOps exampleHeap.layers [] [] rfl).1.2
    ⟨⟨9, 99, true⟩, by decide, rfl, by decide, by decide⟩⟩

/-- C10: on a writable config `SetString` writes to the first entry in resolution order that
was added as writable and whose layer is writable: it does not panic, the key then has the
value in that layer, every other key of that layer and every other layer are as before, and
so are all configs (hence the entry order). -/
theorem config_setString_frame (h : Heap) (c : Nat) (key value : Str)
    (hw : Config.IsWritable h c = true) :
    ∃ pre item post, (h.configs c).items = pre ++ item :: post ∧
      (∀ x ∈ pre, ¬ (x.writable = true ∧ Layer.IsWritable h x.layer = true)) ∧
      item.writable = true ∧ Layer.IsWritable h item.layer = true ∧
      (Config.SetString h c key value).panic = none ∧
      mapGet (((Config.SetString h c key value).state.layers item.layer).values) key
        = some value ∧
      (∀ k, k ≠ key →
        mapGet (((Config.SetString h c key value).state.layers item.layer).values) k
          = mapGet (h.layers item.layer).values k) ∧
      ((Config.SetString h c key value).state.layers item.layer).name
        = (h.layers item.layer).name ∧
      ((Config.SetString h c key value).state.layers item.layer).writable = true ∧
      (∀ l, l ≠ item.layer → (Config.SetString h c key value).state.layers l = h.layers l) ∧
      (Config.SetString h c key value).state.configs = h.configs := by
  unfold Config.IsWritable at hw
  unfold Config.SetString
  rcases setString_loop_spec h key value (h.configs c).items with
    ⟨h1, _⟩ | ⟨pre, item, post, h1, h2, h3, h4, h5⟩
  · rw [hw] at h1; cases h1
  · refine ⟨pre, item, post, h1, h2, h3, h4, ?_⟩
    rw [h5, Layer.setString_of_writable h _ key value h4]
    have hwl : (h.layers item.layer).writable = true := h4
    refine ⟨rfl, ?_, ?_, ?_, ?_, ?_, rfl⟩
    · simp [Heap.setLayer_layers_self, mapSet, mapGet]
    · intro k hk
      simp only [Heap.setLayer_layers_self]
      exact mapGet_mapSet_ne _ _ _ _ hk
    · simp [Heap.setLayer_layers_self]
    · simp [Heap.setLayer_layers_self, hwl]
    · intro l hl
      exact Heap.setLayer_layers_ne h _ l _ hl

theorem config_setString_frame_witness :
    Config.IsWritable (exampleOps.foldl (ConfigOp.run 0) exampleHeap) 0 = true ∧
    (Config.SetString (exampleOps.foldl (ConfigOp.run 0) exampleHeap) 0
      "test".toList "asdf".toList).panic = none := by
  refine ⟨by decide, ?_⟩
  obtain ⟨_, _, _, _, _, _, _, h5, _⟩ :=
    config_setString_frame (exampleOps.foldl (ConfigOp.run 0) exampleHeap) 0
      "test".toList "asdf".toList (by decide)
  exact h5

/-! ## Finding the separator of a key/value line -/

/-- What `IndexByte` returns: `-1` when the byte does not occur, else the first position. -/
theorem IndexByte_cases (s : Str) (c : Char) :
    (IndexByte s c = -1 ∧ ∀ k : Nat, s[k]? ≠ some c) ∨
    (∃ n : Nat, IndexByte s c = (n : Int) ∧ s[n]? = some c ∧ ∀ k : Nat, k < n → s[k]? ≠ some c) := by
  induction s with
  | nil => exact Or.inl ⟨rfl, by simp⟩
  | cons x rest ih =>
    by_cases hx : x = c
    · refine Or.inr ⟨0, by simp [IndexByte, hx], by simp [hx], ?_⟩
      intro k hk
      omega
    · rcases ih with ⟨h1, h2⟩ | ⟨n, h1, h2, h3⟩
      · refine Or.inl ⟨by simp [IndexByte, hx, h1], ?_⟩
        intro k
        cases k with
        | zero => simp [hx]
        | succ k => simpa using h2 k
      · refine Or.inr ⟨n + 1, ?_, by simpa using h2, ?_⟩
        · have hneg : ¬ ((n : Int) < 0) := by omega
          simp [IndexByte, hx, h1, hneg]
        · intro k hk
          cases k with
          | zero => simp [hx]
          | succ k => simpa using h3 k (by omega)

theorem indexOfUnescapedEq_loop_spec (ln : Str) :
    ∀ (fuel st : Nat) (s : Str), 1 ≤ st → s = ln.drop st → s.length < fuel →
      (st = 1 ∨ ln[st - 1]? ≠ some '\\') →
      (∀ j : Nat, 1 ≤ j → j < st → ¬ acceptsEq ln j) →
      (∃ pos : Nat, indexOfUnescapedEq.loop fuel s (st : Int) = Exec.ret (pos : Int) ∧
          1 ≤ pos ∧ acceptsEq ln pos ∧ ∀ j : Nat, 1 ≤ j → j < pos → ¬ acceptsEq ln j) ∨
      (indexOfUnescapedEq.loop fuel s (st : Int) = Exec.ret (-1) ∧
          ∀ j : Nat, 1 ≤ j → ¬ acceptsEq ln j) := by
  intro fuel
  induction fuel with
  | zero => intro st s _ _ hlen; omega
  | succ fuel ih =>
    intro st s hst hs hlen hprev hbefore
    have hget : ∀ k : Nat, s[k]? = ln[st + k]? := by
      intro k; rw [hs, List.getElem?_drop]
    rcases IndexByte_cases s '=' with ⟨h1, h2⟩ | ⟨n, h1, h2, h3⟩
    · refine Or.inr ⟨by simp [indexOfUnescapedEq.loop, h1], ?_⟩
      intro j hj hacc
      by_cases hlt : j < st
      · exact hbefore j hj hlt hacc
      · have := h2 (j - st)
        rw [hget, show st + (j - st) = j by omega] at this
        exact this hacc.1
    · have hnneg : ¬ ((n : Int) < 0) := by omega
      have hfirst : ∀ j : Nat, 1 ≤ j → j < st + n → ¬ acceptsEq ln j := by
        intro j hj hjlt hacc
        by_cases hlt : j < st
        · exact hbefore j hj hlt hacc
        · have := h3 (j - st) (by omega)
          rw [hget, show st + (j - st) = j by omega] at this
          exact this hacc.1
      have hat : ln[st + n]? = some '=' := by rw [← hget]; exact h2
      by_cases hn : n = 0
      · subst hn
        refine Or.inl ⟨st, by simp [indexOfUnescapedEq.loop, h1], hst, ⟨by simpa using hat, hprev⟩,
          by simpa using hfirst⟩
      · have hidx : ((n : Int) - 1).toNat = n - 1 := by omega
        have hne0 : ¬ ((n : Int) = 0) := by omega
        by_cases hesc : s[n - 1]? = some '\\'
        · have hstep : indexOfUnescapedEq.loop (fuel + 1) s (st : Int)
              = indexOfUnescapedEq.loop fuel (s.drop (n + 1)) ((st + n + 1 : Nat) : Int) := by
            have h4 : ((n : Int) + 1).toNat = n + 1 := by omega
            have h5 : (st : Int) + ((n : Int) + 1) = ((st + n + 1 : Nat) : Int) := by
              push_cast; ring
            simp only [indexOfUnescapedEq.loop, h1, hnneg, hne0, hidx, hesc, if_false,
              false_or, ne_eq, not_true_eq_false, h4, h5]
          rw [hstep]
          have hlen' : n < s.length := by
            by_contra hcon
            rw [List.getElem?_eq_none (by omega)] at h2
            cases h2
          refine ih (st + n + 1) (s.drop (n + 1)) (by omega) ?_ ?_ ?_ ?_
          · rw [hs, List.drop_drop]
            congr 1
          · rw [List.length_drop]; omega
          · right
            rw [show st + n + 1 - 1 = st + n by omega, hat]
            simp
          · intro j hj hjlt hacc
            by_cases hjn : j < st + n
            · exact hfirst j hj hjn hacc
            · have hjeq : j = st + n := by omega
              subst hjeq
              rcases hacc.2 with h6 | h6
              · omega
              · apply h6
                rw [← hesc, hget]
                congr 1
                omega
        · refine Or.inl ⟨st + n, ?_, by omega, ⟨hat, Or.inr ?_⟩, hfirst⟩
          · simp only [indexOfUnescapedEq.loop, h1, hnneg, hne0, hidx, if_false, false_or]
            rw [if_pos (by simpa using hesc)]
            push_cast
            rfl
          · rw [show st + n - 1 = st + (n - 1) by omega, ← hget]
            exact hesc

/-- The exact behaviour of `indexOfUnescapedEq` on a non-empty line: it returns the first
position `pos ≥ 1` accepted by `acceptsEq`, or `-1` when there is none. -/
theorem indexOfUnescapedEq_spec (ln : Str) (hne : ln ≠ []) :
    (∃ pos : Nat, indexOfUnescapedEq ln = Exec.ret (pos : Int) ∧
        1 ≤ pos ∧ acceptsEq ln pos ∧ ∀ j : Nat, 1 ≤ j → j < pos → ¬ acceptsEq ln j) ∨
    (indexOfUnescapedEq ln = Exec.ret (-1) ∧ ∀ j : Nat, 1 ≤ j → ¬ acceptsEq ln j) := by
  have hlen : ¬ (ln.length < 1) := by
    cases ln with
    | nil => exact absurd rfl hne
    | cons x rest => simp
  have hun : indexOfUnescapedEq ln = indexOfUnescapedEq.loop ln.length (ln.drop 1) ((1 : Nat) : Int) := by
    simp only [indexOfUnescapedEq, hlen, if_false]
    rfl
  rw [hun]
  exact indexOfUnescapedEq_loop_spec ln ln.length 1 (ln.drop 1) (le_refl 1) rfl
    (by rw [List.length_drop]; omega) (Or.inl rfl) (by intro j h1 h2; omega)

theorem acceptsEq_iff_unescapedEqAt (ln : Str) (j : Nat) (hj : 1 ≤ j)
    (hslip : ¬ (ln[0]? = some '\\' ∧ ln[1]? = some '=')) :
    acceptsEq ln j ↔ unescapedEqAt ln j := by
  unfold acceptsEq unescapedEqAt
  constructor
  · rintro ⟨h1, h2⟩
    refine ⟨h1, Or.inr ?_⟩
    rcases h2 with h3 | h3
    · subst h3
      intro h4
      exact hslip ⟨h4, h1⟩
    · exact h3
  · rintro ⟨h1, h2⟩
    refine ⟨h1, Or.inr ?_⟩
    rcases h2 with h3 | h3
    · omega
    · exact h3

/-- C4 (as stated, refuted): the line `=a=b` has an equal sign at position 0 that no backslash
precedes, yet it is split at position 2; and the line `=v` has such an equal sign, yet it is
discarded. -/
theorem loadIni_split_counterexample :
    unescapedEqAt "=a=b".toList 0 ∧
    LoadIni.line [] "=a=b".toList = Exec.ret ([], some ("=a".toList, "b".toList)) ∧
    unescapedEqAt "=v".toList 0 ∧
    LoadIni.line [] "=v".toList = Exec.ret ([], none) := by
  refine ⟨?_, by decide, ?_, by decide⟩ <;> simp [unescapedEqAt]

/-- C4 (amended): a key/value line that does not begin with a backslash followed by an equal
sign is split at the first equal sign at a position `≥ 1` that is not immediately preceded
by a backslash, and it is discarded exactly when there is no such equal sign. -/
theorem loadIni_split_at_first_unescaped_eq (sect ln : Str) (hne : ln ≠ [])
    (hcomment : HasPrefix ln [';'] = false)
    (hheader : (HasPrefix ln ['['] && HasSuffix ln [']']) = false)
    (hslip : ¬ (ln[0]? = some '\\' ∧ ln[1]? = some '=')) :
    ((∃ pos : Nat, 1 ≤ pos ∧ unescapedEqAt ln pos ∧
        (∀ j : Nat, 1 ≤ j → j < pos → ¬ unescapedEqAt ln j) ∧
        LoadIni.line sect ln = Exec.ret (sect,
          some (sect ++ unescapes.Replace (Trim (ln.take pos) iniSpace),
            unescapes.Replace (TrimLeft (ln.drop (pos + 1)) iniSpace)))) ∨
      ((∀ j : Nat, 1 ≤ j → ¬ unescapedEqAt ln j) ∧
        LoadIni.line sect ln = Exec.ret (sect, none))) ∧
    (LoadIni.line sect ln = Exec.ret (sect, none) ↔
      ∀ j : Nat, 1 ≤ j → ¬ unescapedEqAt ln j) := by
  have hcases : (∃ pos : Nat, 1 ≤ pos ∧ unescapedEqAt ln pos ∧
        (∀ j : Nat, 1 ≤ j → j < pos → ¬ unescapedEqAt ln j) ∧
        LoadIni.line sect ln = Exec.ret (sect,
          some (sect ++ unescapes.Replace (Trim (ln.take pos) iniSpace),
            unescapes.Replace (TrimLeft (ln.drop (pos + 1)) iniSpace)))) ∨
      ((∀ j : Nat, 1 ≤ j → ¬ unescapedEqAt ln j) ∧
        LoadIni.line sect ln = Exec.ret (sect, none)) := by
    rcases indexOfUnescapedEq_spec ln hne with ⟨pos, h1, h2, h3, h4⟩ | ⟨h1, h2⟩
    · refine Or.inl ⟨pos, h2, (acceptsEq_iff_unescapedEqAt ln pos h2 hslip).1 h3, ?_, ?_⟩
      · intro j hj hlt hacc
        exact h4 j hj hlt ((acceptsEq_iff_unescapedEqAt ln j hj hslip).2 hacc)
      · have hnneg : ¬ ((pos : Int) < 0) := by omega
        simp [LoadIni.line, hne, hcomment, hheader, h1, hnneg]
    · refine Or.inr ⟨?_, ?_⟩
      · intro j hj hacc
        exact h2 j hj ((acceptsEq_iff_unescapedEqAt ln j hj hslip).2 hacc)
      · simp [LoadIni.line, hne, hcomment, hheader, h1]
  refine ⟨hcases, ?_⟩
  rcases hcases with ⟨pos, h1, h2, _, h4⟩ | ⟨h1, h2⟩
  · constructor
    · intro h5
      rw [h4] at h5
      simp at h5
    · intro h5
      exact absurd h2 (h5 pos h1)
  · exact ⟨fun _ => h1, fun _ => h2⟩

theorem loadIni_split_at_first_unescaped_eq_witness :
    ("a\\=b=c".toList ≠ [] ∧ HasPrefix "a\\=b=c".toList [';'] = false ∧
      (HasPrefix "a\\=b=c".toList ['['] && HasSuffix "a\\=b=c".toList [']']) = false ∧
      ¬ ("a\\=b=c".toList[0]? = some '\\' ∧ "a\\=b=c".toList[1]? = some '=')) ∧
    (LoadIni.line [] "a\\=b=c".toList = Exec.ret ([], none) ↔
      ∀ j : Nat, 1 ≤ j → ¬ unescapedEqAt "a\\=b=c".toList j) :=
  ⟨by decide,
    (loadIni_split_at_first_unescaped_eq [] "a\\=b=c".toList (by decide) (by decide)
      (by decide) (by decide)).2⟩

/-! ## Saving a layer -/

theorem mapGet_isSome_iff (m : List (Str × Str)) (k : Str) :
    (∃ v, mapGet m k = some v) ↔ k ∈ m.map Prod.fst := by
  induction m with
  | nil => simp [mapGet]
  | cons p m ih =>
    obtain ⟨a, b⟩ := p
    by_cases ha : a = k
    · subst ha; simp [mapGet]
    · simp only [mapGet, ha, if_false, ih, List.map_cons, List.mem_cons]
      constructor
      · intro h1; exact Or.inr h1
      · intro h1
        rcases h1 with h2 | h2
        · exact absurd h2.symm ha
        · exact h2

theorem listKeys_step_root (out : KeyList) (k : Str) :
    Layer.ListKeys.step [] false out k = out.addKey k := by
  simp [Layer.ListKeys.step, HasPrefix]

theorem foldl_addKey_spec (ks : List Str) :
    ∀ out : KeyList, out.v.Nodup →
      (ks.foldl KeyList.addKey out).v.Nodup ∧
      ∀ k, k ∈ (ks.foldl KeyList.addKey out).v ↔ k ∈ out.v ∨ k ∈ ks := by
  induction ks with
  | nil => intro out hnd; exact ⟨hnd, by simp⟩
  | cons x ks ih =>
    intro out hnd
    have hnd' : (out.addKey x).v.Nodup := by
      unfold KeyList.addKey
      by_cases hx : x ∈ out.v
      · simp [hx, hnd]
      · simp only [hx, if_false]
        rw [List.nodup_append]
        refine ⟨hnd, List.nodup_singleton x, ?_⟩
        intro a ha hb
        rw [List.mem_singleton] at hb
        subst hb
        exact hx ha
    have hmem : ∀ k, k ∈ (out.addKey x).v ↔ k ∈ out.v ∨ k = x := by
      intro k
      unfold KeyList.addKey
      by_cases hx : x ∈ out.v
      · simp only [hx, if_true]
        constructor
        · intro h1; exact Or.inl h1
        · rintro (h1 | h1)
          · exact h1
          · subst h1; exact hx
      · simp [hx]
    obtain ⟨h1, h2⟩ := ih (out.addKey x) hnd'
    refine ⟨h1, ?_⟩
    intro k
    rw [List.foldl_cons, h2, hmem, List.mem_cons, or_assoc]

/-- The keys `ListKeys` collects from a layer under the root prefix: the stored keys, each
once. -/
theorem layer_listKeys_root (h : Heap) (l : Nat) :
    (Viewable.ListKeys h (Viewable.layer l) [] ⟨[]⟩ false).v.Nodup ∧
    ∀ k, k ∈ (Viewable.ListKeys h (Viewable.layer l) [] ⟨[]⟩ false).v ↔
      ∃ v, mapGet (h.layers l).values k = some v := by
  have hfold : Viewable.ListKeys h (Viewable.layer l) [] ⟨[]⟩ false
      = ((h.layers l).values.map Prod.fst).foldl KeyList.addKey ⟨[]⟩ := by
    simp only [Viewable.ListKeys, Layer.ListKeys, ensureTrailingDot_nil]
    congr 1
    funext out k
    exact listKeys_step_root out k
  rw [hfold]
  obtain ⟨h1, h2⟩ := foldl_addKey_spec ((h.layers l).values.map Prod.fst) ⟨[]⟩ List.nodup_nil
  refine ⟨h1, ?_⟩
  intro k
  rw [h2, mapGet_isSome_iff]
  simp

theorem saveIni_loop_layer (h : Heap) (l : Nat) (keys : List Str) :
    ∀ writer : Str, (∀ k ∈ keys, ∃ v, mapGet (h.layers l).values k = some v) →
      saveIniInternal.loop h (Viewable.layer l) writer keys
        = writer ++ keys.flatMap
            (fun k => iniEntry k ((mapGet (h.layers l).values k).getD [])) := by
  induction keys with
  | nil => intro writer _; simp [saveIniInternal.loop]
  | cons k keys ih =>
    intro writer hall
    obtain ⟨v, hv⟩ := hall k (List.mem_cons_self _ _)
    have hget : Viewable.GetString h (Viewable.layer l) k = (v, true) := by
      simp [Viewable.GetString, Layer.GetString, hv]
    rw [saveIniInternal.loop, hget]
    simp only
    rw [ih _ (fun k' hk' => hall k' (List.mem_cons_of_mem _ hk'))]
    simp [iniEntry, iniEscape, escapeIniString, hv, List.append_assoc]

theorem not_mem_replaceAll (s : Str) (old : Char) (new : Str) (c : Char)
    (hs : c ∉ s ∨ c = old) (hnew : c ∉ new) : c ∉ ReplaceAll s old new := by
  induction s with
  | nil => simp [ReplaceAll]
  | cons x s ih =>
    have hrest : c ∉ s ∨ c = old := by
      rcases hs with h1 | h1
      · exact Or.inl (fun hc => h1 (List.mem_cons_of_mem _ hc))
      · exact Or.inr h1
    rw [ReplaceAll, List.mem_append, not_or]
    refine ⟨?_, ih hrest⟩
    by_cases hx : x = old
    · simp [hx, hnew]
    · simp only [hx, if_false, List.mem_singleton]
      intro hc
      subst hc
      rcases hs with h1 | h1
      · exact h1 (List.mem_cons_self _ _)
      · exact hx h1

theorem lf_not_mem_iniEscape (s : Str) : '\n' ∉ iniEscape s :=
  not_mem_replaceAll _ '\n' _ '\n' (Or.inr rfl) (by decide)

theorem lf_not_mem_escapedKey (s : Str) : '\n' ∉ ReplaceAll (iniEscape s) '=' ['\\', '='] :=
  not_mem_replaceAll _ '=' _ '\n' (Or.inl (lf_not_mem_iniEscape s)) (by decide)

/-- C5: after the optional header, `saveIniInternal` on a layer writes, for each stored key
once and in the order of the slice of keys, the escaped key with its equal signs escaped, an
equal sign, the escaped value and a line feed, and nothing else; the text before the final
line feed of each entry holds no line feed, so each entry is one line. -/
theorem saveIni_writes_one_line_per_key (h : Heap) (l : Nat) (writer : Str) (head : Bool)
    (keys : List Str)
    (hkeys : KeyList.ToSlice (Viewable.ListKeys h (Viewable.layer l) [] ⟨[]⟩ false) keys) :
    keys.Nodup ∧
    (∀ k, k ∈ keys ↔ ∃ v, mapGet (h.layers l).values k = some v) ∧
    saveIniInternal h (Viewable.layer l) writer head keys
      = writer ++ (if head then iniHeader else []) ++
          keys.flatMap (fun k => iniEntry k ((mapGet (h.layers l).values k).getD [])) ∧
    (∀ k v, '\n' ∉ ReplaceAll (iniEscape k) '=' ['\\', '='] ++ ['='] ++ iniEscape v) ∧
    (∀ s, escapeIniString s true = ReplaceAll (iniEscape s) '=' ['\\', '='] ∧
      escapeIniString s false = iniEscape s) := by
  obtain ⟨hnd, hmem⟩ := layer_listKeys_root h l
  unfold KeyList.ToSlice at hkeys
  have hmem' : ∀ k, k ∈ keys ↔ ∃ v, mapGet (h.layers l).values k = some v := by
    intro k
    rw [hkeys.mem_iff, hmem]
  refine ⟨hkeys.nodup_iff.2 hnd, hmem', ?_, ?_, ?_⟩
  · unfold saveIniInternal
    rw [saveIni_loop_layer h l keys _ (fun k hk => (hmem' k).1 hk)]
    cases head <;> simp
  · intro k v
    simp only [List.mem_append, List.mem_singleton, not_or]
    exact ⟨⟨lf_not_mem_escapedKey k, by decide⟩, lf_not_mem_iniEscape v⟩
  · intro s
    simp [escapeIniString, iniEscape]

theorem saveIni_writes_one_line_per_key_witness :
    KeyList.ToSlice (Viewable.ListKeys saveExampleHeap (Viewable.layer 0) [] ⟨[]⟩ false)
      ["key=1".toList, "xx".toList] ∧
    saveIniInternal saveExampleHeap (Viewable.layer 0) [] false ["key=1".toList, "xx".toList]
      = "key\\=1=value1\nxx=yy\\nzz\n".toList ∧
    saveIniInternal saveExampleHeap (Viewable.layer 0) [] false ["key=1".toList, "xx".toList]
      = [] ++ (if false then iniHeader else []) ++
          ["key=1".toList, "xx".toList].flatMap
            (fun k => iniEntry k ((mapGet (saveExampleHeap.layers 0).values k).getD [])) :=
  ⟨by decide, by decide,
    (saveIni_writes_one_line_per_key saveExampleHeap 0 [] false ["key=1".toList, "xx".toList]
      (by decide)).2.2.1⟩

/-! ## Reading lines -/

theorem IndexByte_of_not_mem (s : Str) (c : Char) (hc : c ∉ s) : IndexByte s c = -1 := by
  rcases IndexByte_cases s c with ⟨h1, _⟩ | ⟨n, _, h2, _⟩
  · exact h1
  · exact absurd (List.getElem?_mem h2) hc

theorem IndexByte_append_fresh (ln rest : Str) (c : Char) (hc : c ∉ ln) :
    IndexByte (ln ++ c :: rest) c = (ln.length : Int) := by
  induction ln with
  | nil => simp [IndexByte]
  | cons x ln ih =>
    have hx : x ≠ c := fun hxc => hc (hxc ▸ List.mem_cons_self _ _)
    have hrest : c ∉ ln := fun h => hc (List.mem_cons_of_mem _ h)
    have hnneg : ¬ ((ln.length : Int) < 0) := by omega
    simp [IndexByte, hx, ih hrest, hnneg]

theorem IndexByte_nonneg_length (s : Str) (c : Char) (h : ¬ IndexByte s c < 0) :
    (IndexByte s c).toNat < s.length := by
  rcases IndexByte_cases s c with ⟨h1, _⟩ | ⟨n, h1, h2, _⟩
  · rw [h1] at h; omega
  · rw [h1]
    have : n < s.length := by
      by_contra hcon
      rw [List.getElem?_eq_none (by omega)] at h2
      cases h2
    simpa using this

/-- Reading a line that is followed by a line feed. -/
theorem readString_line (ln rest : Str) (e : GoError) (hln : '\n' ∉ ln) :
    Reader.ReadString ⟨ln ++ '\n' :: rest, e⟩ '\n' = (ln ++ ['\n'], none, ⟨rest, e⟩) := by
  have hidx := IndexByte_append_fresh ln rest '\n' hln
  have hnneg : ¬ ((ln.length : Int) < 0) := by omega
  simp only [Reader.ReadString, hidx, hnneg, if_false, Int.toNat_ofNat]
  have h1 : (ln ++ '\n' :: rest).take (ln.length + 1) = ln ++ ['\n'] := by
    rw [show ln ++ '\n' :: rest = (ln ++ ['\n']) ++ rest by simp]
    rw [List.take_left' (by simp)]
  have h2 : (ln ++ '\n' :: rest).drop (ln.length + 1) = rest := by
    rw [show ln ++ '\n' :: rest = (ln ++ ['\n']) ++ rest by simp]
    rw [List.drop_left' (by simp)]
  rw [h1, h2]

/-- Reading the rest of a stream that holds no further line feed. -/
theorem readString_last (data : Str) (e : GoError) (hdata : '\n' ∉ data) :
    Reader.ReadString ⟨data, e⟩ '\n' = (data, some e, ⟨[], e⟩) := by
  simp [Reader.ReadString, IndexByte_of_not_mem data '\n' hdata]

theorem cutSuffix_snoc (s : Str) (c : Char) : (CutSuffix (s ++ [c]) [c]).1 = s := by
  have h1 : HasSuffix (s ++ [c]) [c] = true := (hasSuffix_singleton _ _).2 (by simp)
  simp [CutSuffix, h1]

theorem cutSuffix_of_ne (s : Str) (c : Char) (h : s.getLast? ≠ some c) :
    (CutSuffix s [c]).1 = s := by
  have h1 : HasSuffix s [c] = false := by
    rw [← Bool.not_eq_true, hasSuffix_singleton]
    exact h
  simp [CutSuffix, h1]

/-- An iteration that does not end the call has consumed at least one byte. -/
theorem LoadIni.iter_inr_shorter (h : Heap) (v : Viewable) (sect : Str) (r : Reader)
    (h' : Heap) (sect' : Str) (r' : Reader)
    (hiter : LoadIni.iter h v sect r = Sum.inr (h', sect', r')) :
    r'.data.length < r.data.length := by
  unfold LoadIni.iter at hiter
  by_cases hidx : IndexByte r.data '\n' < 0
  · simp only [Reader.ReadString, hidx, if_true] at hiter
    cases he : r.err with
    | EOF =>
      rw [he] at hiter
      simp only at hiter
      split at hiter
      · cases hiter
      · cases hiter
      · simp at hiter
      · split at hiter
        · cases hiter
        · simp at hiter
    | other msg =>
      rw [he] at hiter
      simp at hiter
  · have hlen := IndexByte_nonneg_length r.data '\n' hidx
    simp only [Reader.ReadString, hidx, if_false] at hiter
    have hshort : (r.data.drop ((IndexByte r.data '\n').toNat + 1)).length < r.data.length := by
      rw [List.length_drop]; omega
    split at hiter
    · cases hiter
    · cases hiter
    · split at hiter
      · cases hiter
      · simp only [Sum.inr.injEq, Prod.mk.injEq] at hiter
        rw [← hiter.2.2]
        exact hshort
    · split at hiter
      · cases hiter
      · split at hiter
        · cases hiter
        · simp only [Sum.inr.injEq, Prod.mk.injEq] at hiter
          rw [← hiter.2.2]
          exact hshort

theorem LoadIni.loop_fuel (v : Viewable) :
    ∀ (fuel₁ fuel₂ : Nat) (h : Heap) (sect : Str) (r : Reader),
      r.data.length < fuel₁ → r.data.length < fuel₂ →
      LoadIni.loop fuel₁ h v sect r = LoadIni.loop fuel₂ h v sect r := by
  intro fuel₁
  induction fuel₁ with
  | zero => intro fuel₂ h sect r h1 _; omega
  | succ n ih =>
    intro fuel₂ h sect r h1 h2
    cases fuel₂ with
    | zero => omega
    | succ m =>
      simp only [LoadIni.loop]
      cases hiter : LoadIni.iter h v sect r with
      | inl res => rfl
      | inr next =>
        obtain ⟨h', sect', r'⟩ := next
        have hshort := LoadIni.iter_inr_shorter h v sect r h' sect' r' hiter
        exact ih m h' sect' r' (by omega) (by omega)

/-- The loop goes on after an iteration that does not end the call. -/
theorem LoadIni.resume_step (h : Heap) (v : Viewable) (sect : Str) (r : Reader)
    (h' : Heap) (sect' : Str) (r' : Reader)
    (hiter : LoadIni.iter h v sect r = Sum.inr (h', sect', r')) :
    LoadIni.resume h v sect r = LoadIni.resume h' v sect' r' := by
  have hshort := LoadIni.iter_inr_shorter h v sect r h' sect' r' hiter
  unfold LoadIni.resume
  rw [LoadIni.loop, hiter]
  exact LoadIni.loop_fuel v _ _ h' sect' r' (by omega) (by omega)

theorem LoadIni.resume_stop (h : Heap) (v : Viewable) (sect : Str) (r : Reader)
    (res : LoadResult) (hiter : LoadIni.iter h v sect r = Sum.inl res) :
    LoadIni.resume h v sect r = res := by
  unfold LoadIni.resume
  rw [LoadIni.loop, hiter]

/-- An iteration on a complete line that makes no call. -/
theorem LoadIni.iter_line_skip (h : Heap) (v : Viewable) (sect sect' ln rest : Str)
    (e : GoError) (hln : '\n' ∉ ln)
    (hline : LoadIni.line sect (CutSuffix ln ['\r']).1 = Exec.ret (sect', none)) :
    LoadIni.iter h v sect ⟨ln ++ '\n' :: rest, e⟩ = Sum.inr (h, sect', ⟨rest, e⟩) := by
  unfold LoadIni.iter
  rw [readString_line ln rest e hln]
  simp only [cutSuffix_snoc, hline]
  simp

/-- An iteration on a complete line that makes a call which does not panic. -/
theorem LoadIni.iter_line_set (h h' : Heap) (v : Viewable) (sect sect' ln rest key val : Str)
    (e : GoError) (hln : '\n' ∉ ln)
    (hline : LoadIni.line sect (CutSuffix ln ['\r']).1 = Exec.ret (sect', some (key, val)))
    (hset : Viewable.SetString h v key val = ⟨none, h'⟩) :
    LoadIni.iter h v sect ⟨ln ++ '\n' :: rest, e⟩ = Sum.inr (h', sect', ⟨rest, e⟩) := by
  unfold LoadIni.iter
  rw [readString_line ln rest e hln]
  simp only [cutSuffix_snoc, hline, hset]
  simp

/-- The last iteration, on an unterminated line that makes no call, at the end of the
stream. -/
theorem LoadIni.iter_last_skip (h : Heap) (v : Viewable) (sect sect' ln : Str)
    (hln : '\n' ∉ ln)
    (hline : LoadIni.line sect (CutSuffix ln ['\r']).1 = Exec.ret (sect', none)) :
    LoadIni.iter h v sect ⟨ln, GoError.EOF⟩ = Sum.inl ⟨Exec.ret none, h, ⟨[], GoError.EOF⟩⟩ := by
  unfold LoadIni.iter
  rw [readString_last ln _ hln]
  have hcut : (CutSuffix ln ['\n']).1 = ln := by
    apply cutSuffix_of_ne
    intro hlast
    exact hln (List.mem_of_getLast?_eq_some hlast)
  simp only [hcut, hline]
  simp

/-! ## Sections -/

theorem indexOfUnescapedEq_ret (ln : Str) (hne : ln ≠ []) :
    ∃ pos : Int, indexOfUnescapedEq ln = Exec.ret pos ∧ (pos < 0 → pos = -1) ∧ pos < ln.length := by
  rcases indexOfUnescapedEq_spec ln hne with ⟨pos, h1, _, h3, _⟩ | ⟨h1, _⟩
  · refine ⟨pos, h1, by omega, ?_⟩
    have : pos < ln.length := by
      by_contra hcon
      have h4 := h3.1
      rw [List.getElem?_eq_none (by omega)] at h4
      cases h4
    omega
  · exact ⟨-1, h1, fun _ => rfl, by omega⟩

/-- A line that is not a section header stores, under section prefix `sect`, what it stores
at the root with `sect` put in front of the key, and leaves the section as it is. -/
theorem LoadIni.line_of_not_header (sect ln : Str)
    (hh : (HasPrefix (CutSuffix ln ['\r']).1 ['['] && HasSuffix (CutSuffix ln ['\r']).1 [']'])
      = false) :
    LoadIni.line sect (CutSuffix ln ['\r']).1
      = Exec.ret (sect, (rootCall ln).map (fun p => (sect ++ p.1, p.2))) := by
  unfold rootCall
  generalize (CutSuffix ln ['\r']).1 = cl at hh
  by_cases hblank : cl = [] ∨ HasPrefix cl [';'] = true
  · simp [LoadIni.line, hblank]
  · obtain ⟨pos, hpos, _, _⟩ := indexOfUnescapedEq_ret cl (fun hc => hblank (Or.inl hc))
    by_cases hneg : pos < 0
    · simp [LoadIni.line, hblank, hh, hpos, hneg]
    · simp [LoadIni.line, hblank, hh, hpos, hneg]

/-- A section header sets the section to its name, with a dot appended unless the name is
empty or already ends in a dot, and makes no call. -/
theorem LoadIni.line_of_header (sect name : Str) :
    LoadIni.line sect ('[' :: name ++ [']']) = Exec.ret (ensureTrailingDot name, none) := by
  have h1 : ¬ ('[' :: name ++ [']'] = [] ∨ HasPrefix ('[' :: name ++ [']']) [';'] = true) := by
    simp [HasPrefix]
  have h2 : (HasPrefix ('[' :: name ++ [']']) ['['] && HasSuffix ('[' :: name ++ [']']) [']'])
      = true := by
    have h3 : HasSuffix ('[' :: name ++ [']']) [']'] = true := by
      rw [hasSuffix_singleton, List.getLast?_append_of_ne_nil _ (by simp)]
      rfl
    rw [Bool.and_eq_true]
    exact ⟨by simp [HasPrefix], h3⟩
  have h4 : (('[' :: name ++ [']']).take (('[' :: name ++ [']']).length - 1)).drop 1 = name := by
    have h5 : ('[' :: name ++ [']']).length - 1 = ('[' :: name).length := by simp
    rw [h5, List.take_left' rfl]
    rfl
  rw [LoadIni.line, if_neg h1, if_pos h2, h4]

theorem Layer.setString_writable (h : Heap) (l : Nat) (key value : Str)
    (hw : Layer.IsWritable h l = true) :
    ∃ h', Viewable.SetString h (Viewable.layer l) key value = ⟨none, h'⟩ ∧
      h' = (Layer.SetString h l key value).state ∧ Layer.IsWritable h' l = true := by
  refine ⟨(Layer.SetString h l key value).state, ?_, rfl, ?_⟩
  · rw [Viewable.SetString, Layer.setString_of_writable h l key value hw]
  · rw [Layer.setString_of_writable h l key value hw]
    unfold Layer.IsWritable at hw ⊢
    simp [Heap.setLayer_layers_self, hw]

/-- Reading a block of lines without a section header into a writable layer: every line
stores what it stores at the root, under the key with the section prefix in front. -/
theorem LoadIni.resume_body (l : Nat) (sect rest : Str) (e : GoError) :
    ∀ (body : List Str) (h : Heap), Layer.IsWritable h l = true →
      (∀ b ∈ body, '\n' ∉ b ∧
        (HasPrefix (CutSuffix b ['\r']).1 ['['] && HasSuffix (CutSuffix b ['\r']).1 [']'])
          = false) →
      LoadIni.resume h (Viewable.layer l) sect ⟨body.flatMap (fun b => b ++ ['\n']) ++ rest, e⟩
        = LoadIni.resume
            (storeAll h l ((body.filterMap rootCall).map (fun p => (sect ++ p.1, p.2))))
            (Viewable.layer l) sect ⟨rest, e⟩ := by
  intro body
  induction body with
  | nil => intro h _ _; simp [storeAll]
  | cons b body ih =>
    intro h hw hbody
    obtain ⟨hb1, hb2⟩ := hbody b (List.mem_cons_self _ _)
    have hrest : ∀ x ∈ body, '\n' ∉ x ∧
        (HasPrefix (CutSuffix x ['\r']).1 ['['] && HasSuffix (CutSuffix x ['\r']).1 [']'])
          = false := fun x hx => hbody x (List.mem_cons_of_mem _ hx)
    have hdata : (b :: body).flatMap (fun b => b ++ ['\n']) ++ rest
        = b ++ '\n' :: (body.flatMap (fun b => b ++ ['\n']) ++ rest) := by
      simp [List.append_assoc]
    rw [hdata]
    have hline := LoadIni.line_of_not_header sect b hb2
    cases hcall : rootCall b with
    | none =>
      rw [hcall] at hline
      rw [LoadIni.resume_step _ _ _ _ _ _ _
        (LoadIni.iter_line_skip h (Viewable.layer l) sect sect b _ e hb1 hline)]
      rw [ih h hw hrest]
      simp [List.filterMap_cons, hcall]
    | some p =>
      rw [hcall] at hline
      obtain ⟨h', hset, hh', hw'⟩ := Layer.setString_writable h l (sect ++ p.1) p.2 hw
      rw [LoadIni.resume_step _ _ _ _ _ _ _
        (LoadIni.iter_line_set h h' (Viewable.layer l) sect sect b _ (sect ++ p.1) p.2 e hb1
          hline hset)]
      rw [ih h' hw' hrest, hh']
      simp [List.filterMap_cons, hcall, storeAll]

/-- C6 (as stated, refuted): under the header `[a.]` the line `k=v` is stored under `a.k`;
no separator is appended to a name that ends in a dot, so nothing is stored under `a..k`. -/
theorem loadIni_section_counterexample :
    ((LoadIni freshHeap (Viewable.layer 0) ⟨"[a.]\nk=v\n".toList, GoError.EOF⟩).state.layers
        0).values = [("a.k".toList, "v".toList)] ∧
    mapGet ((LoadIni freshHeap (Viewable.layer 0)
        ⟨"[a.]\nk=v\n".toList, GoError.EOF⟩).state.layers 0).values
      ("a." ++ "." ++ "k").toList = none := by
  decide

/-- C6 (amended): when the loop of `LoadIni`, loading into a writable layer, reads a section
header `[name]`, every line after it up to the next header stores what it stores at the root
under the key with the section prefix in front; the prefix is empty for the empty name, the
name itself when the name ends in a dot, and the name followed by a dot otherwise. -/
theorem loadIni_section_prefix (h : Heap) (l : Nat) (sect hdr name rest : Str)
    (body : List Str) (e : GoError)
    (hw : Layer.IsWritable h l = true)
    (hhdr : '\n' ∉ hdr ∧ (CutSuffix hdr ['\r']).1 = '[' :: name ++ [']'])
    (hbody : ∀ b ∈ body, '\n' ∉ b ∧
      (HasPrefix (CutSuffix b ['\r']).1 ['['] && HasSuffix (CutSuffix b ['\r']).1 [']'])
        = false) :
    LoadIni.resume h (Viewable.layer l) sect
        ⟨hdr ++ '\n' :: (body.flatMap (fun b => b ++ ['\n']) ++ rest), e⟩
      = LoadIni.resume
          (storeAll h l ((body.filterMap rootCall).map
            (fun p => ((if name = [] then [] else if name.getLast? = some '.' then name
              else name ++ ['.']) ++ p.1, p.2))))
          (Viewable.layer l)
          (if name = [] then [] else if name.getLast? = some '.' then name else name ++ ['.'])
          ⟨rest, e⟩ := by
  have hP : ensureTrailingDot name
      = (if name = [] then [] else if name.getLast? = some '.' then name else name ++ ['.']) := by
    by_cases h1 : name = []
    · subst h1; simp [ensureTrailingDot_nil]
    · by_cases h2 : name.getLast? = some '.'
      · simp [h1, h2, ensureTrailingDot_of_dot name h2]
      · simp [h1, h2, ensureTrailingDot_of_plain name h1 h2]
  rw [← hP]
  have hline : LoadIni.line sect (CutSuffix hdr ['\r']).1
      = Exec.ret (ensureTrailingDot name, none) := by
    rw [hhdr.2]
    exact LoadIni.line_of_header sect name
  rw [LoadIni.resume_step _ _ _ _ _ _ _
    (LoadIni.iter_line_skip h (Viewable.layer l) sect _ hdr _ e hhdr.1 hline)]
  exact LoadIni.resume_body l (ensureTrailingDot name) rest e body h hw hbody

theorem loadIni_section_prefix_witness :
    (Layer.IsWritable freshHeap 0 = true ∧
      ('\n' ∉ "[my.section]".toList ∧
        (CutSuffix "[my.section]".toList ['\r']).1 = '[' :: "my.section".toList ++ [']']) ∧
      (∀ b ∈ ["key=sect".toList], '\n' ∉ b ∧
        (HasPrefix (CutSuffix b ['\r']).1 ['['] && HasSuffix (CutSuffix b ['\r']).1 [']'])
          = false)) ∧
    LoadIni.resume freshHeap (Viewable.layer 0) []
        ⟨"[my.section]".toList ++ '\n' ::
          (["key=sect".toList].flatMap (fun b => b ++ ['\n']) ++ []), GoError.EOF⟩
      = LoadIni.resume
          (storeAll freshHeap 0 ((["key=sect".toList].filterMap rootCall).map
            (fun p => ((if "my.section".toList = [] then []
              else if "my.section".toList.getLast? = some '.' then "my.section".toList
              else "my.section".toList ++ ['.']) ++ p.1, p.2))))
          (Viewable.layer 0)
          (if "my.section".toList = [] then []
            else if "my.section".toList.getLast? = some '.' then "my.section".toList
            else "my.section".toList ++ ['.'])
          ⟨[], GoError.EOF⟩ :=
  ⟨⟨by decide, by decide, by decide⟩,
    loadIni_section_prefix freshHeap 0 [] "[my.section]".toList "my.section".toList []
      ["key=sect".toList] GoError.EOF (by decide) (by decide) (by decide)⟩

/-! ## Escaping and unescaping -/

theorem ReplaceAll_append (a b : Str) (old : Char) (new : Str) :
    ReplaceAll (a ++ b) old new = ReplaceAll a old new ++ ReplaceAll b old new := by
  induction a with
  | nil => simp [ReplaceAll]
  | cons x a ih => simp [ReplaceAll, ih, List.append_assoc]

theorem escapeIniString_nil (equal : Bool) : escapeIniString [] equal = [] := by
  cases equal <;> simp [escapeIniString, ReplaceAll]

theorem escapeIniString_cons (c : Char) (s : Str) (equal : Bool) :
    escapeIniString (c :: s) equal = escapeByte equal c ++ escapeIniString s equal := by
  unfold escapeIniString escapeByte
  simp only [ReplaceAll]
  by_cases h1 : c = '\\'
  · subst h1
    cases equal <;> simp [ReplaceAll, ReplaceAll_append]
  · by_cases h2 : c = '\n'
    · subst h2
      cases equal <;> simp [ReplaceAll, ReplaceAll_append]
    · by_cases h3 : c = '='
      · subst h3
        cases equal <;> simp [ReplaceAll, ReplaceAll_append]
      · cases equal <;> simp [ReplaceAll, ReplaceAll_append, h1, h2, h3]

theorem escapeIniString_append (a b : Str) (equal : Bool) :
    escapeIniString (a ++ b) equal = escapeIniString a equal ++ escapeIniString b equal := by
  induction a with
  | nil => simp [escapeIniString_nil]
  | cons x a ih => simp [escapeIniString_cons, ih, List.append_assoc]

theorem unescapes_replace_cons_of_ne (c : Char) (t : Str) (hc : c ≠ '\\') :
    unescapes.Replace (c :: t) = c :: unescapes.Replace t := by
  cases t with
  | nil => simp [unescapes.Replace]
  | cons d rest => simp [unescapes.Replace, hc]

theorem unescapes_replace_escape (c r : Char) (t : Str) (hr : unescapes.table c = some r) :
    unescapes.Replace ('\\' :: c :: t) = r :: unescapes.Replace t := by
  simp [unescapes.Replace, hr]

/-- Unescaping undoes escaping. -/
theorem unescapes_replace_escapeIniString (s : Str) (equal : Bool) :
    unescapes.Replace (escapeIniString s equal) = s := by
  induction s with
  | nil => simp [escapeIniString_nil, unescapes.Replace]
  | cons c s ih =>
    rw [escapeIniString_cons]
    unfold escapeByte
    by_cases h1 : c = '\\'
    · subst h1
      simp only [if_true, List.cons_append, List.nil_append]
      rw [unescapes_replace_escape '\\' '\\' _ (by decide), ih]
    · by_cases h2 : c = '\n'
      · subst h2
        simp only [h1, if_false, if_true, List.cons_append, List.nil_append]
        rw [unescapes_replace_escape 'n' '\n' _ (by decide), ih]
      · by_cases h3 : equal = true ∧ c = '='
        · obtain ⟨h5, h4⟩ := h3
          subst h4
          simp only [h1, h2, if_false, List.cons_append, List.nil_append]
          rw [if_pos ⟨h5, trivial⟩]
          simp only [List.cons_append, List.nil_append]
          rw [unescapes_replace_escape '=' '=' _ (by decide), ih]
        · simp only [h1, h2, h3, if_false, List.cons_append, List.nil_append]
          rw [unescapes_replace_cons_of_ne c _ h1, ih]

theorem escapeByte_ne_nil (equal : Bool) (c : Char) : escapeByte equal c ≠ [] := by
  unfold escapeByte
  split
  · simp
  · split
    · simp
    · split <;> simp

theorem escapeByte_head (equal : Bool) (c c0 : Char)
    (h : (escapeByte equal c).head? = some c0) : c0 = c ∨ c0 = '\\' := by
  unfold escapeByte at h
  split at h
  · right; simpa using h.symm
  · split at h
    · right; simpa using h.symm
    · split at h
      · right; simpa using h.symm
      · left; simpa using h.symm

theorem escapeByte_getLast (equal : Bool) (c c0 : Char)
    (h : (escapeByte equal c).getLast? = some c0) : c0 = c ∨ c0 = 'n' := by
  unfold escapeByte at h
  split at h
  · rename_i h1
    left; rw [h1]; simpa using h.symm
  · split at h
    · right; simpa using h.symm
    · split at h
      · rename_i h1
        left; rw [h1.2]; simpa using h.symm
      · left; simpa using h.symm

theorem escapeIniString_ne_nil (s : Str) (equal : Bool) (hs : s ≠ []) :
    escapeIniString s equal ≠ [] := by
  cases s with
  | nil => exact absurd rfl hs
  | cons c s =>
    rw [escapeIniString_cons]
    intro h
    exact escapeByte_ne_nil equal c (List.append_eq_nil.1 h).1

/-- The first byte of an escaped string is the first byte of the string or a backslash. -/
theorem escapeIniString_head (s : Str) (equal : Bool) (c0 : Char)
    (h : (escapeIniString s equal).head? = some c0) : s.head? = some c0 ∨ c0 = '\\' := by
  cases s with
  | nil => simp [escapeIniString_nil] at h
  | cons c s =>
    rw [escapeIniString_cons, List.head?_append_of_ne_nil _ (escapeByte_ne_nil equal c)] at h
    rcases escapeByte_head equal c c0 h with h1 | h1
    · left; simp [h1]
    · right; exact h1

/-- The last byte of an escaped string is the last byte of the string or the letter `n`. -/
theorem escapeIniString_getLast (s : Str) (equal : Bool) (c0 : Char)
    (h : (escapeIniString s equal).getLast? = some c0) : s.getLast? = some c0 ∨ c0 = 'n' := by
  rcases List.eq_nil_or_concat s with h1 | ⟨t, c, h1⟩
  · subst h1; simp [escapeIniString_nil] at h
  · subst h1
    rw [List.concat_eq_append, escapeIniString_append, escapeIniString_cons,
      escapeIniString_nil, List.append_nil,
      List.getLast?_append_of_ne_nil _ (escapeByte_ne_nil equal c)] at h
    rcases escapeByte_getLast equal c c0 h with h2 | h2
    · left; simp [h2]
    · right; exact h2

/-- In an escaped key every equal sign directly follows a backslash. -/
theorem escapedKey_eq_follows_backslash (k : Str) :
    ∀ j : Nat, (escapeIniString k true)[j]? = some '=' →
      1 ≤ j ∧ (escapeIniString k true)[j - 1]? = some '\\' := by
  induction k with
  | nil => intro j h; simp [escapeIniString_nil] at h
  | cons c k ih =>
    intro j h
    rw [escapeIniString_cons] at h ⊢
    by_cases hsp : c = '\\' ∨ c = '\n' ∨ c = '='
    · obtain ⟨x, hx⟩ : ∃ x, escapeByte true c = ['\\', x] := by
        unfold escapeByte
        rcases hsp with h1 | h1 | h1
        · exact ⟨'\\', by simp [h1]⟩
        · exact ⟨'n', by subst h1; simp⟩
        · exact ⟨'=', by subst h1; simp⟩
      rw [hx] at h ⊢
      match j, h with
      | 0, h => simp at h
      | 1, _ => simp
      | j + 2, h =>
        have h' : (escapeIniString k true)[j]? = some '=' := by simpa using h
        obtain ⟨h2, h3⟩ := ih j h'
        refine ⟨by omega, ?_⟩
        have : j + 2 - 1 = (j - 1) + 2 := by omega
        rw [this]
        simpa using h3
    · have hx : escapeByte true c = [c] := by
        unfold escapeByte
        simp only [not_or] at hsp
        simp [hsp.1, hsp.2.1, hsp.2.2]
      rw [hx] at h ⊢
      match j, h with
      | 0, h =>
        simp only [not_or] at hsp
        simp at h
        exact absurd h hsp.2.2
      | j + 1, h =>
        have h' : (escapeIniString k true)[j]? = some '=' := by simpa using h
        obtain ⟨h2, h3⟩ := ih j h'
        refine ⟨by omega, ?_⟩
        have : j + 1 - 1 = (j - 1) + 1 := by omega
        rw [this]
        simpa using h3

/-- An escaped key has an equal sign at position 1 only when the key begins with one. -/
theorem escapedKey_eq_at_one (k : Str) (h : (escapeIniString k true)[1]? = some '=') :
    k.head? = some '=' := by
  cases k with
  | nil => simp [escapeIniString_nil] at h
  | cons c k =>
    rw [escapeIniString_cons] at h
    unfold escapeByte at h
    by_cases h1 : c = '\\'
    · subst h1; simp at h
    · by_cases h2 : c = '\n'
      · subst h2; simp at h
      · by_cases h3 : c = '='
        · simp [h3]
        · simp only [h1, h2, h3, and_false, if_false] at h
          have h' : (escapeIniString k true)[0]? = some '=' := by simpa using h
          have := (escapedKey_eq_follows_backslash k 0 h').1
          omega

/-! ## Reading back a saved line -/

theorem hasPrefix_singleton (s : Str) (c : Char) :
    HasPrefix s [c] = true ↔ s.head? = some c := by
  cases s with
  | nil => simp [HasPrefix]
  | cons x s =>
    simp only [HasPrefix, List.isPrefixOf, List.head?_cons, Option.some.injEq, Bool.and_true,
      beq_iff_eq]
    exact eq_comm

theorem trimLeft_of_head (s cutset : Str)
    (h : ∀ c, s.head? = some c → cutset.contains c = false) : TrimLeft s cutset = s := by
  cases s with
  | nil => rfl
  | cons x s =>
    have hx := h x rfl
    exact List.dropWhile_cons_of_neg (by rw [hx]; simp)

theorem trimRight_of_last (s cutset : Str)
    (h : ∀ c, s.getLast? = some c → cutset.contains c = false) : TrimRight s cutset = s := by
  unfold TrimRight
  have h1 : s.reverse.dropWhile (fun c => cutset.contains c) = s.reverse := by
    cases hr : s.reverse with
    | nil => rfl
    | cons x t =>
      have hx : cutset.contains x = false := by
        apply h x
        rw [← List.head?_reverse, hr]
        rfl
      exact List.dropWhile_cons_of_neg (by rw [hx]; simp)
  rw [h1, List.reverse_reverse]

/-- What `iniRoundTrips` asks of a binding. -/
theorem iniRoundTrips_spec (k v : Str) (h : iniRoundTrips k v = true) :
    k ≠ [] ∧
    (∀ c, k.head? = some c → iniSpace.contains c = false ∧ c ≠ ';' ∧ c ≠ '=') ∧
    (∀ c, k.getLast? = some c → iniSpace.contains c = false ∧ c ≠ '\\') ∧
    (∀ c, v.head? = some c → iniSpace.contains c = false) ∧
    v.getLast? ≠ some '\r' ∧
    ¬ (k.head? = some '[' ∧ v.getLast? = some ']') := by
  unfold iniRoundTrips at h
  simp only [Bool.and_eq_true, bne_iff_ne, ne_eq, Bool.not_eq_true', Bool.and_eq_false_iff,
    beq_eq_false_iff_ne] at h
  obtain ⟨⟨⟨⟨⟨h1, h2⟩, h3⟩, h4⟩, h5⟩, h6⟩ := h
  refine ⟨h1, ?_, ?_, ?_, ?_, ?_⟩
  · intro c hc
    simp only [headOk, hc] at h2
    simp [iniSpace] at h2 ⊢
    tauto
  · intro c hc
    simp only [lastOk, hc] at h3
    simp [iniSpace] at h3 ⊢
    tauto
  · intro c hc
    simp only [headOk, hc] at h4
    simpa using h4
  · intro hc
    simp [lastOk, hc] at h5
  · rintro ⟨h7, h8⟩
    rcases h6 with h9 | h9
    · exact h9 h7
    · exact h9 h8

/-- In the line written for a key that neither begins with an equal sign nor ends with a
backslash, `indexOfUnescapedEq` finds the equal sign written after the escaped key. -/
theorem indexOfUnescapedEq_entry (k w : Str) (hne : k ≠ [])
    (hhead : k.head? ≠ some '=') (hlast : k.getLast? ≠ some '\\') :
    indexOfUnescapedEq (escapeIniString k true ++ '=' :: w)
      = Exec.ret ((escapeIniString k true).length : Int) := by
  have hK := escapeIniString_ne_nil k true hne
  generalize hKdef : escapeIniString k true = K at hK
  have hlen : 1 ≤ K.length := by
    cases K with
    | nil => exact absurd rfl hK
    | cons x t => simp
  have hin : ∀ j : Nat, j < K.length → (K ++ '=' :: w)[j]? = K[j]? := by
    intro j hj
    rw [List.getElem?_append_left hj]
  have hacc : acceptsEq (K ++ '=' :: w) K.length := by
    refine ⟨by rw [List.getElem?_append_right (le_refl _)]; simp, ?_⟩
    by_cases h1 : K.length = 1
    · exact Or.inl h1
    · right
      rw [hin _ (by omega)]
      intro h2
      have h3 : K.getLast? = some '\\' := by
        rw [List.getLast?_eq_getElem?]
        exact h2
      rw [← hKdef] at h3
      rcases escapeIniString_getLast k true '\\' h3 with h4 | h4
      · exact hlast h4
      · exact absurd h4 (by decide)
  have hfirst : ∀ j : Nat, 1 ≤ j → j < K.length → ¬ acceptsEq (K ++ '=' :: w) j := by
    intro j hj hjlt hacc'
    obtain ⟨h1, h2⟩ := hacc'
    rw [hin j hjlt] at h1
    rw [← hKdef] at h1
    rcases h2 with h3 | h3
    · subst h3
      exact hhead (escapedKey_eq_at_one k h1)
    · apply h3
      rw [hin _ (by omega), ← hKdef]
      exact (escapedKey_eq_follows_backslash k j h1).2
  rcases indexOfUnescapedEq_spec (K ++ '=' :: w) (by simp) with
    ⟨pos, h1, h2, h3, h4⟩ | ⟨_, h2⟩
  · have hpos : pos = K.length := by
      rcases Nat.lt_trichotomy pos K.length with h5 | h5 | h5
      · exact absurd h3 (hfirst pos h2 h5)
      · exact h5
      · exact absurd hacc (h4 K.length hlen h5)
    rw [h1, hpos]
  · exact absurd hacc (h2 K.length hlen)

theorem lf_not_mem_escapeIniString (s : Str) (equal : Bool) :
    '\n' ∉ escapeIniString s equal := by
  cases equal
  · exact lf_not_mem_iniEscape s
  · exact lf_not_mem_escapedKey s

/-- The line written for a binding that satisfies `iniRoundTrips` holds no line feed, is not
a section header, and is read back as that binding. -/
theorem rootCall_entry (k v : Str) (h : iniRoundTrips k v = true) :
    '\n' ∉ escapeIniString k true ++ '=' :: escapeIniString v false ∧
    (HasPrefix (CutSuffix (escapeIniString k true ++ '=' :: escapeIniString v false) ['\r']).1
        ['['] &&
      HasSuffix (CutSuffix (escapeIniString k true ++ '=' :: escapeIniString v false) ['\r']).1
        [']']) = false ∧
    rootCall (escapeIniString k true ++ '=' :: escapeIniString v false) = some (k, v) := by
  obtain ⟨hne, hkhead, hklast, hvhead, hvlast, hsect⟩ := iniRoundTrips_spec k v h
  have hK := escapeIniString_ne_nil k true hne
  have hlnlast : ∀ c0, (escapeIniString k true ++ '=' :: escapeIniString v false).getLast?
      = some c0 → c0 = '=' ∨ v.getLast? = some c0 ∨ c0 = 'n' := by
    intro c0 h1
    rw [List.getLast?_append_of_ne_nil _ (by simp)] at h1
    by_cases hV : escapeIniString v false = []
    · rw [hV] at h1
      left; simpa using h1.symm
    · obtain ⟨y, t, hyt⟩ := List.exists_cons_of_ne_nil hV
      rw [hyt, List.getLast?_cons_cons, ← hyt] at h1
      right; exact escapeIniString_getLast v false c0 h1
  have hlnhead : ∀ c0, (escapeIniString k true ++ '=' :: escapeIniString v false).head?
      = some c0 → k.head? = some c0 ∨ c0 = '\\' := by
    intro c0 h1
    rw [List.head?_append_of_ne_nil _ hK] at h1
    exact escapeIniString_head k true c0 h1
  have hcut : (CutSuffix (escapeIniString k true ++ '=' :: escapeIniString v false) ['\r']).1
      = escapeIniString k true ++ '=' :: escapeIniString v false := by
    apply cutSuffix_of_ne
    intro h1
    rcases hlnlast _ h1 with h2 | h2 | h2
    · exact absurd h2 (by decide)
    · exact hvlast h2
    · exact absurd h2 (by decide)
  have hblank : ¬ (escapeIniString k true ++ '=' :: escapeIniString v false = [] ∨
      HasPrefix (escapeIniString k true ++ '=' :: escapeIniString v false) [';'] = true) := by
    rintro (h1 | h1)
    · simp at h1
    · rw [hasPrefix_singleton] at h1
      rcases hlnhead _ h1 with h2 | h2
      · exact (hkhead _ h2).2.1 rfl
      · exact absurd h2 (by decide)
  have hheader : (HasPrefix (escapeIniString k true ++ '=' :: escapeIniString v false) ['['] &&
      HasSuffix (escapeIniString k true ++ '=' :: escapeIniString v false) [']']) = false := by
    rw [← Bool.not_eq_true, Bool.and_eq_true, hasPrefix_singleton, hasSuffix_singleton]
    rintro ⟨h1, h2⟩
    apply hsect
    constructor
    · rcases hlnhead _ h1 with h3 | h3
      · exact h3
      · exact absurd h3 (by decide)
    · rcases hlnlast _ h2 with h3 | h3 | h3
      · exact absurd h3 (by decide)
      · exact h3
      · exact absurd h3 (by decide)
  have hidx := indexOfUnescapedEq_entry k (escapeIniString v false) hne
    (fun h1 => (hkhead _ h1).2.2 rfl) (fun h1 => (hklast _ h1).2 rfl)
  have hnneg : ¬ (((escapeIniString k true).length : Int) < 0) := by omega
  have htake : (escapeIniString k true ++ '=' :: escapeIniString v false).take
      (escapeIniString k true).length = escapeIniString k true := List.take_left' rfl
  have hdrop : (escapeIniString k true ++ '=' :: escapeIniString v false).drop
      ((escapeIniString k true).length + 1) = escapeIniString v false := by
    rw [show escapeIniString k true ++ '=' :: escapeIniString v false
      = (escapeIniString k true ++ ['=']) ++ escapeIniString v false by simp]
    exact List.drop_left' (by simp)
  have htrimK : Trim (escapeIniString k true) iniSpace = escapeIniString k true := by
    unfold Trim
    rw [trimLeft_of_head, trimRight_of_last]
    · intro c hc
      rcases escapeIniString_getLast k true c hc with h1 | h1
      · exact (hklast c h1).1
      · subst h1; decide
    · intro c hc
      rcases escapeIniString_head k true c hc with h1 | h1
      · exact (hkhead c h1).1
      · subst h1; decide
  have htrimV : TrimLeft (escapeIniString v false) iniSpace = escapeIniString v false := by
    apply trimLeft_of_head
    intro c hc
    rcases escapeIniString_head v false c hc with h1 | h1
    · exact hvhead c h1
    · subst h1; decide
  refine ⟨?_, by rw [hcut]; exact hheader, ?_⟩
  · simp only [List.mem_append, List.mem_cons, not_or]
    exact ⟨lf_not_mem_escapeIniString k true, by decide, lf_not_mem_escapeIniString v false⟩
  unfold rootCall
  rw [hcut, LoadIni.line, if_neg hblank, if_neg (by rw [hheader]; simp), hidx]
  simp only [hnneg, if_false, Int.toNat_ofNat, htake, hdrop, htrimK, htrimV,
    unescapes_replace_escapeIniString, List.nil_append]

/-- What a layer holds after a list of bindings was stored in it, one `SetString` each. -/
theorem storeAll_mapGet (l : Nat) (f : Str → Str) (keys : List Str) :
    ∀ h : Heap, Layer.IsWritable h l = true → ∀ k,
      mapGet ((storeAll h l (keys.map (fun k => (k, f k)))).layers l).values k
        = if k ∈ keys then some (f k) else mapGet (h.layers l).values k := by
  induction keys with
  | nil => intro h _ k; simp [storeAll]
  | cons c cs ih =>
    intro h hw k
    obtain ⟨h', _, hh', hw'⟩ := Layer.setString_writable h l c (f c) hw
    have hstep : storeAll h l ((c :: cs).map (fun k => (k, f k)))
        = storeAll h' l (cs.map (fun k => (k, f k))) := by
      rw [hh']
      simp [storeAll]
    have hval : (h'.layers l).values = mapSet (h.layers l).values c (f c) := by
      rw [hh', Layer.setString_of_writable h l c (f c) hw]
      simp [Heap.setLayer_layers_self]
    rw [hstep, ih h' hw' k, hval]
    by_cases hk : k ∈ cs
    · simp [hk]
    · by_cases hkc : k = c
      · subst hkc
        simp [mapGet_mapSet_self]
      · simp [hk, hkc, mapGet_mapSet_ne _ _ _ _ hkc]

/-- The lines of the header that `SaveIni` writes. -/
theorem iniHeader_lines :
    iniHeader = [";".toList, "; This INI file was autogenerated".toList, ";".toList, []].flatMap
      (fun b => b ++ ['\n']) := by
  decide

theorem iniEntry_eq (k v : Str) :
    iniEntry k v = (escapeIniString k true ++ '=' :: escapeIniString v false) ++ ['\n'] := by
  simp [iniEntry, escapeIniString, iniEscape, List.append_assoc]

/-! ## Round trip through the INI text -/

theorem LoadIni.resume_end (h : Heap) (v : Viewable) :
    LoadIni.resume h v [] ⟨[], GoError.EOF⟩ = ⟨Exec.ret none, h, ⟨[], GoError.EOF⟩⟩ :=
  LoadIni.resume_stop h v [] _ _
    (LoadIni.iter_last_skip h v [] [] [] (by simp) (by decide))

theorem filterMap_rootCall_entries (val : Str → Str) (keys : List Str)
    (hsafe : ∀ k ∈ keys, iniRoundTrips k (val k) = true) :
    (keys.map (fun k => escapeIniString k true ++ '=' :: escapeIniString (val k) false)).filterMap
        rootCall
      = keys.map (fun k => (k, val k)) := by
  induction keys with
  | nil => rfl
  | cons k keys ih =>
    rw [List.map_cons, List.filterMap_cons,
      (rootCall_entry k (val k) (hsafe k (List.mem_cons_self _ _))).2.2]
    simp only [List.map_cons]
    rw [ih (fun x hx => hsafe x (List.mem_cons_of_mem _ hx))]

/-- Loading the text saved from a layer whose bindings satisfy `iniRoundTrips` stores exactly
those bindings, one `SetString` each in the order of the saved lines. -/
theorem loadIni_saved (h h₀ : Heap) (l l' : Nat) (head : Bool) (keys : List Str)
    (hw : Layer.IsWritable h l' = true)
    (hall : ∀ k ∈ keys, ∃ v, mapGet (h₀.layers l).values k = some v)
    (hsafe : ∀ k v, mapGet (h₀.layers l).values k = some v → iniRoundTrips k v = true) :
    LoadIni h (Viewable.layer l')
        ⟨saveIniInternal h₀ (Viewable.layer l) [] head keys, GoError.EOF⟩
      = ⟨Exec.ret none,
          storeAll h l' (keys.map (fun k => (k, (mapGet (h₀.layers l).values k).getD []))),
          ⟨[], GoError.EOF⟩⟩ := by
  have hsafe' : ∀ k ∈ keys, iniRoundTrips k ((mapGet (h₀.layers l).values k).getD []) = true := by
    intro k hk
    obtain ⟨v, hv⟩ := hall k hk
    rw [hv]
    exact hsafe k v hv
  have hentries : ∀ b ∈ keys.map (fun k => escapeIniString k true ++
        '=' :: escapeIniString ((mapGet (h₀.layers l).values k).getD []) false),
      '\n' ∉ b ∧
        (HasPrefix (CutSuffix b ['\r']).1 ['['] && HasSuffix (CutSuffix b ['\r']).1 [']'])
          = false := by
    intro b hb
    obtain ⟨k, hk, hkb⟩ := List.mem_map.1 hb
    rw [← hkb]
    exact ⟨(rootCall_entry k _ (hsafe' k hk)).1, (rootCall_entry k _ (hsafe' k hk)).2.1⟩
  have hflat : keys.flatMap (fun k => iniEntry k ((mapGet (h₀.layers l).values k).getD []))
      = (keys.map (fun k => escapeIniString k true ++
          '=' :: escapeIniString ((mapGet (h₀.layers l).values k).getD []) false)).flatMap
          (fun b => b ++ ['\n']) := by
    rw [List.flatMap_def, List.flatMap_def, List.map_map]
    congr 1
    apply List.map_congr_left
    intro k _
    exact iniEntry_eq k _
  have hwr : (!Viewable.IsWritable h (Viewable.layer l')) = false := by
    simp [Viewable.IsWritable, hw]
  unfold LoadIni saveIniInternal
  rw [hwr, saveIni_loop_layer h₀ l keys _ hall, hflat]
  simp only [Bool.false_eq_true, if_false]
  cases head with
  | false =>
    simp only [Bool.false_eq_true, if_false, List.nil_append]
    have hdata : ∀ body : List Str, body.flatMap (fun b => b ++ ['\n'])
        = body.flatMap (fun b => b ++ ['\n']) ++ [] := fun body => (List.append_nil _).symm
    rw [hdata, LoadIni.resume_body l' [] [] GoError.EOF _ h hw hentries,
      filterMap_rootCall_entries _ keys hsafe', LoadIni.resume_end]
    simp [List.map_map, Function.comp_def]
  | true =>
    simp only [if_true, List.nil_append]
    rw [iniHeader_lines, ← List.flatMap_append, ← List.append_nil (List.flatMap _ _),
      LoadIni.resume_body l' [] [] GoError.EOF _ h hw ?_, List.filterMap_append,
      filterMap_rootCall_entries _ keys hsafe', LoadIni.resume_end]
    · have hhdr : [";".toList, "; This INI file was autogenerated".toList, ";".toList,
          []].filterMap rootCall = [] := by decide
      rw [hhdr]
      simp [List.map_map, Function.comp_def]
    · intro b hb
      rcases List.mem_append.1 hb with h1 | h1
      · clear hb
        revert b
        decide
      · exact hentries b h1

theorem mapGet_mem (m : List (Str × Str)) (k v : Str) (h : mapGet m k = some v) :
    (k, v) ∈ m := by
  induction m with
  | nil => simp [mapGet] at h
  | cons p m ih =>
    obtain ⟨a, b⟩ := p
    by_cases ha : a = k
    · subst ha
      simp only [mapGet, if_true, Option.some.injEq] at h
      subst h
      exact List.mem_cons_self _ _
    · simp only [mapGet, ha, if_false] at h
      exact List.mem_cons_of_mem _ (ih h)

/-- C3 (as stated, refuted): a layer holding ` v` for the key `k` and `w` for the empty key is
saved as the lines `k= v` and `=w`; loading them into a new layer stores `v` for `k`, without
the leading space, and nothing for the empty key. -/
theorem ini_round_trip_counterexample :
    KeyList.ToSlice (Viewable.ListKeys iniExampleHeap (Viewable.layer 1) [] ⟨[]⟩ false)
      ["k".toList, []] ∧
    saveIniInternal iniExampleHeap (Viewable.layer 1) [] false ["k".toList, []]
      = "k= v\n=w\n".toList ∧
    mapGet (iniExampleHeap.layers 1).values "k".toList = some " v".toList ∧
    mapGet ((LoadIni iniExampleHeap (Viewable.layer 0)
      ⟨saveIniInternal iniExampleHeap (Viewable.layer 1) [] false ["k".toList, []],
        GoError.EOF⟩).state.layers 0).values "k".toList = some "v".toList ∧
    mapGet (iniExampleHeap.layers 1).values [] = some "w".toList ∧
    mapGet ((LoadIni iniExampleHeap (Viewable.layer 0)
      ⟨saveIniInternal iniExampleHeap (Viewable.layer 1) [] false ["k".toList, []],
        GoError.EOF⟩).state.layers 0).values [] = none := by
  decide

/-- C3 (amended): for a layer whose bindings all satisfy `iniRoundTrips`, saving it with
`saveIniInternal`, with or without the header and in whatever order the keys are listed, and
loading the text into a new writable layer ends without error and leaves that layer with
exactly the key-to-value mapping of the saved one; `SaveIni` is the case with the header. -/
theorem ini_round_trip (h : Heap) (l l' : Nat) (head : Bool) (keys : List Str)
    (hkeys : KeyList.ToSlice (Viewable.ListKeys h (Viewable.layer l) [] ⟨[]⟩ false) keys)
    (hsafe : ∀ k v, mapGet (h.layers l).values k = some v → iniRoundTrips k v = true)
    (hfresh : (h.layers l').values = [] ∧ (h.layers l').writable = true) :
    (LoadIni h (Viewable.layer l')
      ⟨saveIniInternal h (Viewable.layer l) [] head keys, GoError.EOF⟩).exit = Exec.ret none ∧
    (∀ k, mapGet ((LoadIni h (Viewable.layer l')
        ⟨saveIniInternal h (Viewable.layer l) [] head keys, GoError.EOF⟩).state.layers l').values k
      = mapGet (h.layers l).values k) ∧
    SaveIni h (Viewable.layer l) [] keys = saveIniInternal h (Viewable.layer l) [] true keys := by
  obtain ⟨_, hmem⟩ := layer_listKeys_root h l
  unfold KeyList.ToSlice at hkeys
  have hmem' : ∀ k, k ∈ keys ↔ ∃ v, mapGet (h.layers l).values k = some v := by
    intro k
    rw [hkeys.mem_iff, hmem]
  rw [loadIni_saved h h l l' head keys hfresh.2 (fun k hk => (hmem' k).1 hk) hsafe]
  refine ⟨rfl, ?_, rfl⟩
  intro k
  simp only
  rw [storeAll_mapGet l' (fun k => (mapGet (h.layers l).values k).getD []) keys h hfresh.2 k]
  by_cases hk : k ∈ keys
  · obtain ⟨v, hv⟩ := (hmem' k).1 hk
    simp [hk, hv]
  · have hnone : mapGet (h.layers l).values k = none := by
      cases hget : mapGet (h.layers l).values k with
      | none => rfl
      | some v => exact absurd ((hmem' k).2 ⟨v, hget⟩) hk
    simp [hk, hnone, hfresh.1, mapGet]

theorem ini_round_trip_witness :
    (KeyList.ToSlice (Viewable.ListKeys exampleHeap (Viewable.layer 2) [] ⟨[]⟩ false)
        ["my.cat".toList, "my.dog".toList] ∧
      (∀ k v, mapGet (exampleHeap.layers 2).values k = some v → iniRoundTrips k v = true) ∧
      ((exampleHeap.layers 0).values = [] ∧ (exampleHeap.layers 0).writable = true)) ∧
    (∀ k, mapGet ((LoadIni exampleHeap (Viewable.layer 0)
        ⟨saveIniInternal exampleHeap (Viewable.layer 2) [] true
          ["my.cat".toList, "my.dog".toList], GoError.EOF⟩).state.layers 0).values k
      = mapGet (exampleHeap.layers 2).values k) :=
  have hsafe : ∀ k v, mapGet (exampleHeap.layers 2).values k = some v →
      iniRoundTrips k v = true := fun k v hkv =>
    (by decide : ∀ p ∈ (exampleHeap.layers 2).values, iniRoundTrips p.1 p.2 = true)
      (k, v) (mapGet_mem _ k v hkv)
  ⟨⟨by decide, hsafe, by decide⟩,
    (ini_round_trip exampleHeap 2 0 true ["my.cat".toList, "my.dog".toList] (by decide) hsafe
      (by decide)).2.1⟩

/-! ## Removing a layer -/

/-- What `slices.IndexFunc` returns: nothing when no element passes the test, else the position
of the first element that passes. -/
theorem slicesIndexFunc_spec {α : Type} (f : α → Bool) (s : List α) :
    (slicesIndexFunc f s = none ∧ ∀ x ∈ s, f x = false) ∨
    (∃ pre x post, s = pre ++ x :: post ∧ f x = true ∧ (∀ y ∈ pre, f y = false) ∧
      slicesIndexFunc f s = some pre.length) := by
  induction s with
  | nil => exact Or.inl ⟨rfl, by simp⟩
  | cons a s ih =>
    by_cases ha : f a = true
    · exact Or.inr ⟨[], a, s, rfl, ha, by simp, by simp [slicesIndexFunc, ha]⟩
    · rcases ih with ⟨h1, h2⟩ | ⟨pre, x, post, h1, h2, h3, h4⟩
      · refine Or.inl ⟨by simp [slicesIndexFunc, ha, h1], ?_⟩
        intro y hy
        rcases List.mem_cons.1 hy with h5 | h5
        · rw [h5]; simpa using ha
        · exact h2 y h5
      · refine Or.inr ⟨a :: pre, x, post, by rw [h1]; rfl, h2, ?_, by simp [slicesIndexFunc, ha, h4]⟩
        intro y hy
        rcases List.mem_cons.1 hy with h5 | h5
        · rw [h5]; simpa using ha
        · exact h3 y h5

theorem slicesDelete_middle {α : Type} (pre post : List α) (x : α) :
    slicesDelete (pre ++ x :: post) pre.length = pre ++ post := by
  unfold slicesDelete
  rw [List.take_left' rfl]
  congr 1
  rw [show pre ++ x :: post = (pre ++ [x]) ++ post by simp]
  exact List.drop_left' (by simp)

/-- What `RemoveLayer` does: nothing when no entry refers to the layer, else it deletes the
first entry that does and touches nothing else. -/
theorem RemoveLayer_spec (h : Heap) (c : Nat) (layer : Nat) :
    ((∀ x ∈ (h.configs c).items, x.layer ≠ layer) ∧ Config.RemoveLayer h c layer = (false, h)) ∨
    (∃ pre x post, (h.configs c).items = pre ++ x :: post ∧ x.layer = layer ∧
      (∀ y ∈ pre, y.layer ≠ layer) ∧
      Config.RemoveLayer h c layer = (true, h.setConfig c { items := pre ++ post })) := by
  rcases slicesIndexFunc_spec (fun item : configItem => decide (item.layer = layer))
    (h.configs c).items with ⟨h1, h2⟩ | ⟨pre, x, post, h1, h2, h3, h4⟩
  · refine Or.inl ⟨fun x hx => by simpa using h2 x hx, ?_⟩
    simp [Config.RemoveLayer, h1]
  · refine Or.inr ⟨pre, x, post, h1, by simpa using h2, fun y hy => by simpa using h3 y hy, ?_⟩
    simp only [Config.RemoveLayer, h4]
    rw [h1, slicesDelete_middle]

/-- C13: `RemoveLayer` returns true iff some entry refers to the layer; when it returns true
the new entry list is the old one without the first entry referring to the layer, the other
entries in their order, and nothing else in the heap has changed; when it returns false the
heap is unchanged. -/
theorem removeLayer_removes_first_entry (h : Heap) (c : Nat) (layer : Nat) :
    ((Config.RemoveLayer h c layer).1 = true ↔ ∃ x ∈ (h.configs c).items, x.layer = layer) ∧
    ((Config.RemoveLayer h c layer).1 = true →
      ∃ pre x post, (h.configs c).items = pre ++ x :: post ∧ x.layer = layer ∧
        (∀ y ∈ pre, y.layer ≠ layer) ∧
        ((Config.RemoveLayer h c layer).2.configs c).items = pre ++ post ∧
        (∀ c', c' ≠ c → (Config.RemoveLayer h c layer).2.configs c' = h.configs c') ∧
        (Config.RemoveLayer h c layer).2.layers = h.layers) ∧
    ((Config.RemoveLayer h c layer).1 = false → (Config.RemoveLayer h c layer).2 = h) := by
  rcases RemoveLayer_spec h c layer with ⟨h1, h2⟩ | ⟨pre, x, post, h1, h2, h3, h4⟩
  · rw [h2]
    refine ⟨?_, ?_, fun _ => rfl⟩
    · constructor
      · intro hf; cases hf
      · rintro ⟨x, hx, hxl⟩
        exact absurd hxl (h1 x hx)
    · intro hf; cases hf
  · rw [h4]
    refine ⟨?_, ?_, ?_⟩
    · constructor
      · intro _
        exact ⟨x, by rw [h1]; simp, h2⟩
      · intro _; rfl
    · intro _
      refine ⟨pre, x, post, h1, h2, h3, by simp [setConfig_configs_self], ?_, rfl⟩
      intro c' hc'
      simp [Heap.setConfig, hc']
    · intro hf; cases hf

theorem getString_loop_congr (h₁ h₂ : Heap) (hl : h₁.layers = h₂.layers) (k : Str)
    (items : List configItem) :
    Config.GetString.loop h₁ k items = Config.GetString.loop h₂ k items := by
  induction items with
  | nil => rfl
  | cons x rest ih => simp only [Config.GetString.loop, Layer.GetString, hl, ih]

theorem getString_loop_skip (h : Heap) (k : Str) (x : configItem) (rest : List configItem)
    (hx : ¬ Layer.holds h x.layer k) :
    Config.GetString.loop h k (x :: rest) = Config.GetString.loop h k rest := by
  have hnone : mapGet (h.layers x.layer).values k = none := by
    cases hget : mapGet (h.layers x.layer).values k with
    | none => rfl
    | some v => exact absurd (by simp [Layer.holds, hget]) hx
  simp [Config.GetString.loop, Layer.GetString, hnone]

theorem getString_loop_found (h : Heap) (k v : Str) (x : configItem) (rest : List configItem)
    (hx : mapGet (h.layers x.layer).values k = some v) :
    Config.GetString.loop h k (x :: rest) = (v, true) := by
  simp [Config.GetString.loop, Layer.GetString, hx]

theorem getString_loop_skip_front (h : Heap) (k : Str) (pre rest : List configItem)
    (hpre : ∀ y ∈ pre, ¬ Layer.holds h y.layer k) :
    Config.GetString.loop h k (pre ++ rest) = Config.GetString.loop h k rest := by
  induction pre with
  | nil => rfl
  | cons y pre ih =>
    rw [List.cons_append, getString_loop_skip h k y _ (hpre y (List.mem_cons_self _ _))]
    exact ih (fun z hz => hpre z (List.mem_cons_of_mem _ hz))

/-- The scan of `Config.GetString` returns the value of the first entry whose layer holds the
key, or the empty string and false when there is none. -/
theorem getString_loop_first (h : Heap) (k : Str) (items : List configItem) :
    ((∀ x ∈ items, ¬ Layer.holds h x.layer k) ∧
        Config.GetString.loop h k items = ([], false)) ∨
    (∃ pre x post v, items = pre ++ x :: post ∧ (∀ y ∈ pre, ¬ Layer.holds h y.layer k) ∧
        mapGet (h.layers x.layer).values k = some v ∧
        Config.GetString.loop h k items = (v, true)) := by
  induction items with
  | nil => exact Or.inl ⟨by simp, rfl⟩
  | cons a rest ih =>
    cases hget : mapGet (h.layers a.layer).values k with
    | some v =>
      exact Or.inr ⟨[], a, rest, v, rfl, by simp, hget, getString_loop_found h k v a rest hget⟩
    | none =>
      have ha : ¬ Layer.holds h a.layer k := by simp [Layer.holds, hget]
      rw [getString_loop_skip h k a rest ha]
      rcases ih with ⟨h1, h2⟩ | ⟨pre, x, post, v, h1, h2, h3, h4⟩
      · refine Or.inl ⟨?_, h2⟩
        intro y hy
        rcases List.mem_cons.1 hy with h5 | h5
        · rw [h5]; exact ha
        · exact h1 y h5
      · refine Or.inr ⟨a :: pre, x, post, v, by rw [h1]; rfl, ?_, h3, h4⟩
        intro y hy
        rcases List.mem_cons.1 hy with h5 | h5
        · rw [h5]; exact ha
        · exact h2 y h5

/-- In a list ordered by non-increasing priority the first entry holding the key has the
highest priority of all entries holding it. -/
theorem first_holder_highest (h : Heap) (k : Str) (pre post : List configItem)
    (x : configItem) (hsorted : (pre ++ x :: post).Pairwise (fun a b => b.prio ≤ a.prio))
    (hpre : ∀ y ∈ pre, ¬ Layer.holds h y.layer k) :
    ∀ z ∈ pre ++ x :: post, Layer.holds h z.layer k → z.prio ≤ x.prio := by
  intro z hz hhold
  rcases List.mem_append.1 hz with h1 | h1
  · exact absurd hhold (hpre z h1)
  · rcases List.mem_cons.1 h1 with h2 | h2
    · rw [h2]
    · have h3 := (List.pairwise_append.1 hsorted).2.1
      exact (List.pairwise_cons.1 h3).1 z h2

/-- The entries of a reachable config are ordered by non-increasing priority. -/
theorem run_sorted (c : Nat) (h0 : Heap) (hnew : h0.configs c = NewConfig) (ops : List ConfigOp) :
    (((ops.foldl (ConfigOp.run c) h0).configs c).items).Pairwise (fun a b => b.prio ≤ a.prio) := by
  obtain ⟨ts, hmap, hpw, _, _⟩ := run_tagged c h0 hnew ops
  rw [← hmap, List.pairwise_map]
  exact hpw.imp (fun hab => lexBefore_prio_le hab)

/-- C12 (as stated, refuted): in a config to which the layer at `3` was added twice, that
layer is the only member layer holding `my.rabbit`; `RemoveLayer` succeeds, but one entry
for the layer is left and `GetString` still finds the key. -/
theorem removeLayer_getString_counterexample :
    Config.Layers (twiceOps.foldl (ConfigOp.run 0) exampleHeap) 0 = [3, 3] ∧
    (Config.RemoveLayer (twiceOps.foldl (ConfigOp.run 0) exampleHeap) 0 3).1 = true ∧
    Config.GetString (Config.RemoveLayer (twiceOps.foldl (ConfigOp.run 0) exampleHeap) 0 3).2 0
      "my.rabbit".toList = ("carrot".toList, true) := by
  decide

/-- C12 (amended): in a reachable config, after `RemoveLayer(L)`: a key not held by `L`
resolves as before; if exactly one entry referred to `L` and no other member layer holds the
key, `GetString` reports not-found; if some remaining entry holds the key, `GetString`
returns the value of a remaining entry holding it whose priority is highest among them; and
every entry of another layer remains. -/
theorem removeLayer_getString (c : Nat) (h0 : Heap) (ops : List ConfigOp) (ls : Nat → Layer)
    (L : Nat) (k : Str) (H H' : Heap) (hnew : h0.configs c = NewConfig)
    (hH : H = ⟨ls, (ops.foldl (ConfigOp.run c) h0).configs⟩)
    (hH' : H' = (Config.RemoveLayer H c L).2) :
    (¬ Layer.holds H L k → Config.GetString H' c k = Config.GetString H c k) ∧
    (((H.configs c).items.filter (fun x => decide (x.layer = L))).length = 1 →
      (∀ x ∈ (H.configs c).items, Layer.holds H x.layer k → x.layer = L) →
      Config.GetString H' c k = ([], false)) ∧
    ((∃ y ∈ (H'.configs c).items, Layer.holds H y.layer k) →
      ∃ x ∈ (H'.configs c).items, ∃ v, mapGet (H.layers x.layer).values k = some v ∧
        Config.GetString H' c k = (v, true) ∧
        ∀ z ∈ (H'.configs c).items, Layer.holds H z.layer k → z.prio ≤ x.prio) ∧
    (∀ y ∈ (H.configs c).items, y.layer ≠ L → y ∈ (H'.configs c).items) := by
  have hsorted : ((H.configs c).items).Pairwise (fun a b => b.prio ≤ a.prio) := by
    rw [hH]
    exact run_sorted c h0 hnew ops
  clear hH hnew
  have hcases : (H' = H ∧ ∀ x ∈ (H.configs c).items, x.layer ≠ L) ∨
      (∃ pre x post, (H.configs c).items = pre ++ x :: post ∧ x.layer = L ∧
        (∀ y ∈ pre, y.layer ≠ L) ∧ (H'.configs c).items = pre ++ post ∧
        H'.layers = H.layers) := by
    rcases RemoveLayer_spec H c L with ⟨h1, h2⟩ | ⟨pre, x, post, h1, h2, h3, h4⟩
    · left
      rw [hH', h2]
      exact ⟨rfl, h1⟩
    · right
      refine ⟨pre, x, post, h1, h2, h3, ?_, ?_⟩
      · rw [hH', h4]; simp [setConfig_configs_self]
      · rw [hH', h4]; rfl
  rcases hcases with ⟨heq, hno⟩ | ⟨pre, x, post, hitems, hxl, hpre, hitems', hlayers⟩
  · rw [heq]
    refine ⟨fun _ => rfl, ?_, ?_, fun y hy _ => hy⟩
    · intro hone
      have hnil : (H.configs c).items.filter (fun x => decide (x.layer = L)) = [] := by
        rw [List.filter_eq_nil_iff]
        intro x hx
        simpa using hno x hx
      rw [hnil] at hone
      simp at hone
    · rintro ⟨y, hy, hhold⟩
      unfold Config.GetString
      rcases getString_loop_first H k (H.configs c).items with
        ⟨h1, _⟩ | ⟨p, x, q, v, h1, h2, h3, h4⟩
      · exact absurd hhold (h1 y hy)
      · refine ⟨x, by rw [h1]; simp, v, h3, h4, ?_⟩
        rw [h1] at hsorted ⊢
        exact first_holder_highest H k p q x hsorted h2
  · have hloop : ∀ items, Config.GetString.loop H' k items = Config.GetString.loop H k items :=
      fun items => getString_loop_congr H' H hlayers k items
    have hsorted' : ((H'.configs c).items).Pairwise (fun a b => b.prio ≤ a.prio) := by
      rw [hitems', ]
      rw [hitems] at hsorted
      refine hsorted.sublist ?_
      exact List.Sublist.append (List.Sublist.refl _) (List.sublist_cons_self _ _)
    refine ⟨?_, ?_, ?_, ?_⟩
    · intro hnot
      unfold Config.GetString
      rw [hloop, hitems', hitems]
      by_cases hp : ∀ y ∈ pre, ¬ Layer.holds H y.layer k
      · rw [getString_loop_skip_front H k pre _ hp, getString_loop_skip_front H k pre _ hp,
          getString_loop_skip H k x post (by rw [hxl]; exact hnot)]
      · rcases getString_loop_first H k pre with ⟨h1, _⟩ | ⟨p, y, q, v, h1, h2, h3, _⟩
        · exact absurd h1 hp
        · rw [h1]
          simp only [List.append_assoc, List.cons_append]
          rw [getString_loop_skip_front H k p _ h2, getString_loop_skip_front H k p _ h2,
            getString_loop_found H k v y _ h3, getString_loop_found H k v y _ h3]
    · intro hone hall
      unfold Config.GetString
      rw [hloop, hitems']
      have hpost : ∀ y ∈ post, y.layer ≠ L := by
        intro y hy hyl
        rw [hitems, List.filter_append, List.filter_cons] at hone
        have hx : decide (x.layer = L) = true := by simpa using hxl
        rw [hx] at hone
        have hmem : y ∈ post.filter (fun x => decide (x.layer = L)) :=
          List.mem_filter.2 ⟨hy, by simpa using hyl⟩
        have hpos : 0 < (post.filter (fun x => decide (x.layer = L))).length :=
          List.length_pos_of_mem hmem
        simp only [if_true, List.length_append, List.length_cons] at hone
        omega
      rcases getString_loop_first H k (pre ++ post) with ⟨_, h2⟩ | ⟨p, y, q, v, h1, _, h3, _⟩
      · exact h2
      · exfalso
        have hy : y ∈ pre ++ post := by rw [h1]; simp
        have hyitems : y ∈ (H.configs c).items := by
          rw [hitems]
          rcases List.mem_append.1 hy with h5 | h5
          · exact List.mem_append_left _ h5
          · exact List.mem_append_right _ (List.mem_cons_of_mem _ h5)
        have hyl := hall y hyitems (by simp [Layer.holds, h3])
        rcases List.mem_append.1 hy with h5 | h5
        · exact hpre y h5 hyl
        · exact hpost y h5 hyl
    · rintro ⟨y, hy, hhold⟩
      unfold Config.GetString
      rw [hloop]
      rcases getString_loop_first H k (H'.configs c).items with
        ⟨h1, _⟩ | ⟨p, x', q, v, h1, h2, h3, h4⟩
      · exact absurd hhold (h1 y hy)
      · refine ⟨x', by rw [h1]; simp, v, h3, h4, ?_⟩
        rw [h1] at hsorted' ⊢
        exact first_holder_highest H k p q x' hsorted' h2
    · intro y hy hyl
      rw [hitems'] 
      rw [hitems] at hy
      rcases List.mem_append.1 hy with h5 | h5
      · exact List.mem_append_left _ h5
      · rcases List.mem_cons.1 h5 with h6 | h6
        · rw [h6] at hyl; exact absurd hxl hyl
        · exact List.mem_append_right _ h6

theorem removeLayer_getString_witness :
    (exampleHeap.configs 0 = NewConfig ∧
      (⟨exampleHeap.layers, (exampleCalls.map ConfigOp.add |>.foldl (ConfigOp.run 0)
        exampleHeap).configs⟩ : Heap)
        = ⟨exampleHeap.layers, (exampleCalls.map ConfigOp.add |>.foldl (ConfigOp.run 0)
          exampleHeap).configs⟩) ∧
    Config.GetString (Config.RemoveLayer
        ⟨exampleHeap.layers, (exampleCalls.map ConfigOp.add |>.foldl (ConfigOp.run 0)
          exampleHeap).configs⟩ 0 3).2 0 "my.rabbit".toList = ([], false) :=
  ⟨⟨rfl, rfl⟩,
    (removeLayer_getString 0 exampleHeap (exampleCalls.map ConfigOp.add) exampleHeap.layers 3
      "my.rabbit".toList _ _ rfl rfl rfl).2.1 (by decide)
      (by decide)⟩

/-! ## Reading back what was written through a config -/

theorem setString_loop_at (h : Heap) (key value : Str) (pre post : List configItem)
    (item : configItem)
    (hpre : ∀ x ∈ pre, ¬ (x.writable = true ∧ Layer.IsWritable h x.layer = true))
    (hitem : item.writable = true ∧ Layer.IsWritable h item.layer = true) :
    Config.SetString.loop h key value (pre ++ item :: post)
      = Layer.SetString h item.layer key value := by
  induction pre with
  | nil => simp [Config.SetString.loop, hitem.1, hitem.2]
  | cons x pre ih =>
    have hx : ¬ ((x.writable && Layer.IsWritable h x.layer) = true) := by
      rw [Bool.and_eq_true]
      exact hpre x (List.mem_cons_self _ _)
    rw [List.cons_append, Config.SetString.loop, if_neg hx]
    exact ih (fun y hy => hpre y (List.mem_cons_of_mem _ hy))

/-- C11 (as stated, refuted): the config holds the layer at `3`, which holds `bones` for
`my.dog`, above the writable layer at `9`; it is writable, `SetString` of `my.dog` writes to
the layer at `9`, and `GetString` still returns `bones`. -/
theorem config_setString_getString_counterexample :
    Config.IsWritable (shadowOps.foldl (ConfigOp.run 0) exampleHeap) 0 = true ∧
    (Config.SetString (shadowOps.foldl (ConfigOp.run 0) exampleHeap) 0
      "my.dog".toList "fish".toList).panic = none ∧
    Config.GetString (Config.SetString (shadowOps.foldl (ConfigOp.run 0) exampleHeap) 0
      "my.dog".toList "fish".toList).state 0 "my.dog".toList = ("bones".toList, true) := by
  decide

/-- C11 (amended): when the entry `SetString` writes to (the first one added as writable whose
layer is writable) is preceded in resolution order only by entries whose layer is the written
one or does not hold the key, then after `SetString(key, value)` the call `GetString(key)`
returns the value and true. -/
theorem config_setString_getString (h : Heap) (c : Nat) (key value : Str)
    (pre post : List configItem) (item : configItem)
    (hitems : (h.configs c).items = pre ++ item :: post)
    (hpre : ∀ x ∈ pre, ¬ (x.writable = true ∧ Layer.IsWritable h x.layer = true))
    (hitem : item.writable = true ∧ Layer.IsWritable h item.layer = true)
    (hshadow : ∀ x ∈ pre, x.layer = item.layer ∨ ¬ Layer.holds h x.layer key) :
    Config.IsWritable h c = true ∧
    (Config.SetString h c key value).panic = none ∧
    Config.GetString (Config.SetString h c key value).state c key = (value, true) := by
  have hw : Config.IsWritable h c = true := by
    unfold Config.IsWritable
    rw [isWritable_loop_iff]
    exact ⟨item, by rw [hitems]; simp, hitem.1, hitem.2⟩
  have hset : Config.SetString h c key value = Layer.SetString h item.layer key value := by
    unfold Config.SetString
    rw [hitems]
    exact setString_loop_at h key value pre post item hpre hitem
  rw [hset, Layer.setString_of_writable h item.layer key value hitem.2]
  refine ⟨hw, rfl, ?_⟩
  simp only
  unfold Config.GetString
  rw [Heap.setLayer_configs, hitems]
  have hwritten : mapGet (((h.setLayer item.layer
      { h.layers item.layer with values := mapSet (h.layers item.layer).values key value }).layers
        item.layer).values) key = some value := by
    rw [Heap.setLayer_layers_self]
    exact mapGet_mapSet_self _ key value
  clear hset hw hitems hpre
  induction pre with
  | nil => exact getString_loop_found _ key value item post hwritten
  | cons x pre ih =>
    rw [List.cons_append]
    rcases hshadow x (List.mem_cons_self _ _) with hx | hx
    · apply getString_loop_found
      rw [hx]
      exact hwritten
    · by_cases hxl : x.layer = item.layer
      · apply getString_loop_found
        rw [hxl]
        exact hwritten
      · rw [getString_loop_skip]
        · exact ih (fun y hy => hshadow y (List.mem_cons_of_mem _ hy))
        · unfold Layer.holds at hx ⊢
          rw [Heap.setLayer_layers_ne _ _ _ _ hxl]
          exact hx

theorem config_setString_getString_witness :
    (((exampleOps.foldl (ConfigOp.run 0) exampleHeap).configs 0).items
        = [] ++ ⟨9, 99, true⟩ :: [⟨2, 22, false⟩, ⟨1, 11, false⟩] ∧
      (∀ x ∈ ([] : List configItem), ¬ (x.writable = true ∧
        Layer.IsWritable (exampleOps.foldl (ConfigOp.run 0) exampleHeap) x.layer = true)) ∧
      ((⟨9, 99, true⟩ : configItem).writable = true ∧
        Layer.IsWritable (exampleOps.foldl (ConfigOp.run 0) exampleHeap)
          (⟨9, 99, true⟩ : configItem).layer = true) ∧
      (∀ x ∈ ([] : List configItem), x.layer = (⟨9, 99, true⟩ : configItem).layer ∨
        ¬ Layer.holds (exampleOps.foldl (ConfigOp.run 0) exampleHeap) x.layer "test".toList)) ∧
    Config.GetString (Config.SetString (exampleOps.foldl (ConfigOp.run 0) exampleHeap) 0
      "test".toList "asdf".toList).state 0 "test".toList = ("asdf".toList, true) :=
  ⟨⟨by decide, by decide, by decide, by decide⟩,
    (config_setString_getString (exampleOps.foldl (ConfigOp.run 0) exampleHeap) 0
      "test".toList "asdf".toList [] [⟨2, 22, false⟩, ⟨1, 11, false⟩] ⟨9, 99, true⟩
      (by decide) (by decide) (by decide) (by decide)).2.2⟩

/-! ## Listing keys -/

theorem addKey_nodup (out : KeyList) (x : Str) (hnd : out.v.Nodup) : (out.addKey x).v.Nodup := by
  unfold KeyList.addKey
  by_cases hx : x ∈ out.v
  · simp [hx, hnd]
  · simp only [hx, if_false]
    rw [List.nodup_append]
    refine ⟨hnd, List.nodup_singleton x, ?_⟩
    intro a ha hb
    rw [List.mem_singleton] at hb
    subst hb
    exact hx ha

theorem mem_addKey (out : KeyList) (x k : Str) : k ∈ (out.addKey x).v ↔ k ∈ out.v ∨ k = x := by
  unfold KeyList.addKey
  by_cases hx : x ∈ out.v
  · simp only [hx, if_true]
    constructor
    · intro h1; exact Or.inl h1
    · rintro (h1 | h1)
      · exact h1
      · subst h1; exact hx
  · simp [hx]

/-- Cutting a string before its first dot, as `Layer.ListKeys` does with `IndexRune`, keeps
the longest prefix without a dot. -/
theorem cut_at_first_dot (k : Str) :
    (if IndexRune k '.' ≥ 0 then k.take (IndexRune k '.').toNat else k)
      = k.takeWhile (fun c => c != '.') := by
  unfold IndexRune
  induction k with
  | nil => simp [IndexByte]
  | cons x k ih =>
    by_cases hx : x = '.'
    · subst hx
      simp [IndexByte]
    · have hx' : (x != '.') = true := by simpa using hx
      rw [List.takeWhile_cons, hx']
      simp only [if_true]
      by_cases hneg : IndexByte k '.' < 0
      · have h1 : ¬ (IndexByte k '.' ≥ 0) := by omega
        rw [if_neg h1] at ih
        have h2 : IndexByte (x :: k) '.' = -1 := by simp [IndexByte, hx, hneg]
        rw [h2, ← ih]
        simp
      · have h1 : IndexByte k '.' ≥ 0 := by omega
        rw [if_pos h1] at ih
        have h2 : IndexByte (x :: k) '.' = IndexByte k '.' + 1 := by
          simp [IndexByte, hx, hneg]
        have h3 : (IndexByte k '.' + 1).toNat = (IndexByte k '.').toNat + 1 := by omega
        rw [h2, if_pos (by omega), h3, List.take_succ_cons, ih]

/-- The step of `Layer.ListKeys` for one stored key: the key is skipped unless it begins with
the prefix; else what follows the prefix is added, cut before its first dot when `direct`. -/
theorem listKeys_step_spec (p : Str) (direct : Bool) (out : KeyList) (k s : Str) :
    s ∈ (Layer.ListKeys.step p direct out k).v ↔
      s ∈ out.v ∨ (p <+: k ∧
        s = if direct = true then (k.drop p.length).takeWhile (fun c => c != '.')
          else k.drop p.length) := by
  unfold Layer.ListKeys.step
  by_cases hp : HasPrefix k p = true
  · have hp' : p <+: k := List.isPrefixOf_iff_prefix.1 hp
    rw [if_pos hp]
    simp only
    rw [mem_addKey]
    cases direct with
    | false => simp [hp']
    | true =>
      simp only [if_true, hp', true_and]
      rw [cut_at_first_dot]
  · have hp' : ¬ p <+: k := fun hc => hp (List.isPrefixOf_iff_prefix.2 hc)
    rw [if_neg hp]
    simp [hp']

theorem listKeys_step_nodup (p : Str) (direct : Bool) (out : KeyList) (k : Str)
    (hnd : out.v.Nodup) : (Layer.ListKeys.step p direct out k).v.Nodup := by
  unfold Layer.ListKeys.step
  split
  · exact addKey_nodup _ _ hnd
  · exact hnd

theorem listKeys_foldl_spec (p : Str) (direct : Bool) (keys : List Str) :
    ∀ out : KeyList,
      (out.v.Nodup → (keys.foldl (Layer.ListKeys.step p direct) out).v.Nodup) ∧
      ∀ s, s ∈ (keys.foldl (Layer.ListKeys.step p direct) out).v ↔
        s ∈ out.v ∨ ∃ k ∈ keys, p <+: k ∧
          s = if direct = true then (k.drop p.length).takeWhile (fun c => c != '.')
            else k.drop p.length := by
  induction keys with
  | nil => intro out; exact ⟨fun h => h, by simp⟩
  | cons k keys ih =>
    intro out
    obtain ⟨h1, h2⟩ := ih (Layer.ListKeys.step p direct out k)
    refine ⟨fun hnd => h1 (listKeys_step_nodup p direct out k hnd), ?_⟩
    intro s
    rw [List.foldl_cons, h2, listKeys_step_spec]
    constructor
    · rintro ((h3 | h3) | ⟨k', hk', h3⟩)
      · exact Or.inl h3
      · exact Or.inr ⟨k, List.mem_cons_self _ _, h3⟩
      · exact Or.inr ⟨k', List.mem_cons_of_mem _ hk', h3⟩
    · rintro (h3 | ⟨k', hk', h3⟩)
      · exact Or.inl (Or.inl h3)
      · rcases List.mem_cons.1 hk' with h4 | h4
        · subst h4; exact Or.inl (Or.inr h3)
        · exact Or.inr ⟨k', h4, h3⟩

theorem ensureTrailingDot_eq (p : Str) :
    ensureTrailingDot p = if p = [] ∨ p.getLast? = some '.' then p else p ++ ['.'] := by
  by_cases h1 : p = []
  · subst h1; simp [ensureTrailingDot_nil]
  · by_cases h2 : p.getLast? = some '.'
    · simp [h2, ensureTrailingDot_of_dot p h2]
    · simp [h1, h2, ensureTrailingDot_of_plain p h1 h2]

/-- What `Layer.ListKeys` leaves in `out`, with the prefix already normalised. -/
theorem layer_listKeys_mem (h : Heap) (l : Nat) (p : Str) (out : KeyList) (direct : Bool) :
    (out.v.Nodup → (Layer.ListKeys h l p out direct).v.Nodup) ∧
    ∀ s, s ∈ (Layer.ListKeys h l p out direct).v ↔
      s ∈ out.v ∨ ∃ k, (∃ v, mapGet (h.layers l).values k = some v) ∧
        ensureTrailingDot p <+: k ∧
        s = if direct = true
          then (k.drop (ensureTrailingDot p).length).takeWhile (fun c => c != '.')
          else k.drop (ensureTrailingDot p).length := by
  unfold Layer.ListKeys
  obtain ⟨h1, h2⟩ := listKeys_foldl_spec (ensureTrailingDot p) direct
    ((h.layers l).values.map Prod.fst) out
  refine ⟨h1, ?_⟩
  intro s
  rw [h2]
  constructor
  · rintro (h3 | ⟨k, hk, h3⟩)
    · exact Or.inl h3
    · exact Or.inr ⟨k, (mapGet_isSome_iff _ k).2 hk, h3⟩
  · rintro (h3 | ⟨k, hk, h3⟩)
    · exact Or.inl h3
    · exact Or.inr ⟨k, (mapGet_isSome_iff _ k).1 hk, h3⟩

/-- C14: with `p'` the prefix `p` itself when `p` is empty or ends in a dot and `p` followed
by a dot otherwise, `Layer.ListKeys(p, out, direct)` leaves in `out` what was in it and, for
every stored key that begins with `p'`, the key without the leading `p'`, cut before its
first dot when `direct` is true; nothing else, and no string twice. -/
theorem layer_listKeys_adds_stripped_keys (h : Heap) (l : Nat) (p : Str) (out : KeyList)
    (direct : Bool) :
    (out.v.Nodup → (Layer.ListKeys h l p out direct).v.Nodup) ∧
    ∀ s, s ∈ (Layer.ListKeys h l p out direct).v ↔
      s ∈ out.v ∨ ∃ k, (∃ v, mapGet (h.layers l).values k = some v) ∧
        (if p = [] ∨ p.getLast? = some '.' then p else p ++ ['.']) <+: k ∧
        s = if direct = true
          then (k.drop (if p = [] ∨ p.getLast? = some '.' then p
            else p ++ ['.']).length).takeWhile (fun c => c != '.')
          else k.drop (if p = [] ∨ p.getLast? = some '.' then p else p ++ ['.']).length := by
  rw [← ensureTrailingDot_eq]
  exact layer_listKeys_mem h l p out direct

/-- The example in the documentation of `Viewable.ListKeys`, on a layer. -/
theorem layer_listKeys_example :
    (Layer.ListKeys listExampleHeap 0 "test".toList ⟨[]⟩ true).v
      = ["key".toList, "value".toList] ∧
    (Layer.ListKeys listExampleHeap 0 "test".toList ⟨[]⟩ false).v
      = ["key.1".toList, "key.2".toList, "value.3".toList] := by
  decide

theorem layer_listKeys_split (h : Heap) (l : Nat) (p : Str) (out : KeyList) (direct : Bool)
    (s : Str) :
    s ∈ (Layer.ListKeys h l p out direct).v ↔
      s ∈ out.v ∨ s ∈ (Layer.ListKeys h l p ⟨[]⟩ direct).v := by
  rw [(layer_listKeys_mem h l p out direct).2 s, (layer_listKeys_mem h l p ⟨[]⟩ direct).2 s]
  simp

theorem config_listKeys_foldl (h : Heap) (p : Str) (direct : Bool) (items : List configItem) :
    ∀ out : KeyList,
      (out.v.Nodup →
        (items.foldl (fun out item => Layer.ListKeys h item.layer p out direct) out).v.Nodup) ∧
      ∀ s, s ∈ (items.foldl (fun out item => Layer.ListKeys h item.layer p out direct) out).v ↔
        s ∈ out.v ∨ ∃ item ∈ items, s ∈ (Layer.ListKeys h item.layer p ⟨[]⟩ direct).v := by
  induction items with
  | nil => intro out; exact ⟨fun hnd => hnd, by simp⟩
  | cons x items ih =>
    intro out
    obtain ⟨h1, h2⟩ := ih (Layer.ListKeys h x.layer p out direct)
    refine ⟨fun hnd => h1 ((layer_listKeys_mem h x.layer p out direct).1 hnd), ?_⟩
    intro s
    rw [List.foldl_cons, h2, layer_listKeys_split]
    constructor
    · rintro ((h3 | h3) | ⟨y, hy, h3⟩)
      · exact Or.inl h3
      · exact Or.inr ⟨x, List.mem_cons_self _ _, h3⟩
      · exact Or.inr ⟨y, List.mem_cons_of_mem _ hy, h3⟩
    · rintro (h3 | ⟨y, hy, h3⟩)
      · exact Or.inl (Or.inl h3)
      · rcases List.mem_cons.1 hy with h4 | h4
        · subst h4; exact Or.inl (Or.inr h3)
        · exact Or.inr ⟨y, h4, h3⟩

/-- C15: `Config.ListKeys` leaves in `out` what was in it and the union, over the entries of
the config, of what `ListKeys` of the entry's layer collects for the same prefix and flag; a
key of any member layer is listed, whether or not a layer of higher priority has it too; and
no string is listed twice. -/
theorem config_listKeys_is_union (h : Heap) (c : Nat) (p : Str) (out : KeyList)
    (direct : Bool) :
    (out.v.Nodup → (Config.ListKeys h c p out direct).v.Nodup) ∧
    (∀ s, s ∈ (Config.ListKeys h c p out direct).v ↔
      s ∈ out.v ∨ ∃ item ∈ (h.configs c).items,
        s ∈ (Layer.ListKeys h item.layer p ⟨[]⟩ direct).v) ∧
    (∀ item ∈ (h.configs c).items, ∀ s ∈ (Layer.ListKeys h item.layer p ⟨[]⟩ direct).v,
      s ∈ (Config.ListKeys h c p out direct).v) := by
  obtain ⟨h1, h2⟩ := config_listKeys_foldl h p direct (h.configs c).items out
  refine ⟨h1, h2, ?_⟩
  intro item hitem s hs
  exact (h2 s).2 (Or.inr ⟨item, hitem, hs⟩)

/-- The listings asserted by `TestConfig`, in the order the embedding collects them. -/
theorem config_listKeys_example :
    (Config.ListKeys (exampleCalls.foldl (AddCall.run 0) exampleHeap) 0 [] ⟨[]⟩ true).v
      = ["my".toList, "your".toList, "his".toList] ∧
    (Config.ListKeys (exampleCalls.foldl (AddCall.run 0) exampleHeap) 0 "my".toList ⟨[]⟩
      false).v = ["dog".toList, "rabbit".toList, "cat".toList, "horse".toList] := by
  decide

/-! ## Read-only views and targets -/

/-- C16: a view whose own writable flag is false reports not writable, whatever its target;
`SetString` and `DeleteValue` panic with the message of the view and leave the heap as it
was, so the target was not called; `GetString` still reads the target at the prefix followed
by the key.  `SubViewReadOnly` and `NewEmptyView` make such views. -/
theorem readonly_view_rejects_writes (h : Heap) (view : View) (key value : Str)
    (hw : view.writable = false) :
    View.IsWritable h view = false ∧
    View.SetString h view key value = ⟨some "trying to write a read-only view", h⟩ ∧
    View.DeleteValue h view key = ⟨some "trying to delete from a read-only view", h⟩ ∧
    Viewable.SetString h view.toViewable key value
      = ⟨some "trying to write a read-only view", h⟩ ∧
    Viewable.DeleteValue h view.toViewable key
      = ⟨some "trying to delete from a read-only view", h⟩ ∧
    View.GetString h view key = Viewable.GetString h view.viewable (view.pfx ++ key) ∧
    (∀ (v : View) (p : Str), (v.SubViewReadOnly p).writable = false) ∧
    NewEmptyView.writable = false := by
  refine ⟨?_, ?_, ?_, ?_, ?_, rfl, ?_, ?_⟩
  · simp [View.IsWritable, hw]
  · simp [View.SetString, hw]
  · simp [View.DeleteValue, hw]
  · simp [View.toViewable, Viewable.SetString, hw]
  · simp [View.toViewable, Viewable.DeleteValue, hw]
  · intro v p
    unfold View.SubViewReadOnly newViewImpl View.toViewable
    rfl
  · rfl

theorem readonly_view_rejects_writes_witness :
    ((NewView (Viewable.layer 2) "my".toList).SubViewReadOnly "x".toList).writable = false ∧
    View.SetString exampleHeap
        ((NewView (Viewable.layer 2) "my".toList).SubViewReadOnly "x".toList)
        "dog".toList "fish".toList
      = ⟨some "trying to write a read-only view", exampleHeap⟩ :=
  ⟨rfl, (readonly_view_rejects_writes exampleHeap
    ((NewView (Viewable.layer 2) "my".toList).SubViewReadOnly "x".toList)
    "dog".toList "fish".toList rfl).2.1⟩

/-- C19: when the target is not writable `LoadIni` panics at once: the reader is as it was,
so no byte was consumed, and the heap is as it was, so `SetString` was not called. -/
theorem loadIni_readonly_target (h : Heap) (viewable : Viewable) (reader : Reader)
    (hw : Viewable.IsWritable h viewable = false) :
    (LoadIni h viewable reader).exit
      = Exec.panic "cannot load ini config to read-only target" ∧
    (LoadIni h viewable reader).reader = reader ∧
    (LoadIni h viewable reader).state = h := by
  simp [LoadIni, hw]

theorem loadIni_readonly_target_witness :
    Viewable.IsWritable exampleHeap NewEmptyView.toViewable = false ∧
    (LoadIni exampleHeap NewEmptyView.toViewable ⟨"key=value\n".toList, GoError.EOF⟩).reader
      = ⟨"key=value\n".toList, GoError.EOF⟩ :=
  ⟨by decide,
    (loadIni_readonly_target exampleHeap NewEmptyView.toViewable
      ⟨"key=value\n".toList, GoError.EOF⟩ (by decide)).2.1⟩

/-! ## Typed access: booleans -/

/-- C18, as claimed, fails: on the layer of `TestViewIntBool` the key `numtrue` holds the
string "1", and `GetBool` returns true and found, as that test asserts. -/
theorem getBool_one_counterexample :
    View.GetString intBoolHeap (NewView (Viewable.layer 0) []) "numtrue".toList
      = ("1".toList, true) ∧
    View.GetBool intBoolHeap (NewView (Viewable.layer 0) []) "numtrue".toList
      = (true, true) := by
  decide

/-- C18, amended: for every view and key whose stored string is "1", `GetBool` returns true
and found, because `strconv.ParseBool` accepts "1" as the boolean true. -/
theorem getBool_one_is_true (h : Heap) (view : View) (key : Str)
    (hs : View.GetString h view key = ("1".toList, true)) :
    View.GetBool h view key = (true, true) := by
  unfold View.GetBool
  rw [hs]
  rfl

theorem getBool_one_is_true_witness :
    View.GetString intBoolHeap (NewView (Viewable.layer 0) []) "numtrue".toList
      = ("1".toList, true) ∧
    View.GetBool intBoolHeap (NewView (Viewable.layer 0) []) "numtrue".toList
      = (true, true) :=
  ⟨by decide, getBool_one_is_true intBoolHeap (NewView (Viewable.layer 0) []) "numtrue".toList
    (by decide)⟩

/-! ## Typed access: integers -/

theorem digitVal_digitByte (d : Nat) (hd : d < 10) : digitVal (digitByte d) = some d := by
  interval_cases d <;> decide

theorem digitByte_ne_special (d : Nat) (hd : d < 10) :
    digitByte d ≠ '_' ∧ digitByte d ≠ '+' ∧ digitByte d ≠ '-' := by
  interval_cases d <;> decide

theorem digitByte_ne_zero (d : Nat) (hd : d < 10) (h0 : d ≠ 0) : digitByte d ≠ '0' := by
  interval_cases d <;> first | exact absurd rfl h0 | decide

/-- With enough fuel `formatDecimal` gives the digits of `u`, most significant first: the one
digit 0 for zero, and otherwise the digit list of `u` without leading zeros. -/
theorem formatDecimal_digits (fuel u : Nat) (hu : u < 10 ^ fuel) (hf : 0 < fuel) :
    formatDecimal fuel u
      = if u = 0 then ['0'] else (Nat.digits 10 u).reverse.map digitByte := by
  induction fuel generalizing u with
  | zero => omega
  | succ fuel ih =>
    unfold formatDecimal
    by_cases h10 : u < 10
    · rw [if_pos h10]
      by_cases h0 : u = 0
      · subst h0
        rfl
      · rw [if_neg h0, Nat.digits_of_lt 10 u h0 h10]
        rfl
    · rw [if_neg h10]
      have h0 : u ≠ 0 := by omega
      have hdiv : u / 10 ≠ 0 := by omega
      have hlt : u / 10 < 10 ^ fuel := by
        rw [Nat.div_lt_iff_lt_mul (by norm_num)]
        rw [pow_succ] at hu
        exact hu
      have hfuel : 0 < fuel := by
        rcases Nat.eq_zero_or_pos fuel with hz | hp
        · subst hz
          simp at hu
          omega
        · exact hp
      rw [ih (u / 10) hlt hfuel, if_neg hdiv, if_neg h0,
        Nat.digits_def' (by norm_num) (Nat.pos_of_ne_zero h0)]
      simp

/-- The first byte of the text of a positive number is a digit from 1 to 9. -/
theorem formatDecimal_head (fuel u : Nat) (hu : u < 10 ^ fuel) (h0 : 0 < u) :
    ∃ d rest, 0 < d ∧ d < 10 ∧ formatDecimal fuel u = digitByte d :: rest := by
  induction fuel generalizing u with
  | zero =>
    simp at hu
    omega
  | succ fuel ih =>
    unfold formatDecimal
    by_cases h10 : u < 10
    · rw [if_pos h10]
      exact ⟨u, [], h0, h10, rfl⟩
    · rw [if_neg h10]
      have hlt : u / 10 < 10 ^ fuel := by
        rw [Nat.div_lt_iff_lt_mul (by norm_num)]
        rw [pow_succ] at hu
        exact hu
      obtain ⟨d, rest, hd0, hd10, heq⟩ := ih (u / 10) hlt (by omega)
      exact ⟨d, rest ++ [digitByte (u % 10)], hd0, hd10, by rw [heq]; rfl⟩

theorem ParseUint.loop_append (base : Nat) (base0 : Bool) (s t : Str) (n : Nat) (us : Bool) :
    ParseUint.loop base base0 (s ++ t) n us
      = match ParseUint.loop base base0 s n us with
        | none => none
        | some (m, vs) => ParseUint.loop base base0 t m vs := by
  induction s generalizing n us with
  | nil => rfl
  | cons c s ih =>
    simp only [List.cons_append, ParseUint.loop]
    by_cases h1 : c = '_' ∧ base0 = true
    · rw [if_pos h1, if_pos h1]
      exact ih n true
    · rw [if_neg h1, if_neg h1]
      cases digitVal c with
      | none => rfl
      | some d =>
        simp only []
        split_ifs
        · rfl
        · rfl
        · rfl
        · exact ih _ us

/-- The digit loop of `ParseUint` in base 10 reads the text of `u` back as `u`. -/
theorem ParseUint.loop_formatDecimal (fuel u : Nat) (hu : u < 10 ^ fuel) (h64 : u < 2 ^ 64)
    (hf : 0 < fuel) :
    ParseUint.loop 10 true (formatDecimal fuel u) 0 false = some (u, false) := by
  induction fuel generalizing u with
  | zero => omega
  | succ fuel ih =>
    unfold formatDecimal
    by_cases h10 : u < 10
    · rw [if_pos h10]
      simp only [ParseUint.loop, digitVal_digitByte u h10]
      rw [if_neg (fun hc => (digitByte_ne_special u h10).1 hc.1)]
      rw [if_neg (by omega), if_neg (by norm_num), if_neg (by omega)]
      simp
      omega
    · rw [if_neg h10]
      have hlt : u / 10 < 10 ^ fuel := by
        rw [Nat.div_lt_iff_lt_mul (by norm_num)]
        rw [pow_succ] at hu
        exact hu
      have hfuel : 0 < fuel := by
        rcases Nat.eq_zero_or_pos fuel with hz | hp
        · subst hz
          simp at hu
          omega
        · exact hp
      have hmod : u % 10 < 10 := Nat.mod_lt _ (by norm_num)
      rw [ParseUint.loop_append, ih (u / 10) hlt (by omega) hfuel]
      simp only [ParseUint.loop, digitVal_digitByte _ hmod]
      rw [if_neg (fun hc => (digitByte_ne_special _ hmod).1 hc.1)]
      have hval : u / 10 * 10 + u % 10 = u := by omega
      rw [hval, Nat.mod_eq_of_lt h64]
      rw [if_neg (by omega), if_neg (by omega), if_neg (by omega)]

/-- Library `ParseUint` reads the decimal text of an unsigned 64-bit number back. -/
theorem ParseUint_formatDecimal (u : Nat) (h64 : u < 2 ^ 64) :
    ParseUint (formatDecimal 20 u) = some u := by
  have hu : u < 10 ^ 20 := lt_trans h64 (by norm_num)
  rcases Nat.eq_zero_or_pos u with h0 | hpos
  · subst h0
    decide
  · obtain ⟨d, rest, hd0, hd10, heq⟩ := formatDecimal_head 20 u hu hpos
    have hloop := ParseUint.loop_formatDecimal 20 u hu h64 (by norm_num)
    rw [heq] at hloop
    have hne : digitByte d ≠ '0' := digitByte_ne_zero d hd10 (by omega)
    rw [heq]
    simp only [ParseUint, List.head?_cons, Option.some.injEq]
    rw [if_neg (by simp), if_neg hne, hloop]
    simp

/-- The text of a number from 0 to 9223372036854775807 or of a negative number down to
-9223372036854775808 starts with a digit or with the minus sign. -/
theorem formatDecimal_head_sign (u : Nat) (h64 : u < 2 ^ 64) :
    formatDecimal 20 u ≠ [] ∧ (formatDecimal 20 u).head? ≠ some '+' ∧
    (formatDecimal 20 u).head? ≠ some '-' := by
  have hu : u < 10 ^ 20 := lt_trans h64 (by norm_num)
  rcases Nat.eq_zero_or_pos u with h0 | hpos
  · subst h0
    decide
  · obtain ⟨d, rest, _, hd10, heq⟩ := formatDecimal_head 20 u hu hpos
    rw [heq]
    refine ⟨by simp, ?_, ?_⟩
    · simp only [List.head?_cons, ne_eq, Option.some.injEq]
      exact (digitByte_ne_special d hd10).2.1
    · simp only [List.head?_cons, ne_eq, Option.some.injEq]
      exact (digitByte_ne_special d hd10).2.2

/-- Library `ParseInt(s, 0, 64)` reads the text `FormatInt(n, 10)` of an `int64` back. -/
theorem ParseInt_FormatInt (n : Int) (hlo : -2 ^ 63 ≤ n) (hhi : n < 2 ^ 63) :
    ParseInt (FormatInt n) = some n := by
  unfold FormatInt
  by_cases hneg : n < 0
  · rw [if_pos hneg]
    have h64 : (-n).toNat < 2 ^ 64 := by omega
    have hun : ParseUint (formatDecimal 20 (-n).toNat) = some (-n).toNat :=
      ParseUint_formatDecimal _ h64
    have hsign : ParseInt ('-' :: formatDecimal 20 (-n).toNat)
        = ParseInt.signed true (formatDecimal 20 (-n).toNat) := by
      simp [ParseInt]
    rw [hsign]
    unfold ParseInt.signed
    rw [hun]
    have hle : ¬ ((-n).toNat > 2 ^ 63) := by omega
    simp [hle]
    omega
  · rw [if_neg hneg]
    have h64 : n.toNat < 2 ^ 64 := by omega
    have hun : ParseUint (formatDecimal 20 n.toNat) = some n.toNat :=
      ParseUint_formatDecimal _ h64
    obtain ⟨h1, h2, h3⟩ := formatDecimal_head_sign n.toNat h64
    simp only [ParseInt]
    rw [if_neg h1, if_neg h2, if_neg h3]
    unfold ParseInt.signed
    rw [hun]
    have hlt : ¬ (n.toNat ≥ 2 ^ 63) := by omega
    simp [hlt]
    omega

/-- The text `FormatInt(n, 10)` is canonical: a minus sign exactly for a negative number, then
the one digit 0 for zero and otherwise the decimal digits of the magnitude, most significant
first, whose leading digit is not zero. -/
theorem FormatInt_canonical (n : Int) (hlo : -2 ^ 63 ≤ n) (hhi : n < 2 ^ 63) :
    FormatInt n
      = (if n < 0 then ['-'] else []) ++
        (if n = 0 then ['0'] else (Nat.digits 10 n.natAbs).reverse.map digitByte) := by
  unfold FormatInt
  by_cases hneg : n < 0
  · rw [if_pos hneg, if_pos hneg, if_neg (by omega)]
    have hu : (-n).toNat < 10 ^ 20 := lt_trans (by omega : (-n).toNat < 2 ^ 64) (by norm_num)
    rw [formatDecimal_digits 20 _ hu (by norm_num), if_neg (by omega)]
    have : (-n).toNat = n.natAbs := by omega
    rw [this]
    rfl
  · rw [if_neg hneg, if_neg hneg]
    have hu : n.toNat < 10 ^ 20 := lt_trans (by omega : n.toNat < 2 ^ 64) (by norm_num)
    rw [formatDecimal_digits 20 _ hu (by norm_num)]
    have : n.toNat = n.natAbs := by omega
    rw [this]
    by_cases h0 : n = 0
    · subst h0
      rfl
    · rw [if_neg (by omega), if_neg h0]
      rfl

/-- C17: on a writable view over a layer, `SetInt` with any `int64` value (the minimum, the
maximum, zero and the negative values included) does not panic and stores, at the prefixed
key of the layer, the canonical base-10 text of the value: a minus sign exactly for a negative
value, then the digit 0 for zero and otherwise the decimal digits of the magnitude, most
significant first, the leading one not 0; `GetInt` on the same key then returns the value and
true. -/
theorem view_setInt_getInt (h : Heap) (view : View) (l : Nat) (key : Str) (n : Int)
    (hview : view.viewable = Viewable.layer l) (hw : View.IsWritable h view = true)
    (hlo : -2 ^ 63 ≤ n) (hhi : n < 2 ^ 63) :
    (View.SetInt h view key n).panic = none ∧
    Layer.GetString (View.SetInt h view key n).state l (view.pfx ++ key)
      = (FormatInt n, true) ∧
    FormatInt n
      = (if n < 0 then ['-'] else []) ++
        (if n = 0 then ['0'] else (Nat.digits 10 n.natAbs).reverse.map digitByte) ∧
    (n ≠ 0 → ∃ d rest, 0 < d ∧ d < 10 ∧
      FormatInt n = (if n < 0 then ['-'] else []) ++ digitByte d :: rest) ∧
    View.GetInt (View.SetInt h view key n).state view key = (n, true) := by
  have hvw : view.writable = true := by
    unfold View.IsWritable at hw
    simp only [Bool.and_eq_true] at hw
    exact hw.1
  have hlw : Layer.IsWritable h l = true := by
    unfold View.IsWritable at hw
    simp only [Bool.and_eq_true, hview, Viewable.IsWritable] at hw
    exact hw.2
  have hset : View.SetInt h view key n
      = ⟨none, h.setLayer l
          { h.layers l with
            values := mapSet (h.layers l).values (view.pfx ++ key) (FormatInt n) }⟩ := by
    unfold View.SetInt View.SetString
    rw [hvw, hview]
    simp only [Bool.not_true, Bool.false_eq_true, if_false, Viewable.SetString, View.deriveKey]
    exact Layer.setString_of_writable h l _ _ hlw
  have hget : Layer.GetString (View.SetInt h view key n).state l (view.pfx ++ key)
      = (FormatInt n, true) := by
    rw [hset]
    simp only [Layer.GetString, Heap.setLayer_layers_self, mapGet_mapSet_self]
  refine ⟨by rw [hset], hget, FormatInt_canonical n hlo hhi, ?_, ?_⟩
  · intro h0
    unfold FormatInt
    by_cases hneg : n < 0
    · rw [if_pos hneg, if_pos hneg]
      obtain ⟨d, rest, hd0, hd10, heq⟩ := formatDecimal_head 20 (-n).toNat
        (lt_trans (by omega : (-n).toNat < 2 ^ 64) (by norm_num)) (by omega)
      exact ⟨d, rest, hd0, hd10, by rw [heq]; rfl⟩
    · rw [if_neg hneg, if_neg hneg]
      obtain ⟨d, rest, hd0, hd10, heq⟩ := formatDecimal_head 20 n.toNat
        (lt_trans (by omega : n.toNat < 2 ^ 64) (by norm_num)) (by omega)
      exact ⟨d, rest, hd0, hd10, by rw [heq]; rfl⟩
  · unfold View.GetInt View.GetString
    rw [hview]
    simp only [Viewable.GetString, View.deriveKey]
    rw [hget]
    simp only [ParseInt_FormatInt n hlo hhi]

theorem view_setInt_getInt_witness :
    View.IsWritable intBoolHeap (NewView (Viewable.layer 0) []) = true ∧
    Layer.GetString
        (View.SetInt intBoolHeap (NewView (Viewable.layer 0) []) "low".toList
          (-9223372036854775808)).state 0 "low".toList
      = ("-9223372036854775808".toList, true) ∧
    View.GetInt
        (View.SetInt intBoolHeap (NewView (Viewable.layer 0) []) "low".toList
          (-9223372036854775808)).state
        (NewView (Viewable.layer 0) []) "low".toList
      = (-9223372036854775808, true) :=
  ⟨by decide,
    (view_setInt_getInt intBoolHeap (NewView (Viewable.layer 0) []) 0 "low".toList
      (-9223372036854775808) rfl (by decide) (by decide) (by decide)).2.1,
    (view_setInt_getInt intBoolHeap (NewView (Viewable.layer 0) []) 0 "low".toList
      (-9223372036854775808) rfl (by decide) (by decide) (by decide)).2.2.2.2⟩

/-! ## Key/value lines -/

/-- What `strings.TrimLeft` does: it removes the longest prefix made of bytes of the cutset
and keeps the rest as it is. -/
theorem trimLeft_spec (s cutset : Str) :
    ∃ ws, s = ws ++ TrimLeft s cutset ∧ (∀ c ∈ ws, c ∈ cutset) ∧
      ∀ c, (TrimLeft s cutset).head? = some c → c ∉ cutset := by
  refine ⟨s.takeWhile (fun c => cutset.contains c), ?_, ?_, ?_⟩
  · exact (List.takeWhile_append_dropWhile _ s).symm
  · intro c hc
    have := List.mem_takeWhile_imp hc
    simpa using this
  · intro c hc
    have := List.head?_dropWhile_not (fun c => cutset.contains c) s
    unfold TrimLeft at hc
    rw [hc] at this
    simpa using this

/-- What `strings.TrimRight` does: it removes the longest suffix made of bytes of the cutset
and keeps the rest as it is. -/
theorem trimRight_spec (s cutset : Str) :
    ∃ ws, s = TrimRight s cutset ++ ws ∧ (∀ c ∈ ws, c ∈ cutset) ∧
      ∀ c, (TrimRight s cutset).getLast? = some c → c ∉ cutset := by
  obtain ⟨ws, h1, h2, h3⟩ := trimLeft_spec s.reverse cutset
  refine ⟨ws.reverse, ?_, ?_, ?_⟩
  · have := congrArg List.reverse h1
    rw [List.reverse_reverse, List.reverse_append] at this
    exact this
  · intro c hc
    exact h2 c (List.mem_reverse.1 hc)
  · intro c hc
    apply h3 c
    unfold TrimRight at hc
    rw [List.getLast?_reverse] at hc
    exact hc

/-- What `strings.Trim` does: it removes the longest prefix and the longest suffix made of
bytes of the cutset. -/
theorem trim_spec (s cutset : Str) :
    ∃ ws ws', s = ws ++ Trim s cutset ++ ws' ∧ (∀ c ∈ ws, c ∈ cutset) ∧
      (∀ c ∈ ws', c ∈ cutset) ∧
      (∀ c, (Trim s cutset).head? = some c → c ∉ cutset) ∧
      ∀ c, (Trim s cutset).getLast? = some c → c ∉ cutset := by
  obtain ⟨ws, h1, h2, h3⟩ := trimLeft_spec s cutset
  obtain ⟨ws', h4, h5, h6⟩ := trimRight_spec (TrimLeft s cutset) cutset
  refine ⟨ws, ws', ?_, h2, h5, ?_, h6⟩
  · unfold Trim
    rw [List.append_assoc, ← h4]
    exact h1
  · intro c hc
    apply h3 c
    rw [h4]
    unfold Trim at hc
    cases ht : TrimRight (TrimLeft s cutset) cutset with
    | nil =>
      rw [ht] at hc
      cases hc
    | cons x t =>
      rw [ht] at hc
      simpa using hc

/-- C20: when `LoadIni` reads a line that, with its line ending cut, is neither empty nor a
comment nor a section header, and `indexOfUnescapedEq` splits it into the raw key `K` before
the separator and the raw value `V` after it, then under section prefix `P` the call made on
the target is `SetString(P ++ U(trim(K)), U(trimLeft(V)))`, the loop going on (or ending at
the end of the stream) when the call returns and the panic passing on when it panics.  Here
`trim` removes the longest prefix and suffix of spaces, tabs and form feeds, `trimLeft` only
the longest prefix, and `U` scans from the left, replaces a backslash and a byte of the table
by the byte it stands for, and copies every other byte, a backslash before any other byte
and a final backslash included. -/
theorem loadIni_keyvalue_call (h : Heap) (v : Viewable) (P K V : Str) (r : Reader)
    (herr : (r.ReadString '\n').2.1 = none ∨ (r.ReadString '\n').2.1 = some GoError.EOF)
    (hsplit : (CutSuffix (CutSuffix (r.ReadString '\n').1 ['\n']).1 ['\r']).1 = K ++ '=' :: V)
    (hcomment : HasPrefix (K ++ '=' :: V) [';'] = false)
    (hheader : (HasPrefix (K ++ '=' :: V) ['['] && HasSuffix (K ++ '=' :: V) [']']) = false)
    (hpos : indexOfUnescapedEq (K ++ '=' :: V) = Exec.ret (K.length : Int)) :
    LoadIni.line P (K ++ '=' :: V)
      = Exec.ret (P, some (P ++ unescapes.Replace (Trim K iniSpace),
          unescapes.Replace (TrimLeft V iniSpace))) ∧
    LoadIni.iter h v P r
      = (match Viewable.SetString h v (P ++ unescapes.Replace (Trim K iniSpace))
            (unescapes.Replace (TrimLeft V iniSpace)) with
        | ⟨some msg, h'⟩ => Sum.inl ⟨Exec.panic msg, h', (r.ReadString '\n').2.2⟩
        | ⟨none, h'⟩ =>
          if (r.ReadString '\n').2.1 = some GoError.EOF then
            Sum.inl ⟨Exec.ret none, h', (r.ReadString '\n').2.2⟩
          else Sum.inr (h', P, (r.ReadString '\n').2.2)) ∧
    (∃ ws ws', K = ws ++ Trim K iniSpace ++ ws' ∧
      (∀ c ∈ ws, c = ' ' ∨ c = '\t' ∨ c = '\x0c') ∧
      (∀ c ∈ ws', c = ' ' ∨ c = '\t' ∨ c = '\x0c') ∧
      (∀ c, (Trim K iniSpace).head? = some c → ¬ (c = ' ' ∨ c = '\t' ∨ c = '\x0c')) ∧
      ∀ c, (Trim K iniSpace).getLast? = some c → ¬ (c = ' ' ∨ c = '\t' ∨ c = '\x0c')) ∧
    (∃ ws, V = ws ++ TrimLeft V iniSpace ∧
      (∀ c ∈ ws, c = ' ' ∨ c = '\t' ∨ c = '\x0c') ∧
      ∀ c, (TrimLeft V iniSpace).head? = some c → ¬ (c = ' ' ∨ c = '\t' ∨ c = '\x0c')) ∧
    unescapes.Replace [] = [] ∧
    unescapes.Replace ['\\'] = ['\\'] ∧
    (∀ c x t, unescapes.table c = some x →
      unescapes.Replace ('\\' :: c :: t) = x :: unescapes.Replace t) ∧
    (∀ c t, unescapes.table c = none →
      unescapes.Replace ('\\' :: c :: t) = '\\' :: c :: unescapes.Replace t) ∧
    (∀ c t, c ≠ '\\' → unescapes.Replace (c :: t) = c :: unescapes.Replace t) := by
  have hmem : ∀ c : Char, c ∈ iniSpace ↔ (c = ' ' ∨ c = '\t' ∨ c = '\x0c') := by
    intro c
    simp [iniSpace]
  have hne : ¬ (K ++ '=' :: V = [] ∨ HasPrefix (K ++ '=' :: V) [';'] = true) := by
    rw [hcomment]
    simp
  have hnneg : ¬ ((K.length : Int) < 0) := by omega
  have htake : (K ++ '=' :: V).take K.length = K := List.take_left' rfl
  have hdrop : (K ++ '=' :: V).drop (K.length + 1) = V := by
    rw [show K ++ '=' :: V = (K ++ ['=']) ++ V by simp]
    exact List.drop_left' (by simp)
  have hline : LoadIni.line P (K ++ '=' :: V)
      = Exec.ret (P, some (P ++ unescapes.Replace (Trim K iniSpace),
          unescapes.Replace (TrimLeft V iniSpace))) := by
    unfold LoadIni.line
    rw [if_neg hne, if_neg (by rw [hheader]; simp), hpos]
    simp only [hnneg, if_false, Int.toNat_ofNat, htake, hdrop]
  refine ⟨hline, ?_, ?_, ?_, rfl, rfl, ?_, ?_, ?_⟩
  · unfold LoadIni.iter
    rcases hrs : r.ReadString '\n' with ⟨raw, err, r'⟩
    rw [hrs] at hsplit herr
    simp only at hsplit herr
    cases err with
    | none =>
      simp only [hsplit, hline]
    | some e =>
      cases e with
      | other msg =>
        rcases herr with herr | herr
        · cases herr
        · cases herr
      | EOF =>
        simp only [hsplit, hline]
  · obtain ⟨ws, ws', h1, h2, h3, h4, h5⟩ := trim_spec K iniSpace
    exact ⟨ws, ws', h1, fun c hc => (hmem c).1 (h2 c hc), fun c hc => (hmem c).1 (h3 c hc),
      fun c hc hm => h4 c hc ((hmem c).2 hm), fun c hc hm => h5 c hc ((hmem c).2 hm)⟩
  · obtain ⟨ws, h1, h2, h3⟩ := trimLeft_spec V iniSpace
    exact ⟨ws, h1, fun c hc => (hmem c).1 (h2 c hc), fun c hc hm => h3 c hc ((hmem c).2 hm)⟩
  · intro c x t hx
    exact unescapes_replace_escape c x t hx
  · intro c t hx
    have hc : c ≠ '\\' := by
      intro hc
      subst hc
      simp [unescapes.table] at hx
    have h1 : unescapes.Replace ('\\' :: c :: t) = '\\' :: unescapes.Replace (c :: t) := by
      simp [unescapes.Replace, hx]
    rw [h1, unescapes_replace_cons_of_ne c t hc]
  · intro c t hc
    exact unescapes_replace_cons_of_ne c t hc

theorem loadIni_keyvalue_call_witness :
    LoadIni.line [] "whitespaces=\\ s p ".toList
      = Exec.ret ([], some ("whitespaces".toList, " s p ".toList)) ∧
    LoadIni.iter freshHeap (Viewable.layer 0) "s.".toList ⟨"k = v \r\nx".toList, GoError.EOF⟩
      = Sum.inr ((Layer.SetString freshHeap 0 "s.k".toList "v ".toList).state, "s.".toList,
          ⟨"x".toList, GoError.EOF⟩) :=
  ⟨(loadIni_keyvalue_call freshHeap (Viewable.layer 0) [] "whitespaces".toList
      "\\ s p ".toList ⟨"whitespaces=\\ s p ".toList, GoError.EOF⟩
      (by decide) (by decide) (by decide) (by decide) (by decide)).1,
    (loadIni_keyvalue_call freshHeap (Viewable.layer 0) "s.".toList "k ".toList
      " v ".toList ⟨"k = v \r\nx".toList, GoError.EOF⟩
      (by decide) (by decide) (by decide) (by decide) (by decide)).2.1⟩

/-! ## Deleting through a config -/

/-- C22: `Config.DeleteValue` never fails and changes nothing, whatever the config and the
key: called through the interface or through a writable view it does not panic, and the heap
it leaves is the heap before, so every layer (its mapping included), every config and the
result of `GetString` for every key are as before; this holds also right after
`AddWritableLayer` added a writable layer, whatever that layer holds. -/
theorem config_deleteValue_changes_nothing (h : Heap) (c : Nat) (key : Str) :
    (Viewable.DeleteValue h (Viewable.config c) key).panic = none ∧
    (Viewable.DeleteValue h (Viewable.config c) key).state = Config.DeleteValue h c key ∧
    (∀ p, View.DeleteValue h (NewView (Viewable.config c) p) key = ⟨none, h⟩) ∧
    (∀ l, ((Config.DeleteValue h c key).layers l).values = (h.layers l).values) ∧
    (∀ l, (Config.DeleteValue h c key).layers l = h.layers l) ∧
    (∀ d, (Config.DeleteValue h c key).configs d = h.configs d) ∧
    (∀ k, Config.GetString (Config.DeleteValue h c key) c k = Config.GetString h c k) ∧
    (∀ l prio k,
      Config.GetString (Config.DeleteValue (Config.AddWritableLayer h c l prio) c key) c k
        = Config.GetString (Config.AddWritableLayer h c l prio) c k) := by
  refine ⟨rfl, rfl, ?_, fun _ => rfl, fun _ => rfl, fun _ => rfl, fun _ => rfl,
    fun _ _ _ => rfl⟩
  intro p
  unfold NewView newViewImpl View.DeleteValue
  simp only [Bool.not_true, Bool.false_eq_true, if_false]
  rfl

/-- A config whose only layer, added with `AddWritableLayer`, is writable and holds `my.cat`:
the key resolves to the same value after `DeleteValue` as before, and the layer still holds
it. -/
theorem config_deleteValue_example :
    Config.IsWritable (Config.AddWritableLayer exampleHeap 0 1 11) 0 = true ∧
    Layer.GetString (Config.AddWritableLayer exampleHeap 0 1 11) 1 "my.cat".toList
      = ("fish".toList, true) ∧
    Config.GetString
        (Config.DeleteValue (Config.AddWritableLayer exampleHeap 0 1 11) 0 "my.cat".toList)
        0 "my.cat".toList
      = ("fish".toList, true) ∧
    Layer.GetString
        (Config.DeleteValue (Config.AddWritableLayer exampleHeap 0 1 11) 0 "my.cat".toList)
        1 "my.cat".toList
      = ("fish".toList, true) := by
  decide

/-! ## Escaping and unescaping -/

/-- C23: unescaping undoes escaping: for every string and both values of the flag,
`unescapes.Replace(escapeIniString(s, equal)) = s`. -/
theorem unescape_undoes_escape (s : Str) (equal : Bool) :
    unescapes.Replace (escapeIniString s equal) = s ∧
    unescapes.Replace (escapeIniString s true) = s ∧
    unescapes.Replace (escapeIniString s false) = s :=
  ⟨unescapes_replace_escapeIniString s equal, unescapes_replace_escapeIniString s true,
    unescapes_replace_escapeIniString s false⟩

/-! ## Views derived from a read-only view -/

/-- C24, at the failing input: over the new writable layer at `0`, `v` is the read-only view
`NewView(l, "my").SubViewReadOnly("x")`, which reports not writable and rejects `SetString`.
The views `v.SubView("p")` and `NewView(v, "p")` report writable, and `SetString` and
`DeleteValue` through them do not panic: `SetString("k", "val")` stores the value in the layer
under `my.x.p.k`.  `newViewImpl` replaces the wrapped view by its target and keeps only the
new flag; a `View` value that holds `v` itself as its target reports not writable, and so does
`v.SubViewReadOnly("p")`. -/
theorem derived_view_of_readonly_view :
    View.IsWritable freshHeap
        ((NewView (Viewable.layer 0) "my".toList).SubViewReadOnly "x".toList) = false ∧
    (View.SetString freshHeap
        ((NewView (Viewable.layer 0) "my".toList).SubViewReadOnly "x".toList)
        "k".toList "val".toList).panic = some "trying to write a read-only view" ∧
    View.IsWritable freshHeap
        (((NewView (Viewable.layer 0) "my".toList).SubViewReadOnly "x".toList).SubView
          "p".toList) = true ∧
    View.IsWritable freshHeap
        (NewView ((NewView (Viewable.layer 0) "my".toList).SubViewReadOnly
          "x".toList).toViewable "p".toList) = true ∧
    (View.SetString freshHeap
        (((NewView (Viewable.layer 0) "my".toList).SubViewReadOnly "x".toList).SubView
          "p".toList) "k".toList "val".toList).panic = none ∧
    Layer.GetString
        (View.SetString freshHeap
          (((NewView (Viewable.layer 0) "my".toList).SubViewReadOnly "x".toList).SubView
            "p".toList) "k".toList "val".toList).state 0 "my.x.p.k".toList
      = ("val".toList, true) ∧
    Layer.GetString
        (View.SetString freshHeap
          (NewView ((NewView (Viewable.layer 0) "my".toList).SubViewReadOnly
            "x".toList).toViewable "p".toList) "k".toList "val".toList).state 0
        "my.x.p.k".toList
      = ("val".toList, true) ∧
    (View.DeleteValue freshHeap
        (((NewView (Viewable.layer 0) "my".toList).SubViewReadOnly "x".toList).SubView
          "p".toList) "k".toList).panic = none ∧
    View.IsWritable freshHeap
        ⟨"p.".toList,
          ((NewView (Viewable.layer 0) "my".toList).SubViewReadOnly "x".toList).toViewable,
          true⟩ = false ∧
    View.IsWritable freshHeap
        (((NewView (Viewable.layer 0) "my".toList).SubViewReadOnly "x".toList).SubViewReadOnly
          "p".toList) = false := by
  decide

/-- Any view derived with `SubView` or `NewView` from a view over a writable target is
writable, whatever the flag of the view it is derived from. -/
theorem derived_view_writable (h : Heap) (v : View) (p : Str)
    (ht : Viewable.IsWritable h v.viewable = true) :
    View.IsWritable h (v.SubView p) = true ∧
    View.IsWritable h (NewView v.toViewable p) = true := by
  constructor <;>
    simp [View.SubView, NewView, newViewImpl, View.toViewable, View.IsWritable, ht]

/-! ## Index and slice bounds -/

/-- No check of the loop of `indexOfUnescapedEq` fails: the loop with the checks runs as the
loop without them. -/
theorem indexOfUnescapedEq.checkedLoop_eq :
    ∀ (fuel : Nat) (s : Str) (st : Int),
      indexOfUnescapedEq.checkedLoop fuel s st = indexOfUnescapedEq.loop fuel s st := by
  intro fuel
  induction fuel with
  | zero => intro s st; rfl
  | succ fuel ih =>
    intro s st
    unfold indexOfUnescapedEq.checkedLoop indexOfUnescapedEq.loop
    by_cases hneg : IndexByte s '=' < 0
    · rw [if_pos hneg, if_pos hneg]
    · rw [if_neg hneg, if_neg hneg]
      have hlen := IndexByte_nonneg_length s '=' hneg
      by_cases h0 : IndexByte s '=' = 0
      · rw [if_pos h0, if_pos (Or.inl h0)]
      · rw [if_neg h0, if_neg (by omega)]
        by_cases hesc : s[(IndexByte s '=' - 1).toNat]? ≠ some '\\'
        · rw [if_pos hesc, if_pos (Or.inr hesc)]
        · rw [if_neg hesc, if_neg (by omega), if_neg (fun hc => hc.elim h0 hesc)]
          exact ih _ _

theorem indexOfUnescapedEq.checked_eq (s : Str) :
    indexOfUnescapedEq.checked s = indexOfUnescapedEq s := by
  unfold indexOfUnescapedEq.checked indexOfUnescapedEq
  rw [indexOfUnescapedEq.checkedLoop_eq]

/-- What `indexOfUnescapedEq` returns on a non-empty line: `-1`, or the position of an equal
sign that is neither the first byte nor past the end. -/
theorem indexOfUnescapedEq_range (ln : Str) (hne : ln ≠ []) :
    ∃ pos : Int, indexOfUnescapedEq ln = Exec.ret pos ∧
      (pos = -1 ∨ (1 ≤ pos ∧ pos < ln.length ∧ ln[pos.toNat]? = some '=')) := by
  rcases indexOfUnescapedEq_spec ln hne with ⟨pos, h1, h2, h3, _⟩ | ⟨h1, _⟩
  · refine ⟨pos, h1, Or.inr ⟨by omega, ?_, ?_⟩⟩
    · have : pos < ln.length := by
        by_contra hcon
        have h4 := h3.1
        rw [List.getElem?_eq_none (by omega)] at h4
        cases h4
      omega
    · rw [Int.toNat_ofNat]
      exact h3.1
  · exact ⟨-1, h1, Or.inl rfl⟩

/-- A line that starts with `[` and ends with `]` has at least two bytes. -/
theorem header_length (ln : Str)
    (hh : (HasPrefix ln ['['] && HasSuffix ln [']']) = true) : 2 ≤ ln.length := by
  rw [Bool.and_eq_true, hasPrefix_singleton, hasSuffix_singleton] at hh
  obtain ⟨h1, h2⟩ := hh
  match ln, h1, h2 with
  | [], h1, _ => cases h1
  | [c], h1, h2 =>
    simp only [List.head?_cons, Option.some.injEq] at h1
    simp only [List.getLast?_singleton, Option.some.injEq] at h2
    rw [h1] at h2
    exact absurd h2 (by decide)
  | _ :: _ :: _, _, _ => simp

/-- No check of the body of the loop of `LoadIni` fails, and the body neither panics nor runs
out of fuel. -/
theorem LoadIni.lineChecked_eq (sect ln : Str) :
    LoadIni.lineChecked sect ln = LoadIni.line sect ln ∧
    ∃ r, LoadIni.line sect ln = Exec.ret r := by
  unfold LoadIni.lineChecked LoadIni.line
  by_cases hblank : ln = [] ∨ HasPrefix ln [';'] = true
  · rw [if_pos hblank, if_pos hblank]
    exact ⟨rfl, _, rfl⟩
  · rw [if_neg hblank, if_neg hblank]
    by_cases hh : (HasPrefix ln ['['] && HasSuffix ln [']']) = true
    · have hlen := header_length ln hh
      rw [if_pos hh, if_pos hh, if_neg (by omega)]
      exact ⟨rfl, _, rfl⟩
    · rw [if_neg hh, if_neg hh, indexOfUnescapedEq.checked_eq]
      obtain ⟨pos, hpos, hrange⟩ := indexOfUnescapedEq_range ln (fun hc => hblank (Or.inl hc))
      rw [hpos]
      simp only
      by_cases hneg : pos < 0
      · rw [if_pos hneg, if_pos hneg]
        exact ⟨rfl, _, rfl⟩
      · rw [if_neg hneg, if_neg hneg]
        rcases hrange with h1 | ⟨_, h2, _⟩
        · omega
        · rw [if_neg (by omega)]
          exact ⟨rfl, _, rfl⟩

/-- One iteration of the loop of `LoadIni` on a writable layer ends the call with a return,
or goes on with the layer still writable. -/
theorem LoadIni.iter_layer (h : Heap) (l : Nat) (sect : Str) (r : Reader)
    (hw : Layer.IsWritable h l = true) :
    (∃ e h' r', LoadIni.iter h (Viewable.layer l) sect r = Sum.inl ⟨Exec.ret e, h', r'⟩) ∨
    (∃ h' sect' r', LoadIni.iter h (Viewable.layer l) sect r = Sum.inr (h', sect', r') ∧
      Layer.IsWritable h' l = true) := by
  unfold LoadIni.iter
  rcases r.ReadString '\n' with ⟨raw, err, r'⟩
  obtain ⟨_, res, hres⟩ :=
    LoadIni.lineChecked_eq sect (CutSuffix (CutSuffix raw ['\n']).1 ['\r']).1
  obtain ⟨sect', call⟩ := res
  have hgo : ∀ (h' : Heap), Layer.IsWritable h' l = true →
      ((∃ e h'' r'',
          (if err = some GoError.EOF then
              (Sum.inl ⟨Exec.ret none, h', r'⟩ : LoadResult ⊕ (Heap × Str × Reader))
            else Sum.inr (h', sect', r')) = Sum.inl ⟨Exec.ret e, h'', r''⟩) ∨
        (∃ h'' sect'' r'',
          (if err = some GoError.EOF then
              (Sum.inl ⟨Exec.ret none, h', r'⟩ : LoadResult ⊕ (Heap × Str × Reader))
            else Sum.inr (h', sect', r')) = Sum.inr (h'', sect'', r'') ∧
          Layer.IsWritable h'' l = true)) := by
    intro h' hw'
    by_cases he : err = some GoError.EOF
    · rw [if_pos he]
      exact Or.inl ⟨_, _, _, rfl⟩
    · rw [if_neg he]
      exact Or.inr ⟨_, _, _, rfl, hw'⟩
  cases err with
  | none =>
    simp only [hres]
    cases call with
    | none => exact hgo h hw
    | some kv =>
      obtain ⟨key, val⟩ := kv
      obtain ⟨h', hset, _, hw'⟩ := Layer.setString_writable h l key val hw
      simp only [hset]
      exact hgo h' hw'
  | some e =>
    cases e with
    | other msg => exact Or.inl ⟨_, _, _, rfl⟩
    | EOF =>
      simp only [hres]
      cases call with
      | none => exact hgo h hw
      | some kv =>
        obtain ⟨key, val⟩ := kv
        obtain ⟨h', hset, _, hw'⟩ := Layer.setString_writable h l key val hw
        simp only [hset]
        exact hgo h' hw'

/-- The loop of `LoadIni` on a writable layer returns, given fuel above the number of bytes
still to be read. -/
theorem LoadIni.loop_layer_returns (l : Nat) :
    ∀ (fuel : Nat) (h : Heap) (sect : Str) (r : Reader),
      r.data.length < fuel → Layer.IsWritable h l = true →
      ∃ e, (LoadIni.loop fuel h (Viewable.layer l) sect r).exit = Exec.ret e := by
  intro fuel
  induction fuel with
  | zero => intro h sect r hlen _; omega
  | succ fuel ih =>
    intro h sect r hlen hw
    unfold LoadIni.loop
    rcases LoadIni.iter_layer h l sect r hw with ⟨e, h', r', hiter⟩ | ⟨h', sect', r', hiter, hw'⟩
    · rw [hiter]
      exact ⟨e, rfl⟩
    · rw [hiter]
      have hshort := LoadIni.iter_inr_shorter h (Viewable.layer l) sect r h' sect' r' hiter
      exact ih h' sect' r' (by omega) hw'

/-- C25: on a non-empty line `indexOfUnescapedEq`, run with the checks of its index and slice
expressions, returns (with the fuel `len(s)`, no check failing) what it returns without them:
`-1`, or an index `i` with `1 ≤ i < len(line)` and `line[i] = '='`; only the empty string
fails the check of `s[1:]`.  The body of the loop of `LoadIni` skips the empty line before
the call, and with all its checks it returns on every line what it returns without them.  So
`LoadIni` into a writable layer returns for every reader: it does not panic, on a bound or
otherwise, and does not run on. -/
theorem loadIni_index_bounds (ln : Str) (hne : ln ≠ []) (h : Heap) (l : Nat) (reader : Reader)
    (hw : Layer.IsWritable h l = true) :
    (∃ pos : Int, indexOfUnescapedEq.checked ln = Exec.ret pos ∧
      indexOfUnescapedEq ln = Exec.ret pos ∧
      (pos = -1 ∨ (1 ≤ pos ∧ pos < ln.length ∧ ln[pos.toNat]? = some '='))) ∧
    indexOfUnescapedEq.checked [] = Exec.panic "slice bounds out of range" ∧
    (∀ sect, LoadIni.lineChecked sect [] = Exec.ret (sect, none)) ∧
    (∀ sect cl, LoadIni.lineChecked sect cl = LoadIni.line sect cl ∧
      ∃ r, LoadIni.lineChecked sect cl = Exec.ret r) ∧
    ∃ e, (LoadIni h (Viewable.layer l) reader).exit = Exec.ret e := by
  refine ⟨?_, rfl, ?_, ?_, ?_⟩
  · obtain ⟨pos, hpos, hrange⟩ := indexOfUnescapedEq_range ln hne
    exact ⟨pos, by rw [indexOfUnescapedEq.checked_eq, hpos], hpos, hrange⟩
  · intro sect
    simp [LoadIni.lineChecked]
  · intro sect cl
    obtain ⟨heq, r, hr⟩ := LoadIni.lineChecked_eq sect cl
    exact ⟨heq, r, by rw [heq, hr]⟩
  · have hwv : Viewable.IsWritable h (Viewable.layer l) = true := hw
    unfold LoadIni LoadIni.resume
    rw [hwv]
    simp only [Bool.not_true, Bool.false_eq_true, if_false]
    exact LoadIni.loop_layer_returns l _ h [] reader (by omega) hw

theorem loadIni_index_bounds_witness :
    "a\\=b=c".toList ≠ [] ∧ Layer.IsWritable freshHeap 0 = true ∧
    (∃ pos : Int, indexOfUnescapedEq.checked "a\\=b=c".toList = Exec.ret pos ∧
      indexOfUnescapedEq "a\\=b=c".toList = Exec.ret pos ∧
      (pos = -1 ∨ (1 ≤ pos ∧ pos < "a\\=b=c".toList.length ∧
        "a\\=b=c".toList[pos.toNat]? = some '='))) ∧
    ∃ e, (LoadIni freshHeap (Viewable.layer 0) ⟨"=\n[\n".toList, GoError.EOF⟩).exit
      = Exec.ret e :=
  ⟨by decide, by decide,
    (loadIni_index_bounds "a\\=b=c".toList (by decide) freshHeap 0
      ⟨"=\n[\n".toList, GoError.EOF⟩ (by decide)).1,
    (loadIni_index_bounds "a\\=b=c".toList (by decide) freshHeap 0
      ⟨"=\n[\n".toList, GoError.EOF⟩ (by decide)).2.2.2.2⟩

/-! ## Read errors and the end of the stream -/

/-- Reading complete lines into a writable layer: the loop goes on behind them with the
section they leave and the heap after their calls. -/
theorem LoadIni.resume_lines (l : Nat) (rest : Str) (e : GoError) :
    ∀ (lines : List Str) (h : Heap) (sect : Str), Layer.IsWritable h l = true →
      (∀ ln ∈ lines, '\n' ∉ ln) →
      LoadIni.resume h (Viewable.layer l) sect
          ⟨lines.flatMap (fun ln => ln ++ ['\n']) ++ rest, e⟩
        = LoadIni.resume (storeAll h l (LoadIni.calls sect lines)) (Viewable.layer l)
            (LoadIni.sectionAfter sect lines) ⟨rest, e⟩ := by
  intro lines
  induction lines with
  | nil => intro h sect _ _; simp [storeAll, LoadIni.calls, LoadIni.sectionAfter]
  | cons b lines ih =>
    intro h sect hw hlines
    have hb : '\n' ∉ b := hlines b (List.mem_cons_self _ _)
    have hrest : ∀ ln ∈ lines, '\n' ∉ ln := fun x hx => hlines x (List.mem_cons_of_mem _ hx)
    have hdata : (b :: lines).flatMap (fun ln => ln ++ ['\n']) ++ rest
        = b ++ '\n' :: (lines.flatMap (fun ln => ln ++ ['\n']) ++ rest) := by
      simp [List.append_assoc]
    rw [hdata]
    obtain ⟨_, res, hline⟩ := LoadIni.lineChecked_eq sect (CutSuffix b ['\r']).1
    obtain ⟨sect', call⟩ := res
    cases call with
    | none =>
      rw [LoadIni.resume_step _ _ _ _ _ _ _
        (LoadIni.iter_line_skip h (Viewable.layer l) sect sect' b _ e hb hline)]
      rw [ih h sect' hw hrest]
      simp only [LoadIni.calls, LoadIni.sectionAfter, hline]
    | some kv =>
      obtain ⟨key, val⟩ := kv
      obtain ⟨h', hset, hh', hw'⟩ := Layer.setString_writable h l key val hw
      rw [LoadIni.resume_step _ _ _ _ _ _ _
        (LoadIni.iter_line_set h h' (Viewable.layer l) sect sect' b _ key val e hb hline hset)]
      rw [ih h' sect' hw' hrest, hh']
      simp only [LoadIni.calls, LoadIni.sectionAfter, hline, storeAll, List.foldl_cons]

/-- A read error other than the end of the stream ends the call: the error is returned, the
bytes read with it are dropped, and the heap is left as it is. -/
theorem LoadIni.resume_error (h : Heap) (v : Viewable) (sect last : Str) (msg : String)
    (hlast : '\n' ∉ last) :
    LoadIni.resume h v sect ⟨last, GoError.other msg⟩
      = ⟨Exec.ret (some (GoError.other msg)), h, ⟨[], GoError.other msg⟩⟩ := by
  apply LoadIni.resume_stop
  unfold LoadIni.iter
  rw [readString_last last _ hlast]

/-- At the end of the stream the bytes behind the last line feed are processed as a line,
and nil is returned. -/
theorem LoadIni.resume_eof (h : Heap) (l : Nat) (sect last : Str)
    (hw : Layer.IsWritable h l = true) (hlast : '\n' ∉ last) :
    LoadIni.resume h (Viewable.layer l) sect ⟨last, GoError.EOF⟩
      = ⟨Exec.ret none, storeAll h l (LoadIni.calls sect [last]), ⟨[], GoError.EOF⟩⟩ := by
  apply LoadIni.resume_stop
  unfold LoadIni.iter
  rw [readString_last last _ hlast]
  have hcut : (CutSuffix last ['\n']).1 = last := by
    apply cutSuffix_of_ne
    intro hl
    exact hlast (List.mem_of_getLast?_eq_some hl)
  obtain ⟨_, res, hline⟩ := LoadIni.lineChecked_eq sect (CutSuffix last ['\r']).1
  obtain ⟨sect', call⟩ := res
  cases call with
  | none =>
    simp only [hcut, hline, LoadIni.calls, storeAll, List.foldl_nil]
    simp
  | some kv =>
    obtain ⟨key, val⟩ := kv
    obtain ⟨h', hset, hh', _⟩ := Layer.setString_writable h l key val hw
    simp only [hcut, hline, hset, LoadIni.calls, storeAll, List.foldl_cons, List.foldl_nil, hh']
    simp

theorem LoadIni.calls_append (lines more : List Str) :
    ∀ sect, LoadIni.calls sect (lines ++ more)
      = LoadIni.calls sect lines ++ LoadIni.calls (LoadIni.sectionAfter sect lines) more := by
  induction lines with
  | nil => intro sect; rfl
  | cons b lines ih =>
    intro sect
    simp only [List.cons_append, LoadIni.calls, LoadIni.sectionAfter]
    obtain ⟨_, res, hline⟩ := LoadIni.lineChecked_eq sect (CutSuffix b ['\r']).1
    obtain ⟨sect', call⟩ := res
    rw [hline]
    cases call with
    | none => exact ih sect'
    | some kv => exact congrArg (List.cons kv) (ih sect')

theorem storeAll_append (h : Heap) (l : Nat) (a b : List (Str × Str)) :
    storeAll h l (a ++ b) = storeAll (storeAll h l a) l b := by
  simp [storeAll, List.foldl_append]

theorem storeAll_writable (l : Nat) (calls : List (Str × Str)) :
    ∀ h : Heap, Layer.IsWritable h l = true → Layer.IsWritable (storeAll h l calls) l = true := by
  induction calls with
  | nil => intro h hw; exact hw
  | cons c cs ih =>
    intro h hw
    obtain ⟨h', _, hh', hw'⟩ := Layer.setString_writable h l c.1 c.2 hw
    have : storeAll h l (c :: cs) = storeAll h' l cs := by
      rw [hh']
      rfl
    rw [this]
    exact ih h' hw'

/-- What a writable layer holds after a sequence of `SetString` calls: for a key, the value
of the last call with that key, and what it held before when there is no such call. -/
theorem storeAll_last (l : Nat) (calls : List (Str × Str)) :
    ∀ h : Heap, Layer.IsWritable h l = true → ∀ k,
      mapGet ((storeAll h l calls).layers l).values k
        = match calls.reverse.find? (fun c => decide (c.1 = k)) with
          | some c => some c.2
          | none => mapGet (h.layers l).values k := by
  induction calls with
  | nil => intro h _ k; rfl
  | cons c cs ih =>
    intro h hw k
    obtain ⟨h', _, hh', hw'⟩ := Layer.setString_writable h l c.1 c.2 hw
    have hstep : storeAll h l (c :: cs) = storeAll h' l cs := by
      rw [hh']
      rfl
    have hval : (h'.layers l).values = mapSet (h.layers l).values c.1 c.2 := by
      rw [hh', Layer.setString_of_writable h l c.1 c.2 hw]
      simp [Heap.setLayer_layers_self]
    rw [hstep, ih h' hw' k, List.reverse_cons, List.find?_append]
    cases hf : cs.reverse.find? (fun c => decide (c.1 = k)) with
    | some x => rfl
    | none =>
      simp only [Option.none_or, List.find?_cons, List.find?_nil]
      by_cases hk : c.1 = k
      · simp only [hk, decide_True]
        rw [hval, hk, mapGet_mapSet_self]
      · simp only [hk, decide_False]
        rw [hval, mapGet_mapSet_ne _ _ _ _ (Ne.symm hk)]

/-! ## Loading into any writable target -/

theorem isWritable_loop_congr (h h' : Heap)
    (hl : ∀ l, (h'.layers l).writable = (h.layers l).writable) (items : List configItem) :
    Config.IsWritable.loop h' items = Config.IsWritable.loop h items := by
  induction items with
  | nil => rfl
  | cons x rest ih => simp only [Config.IsWritable.loop, Layer.IsWritable, hl, ih]

/-- Whether a target is writable depends only on the flags of the layers and on the
configs. -/
theorem Viewable.isWritable_congr (h h' : Heap)
    (hl : ∀ l, (h'.layers l).writable = (h.layers l).writable)
    (hc : h'.configs = h.configs) (v : Viewable) :
    Viewable.IsWritable h' v = Viewable.IsWritable h v := by
  induction v with
  | layer l => simp only [Viewable.IsWritable, Layer.IsWritable, hl]
  | config c =>
    simp only [Viewable.IsWritable, Config.IsWritable, hc]
    exact isWritable_loop_congr h h' hl _
  | emptyViewable => rfl
  | view p target w ih => simp only [Viewable.IsWritable, ih]

/-- A write to a writable layer changes no flag and no config. -/
theorem Layer.setString_shape (h : Heap) (l : Nat) (key value : Str)
    (hw : Layer.IsWritable h l = true) :
    (Layer.SetString h l key value).panic = none ∧
    (∀ a, (((Layer.SetString h l key value).state).layers a).writable = (h.layers a).writable) ∧
    ((Layer.SetString h l key value).state).configs = h.configs := by
  rw [Layer.setString_of_writable h l key value hw]
  refine ⟨rfl, ?_, rfl⟩
  intro a
  by_cases ha : a = l
  · subst ha
    simp [Heap.setLayer_layers_self]
  · rw [Heap.setLayer_layers_ne h _ a _ ha]

/-- A write through a writable target does not panic and changes no flag and no config. -/
theorem Viewable.setString_keeps_shape (v : Viewable) :
    ∀ (h : Heap) (key value : Str), Viewable.IsWritable h v = true →
      (Viewable.SetString h v key value).panic = none ∧
      (∀ a, (((Viewable.SetString h v key value).state).layers a).writable
        = (h.layers a).writable) ∧
      ((Viewable.SetString h v key value).state).configs = h.configs := by
  induction v with
  | layer l =>
    intro h key value hw
    exact Layer.setString_shape h l key value hw
  | config c =>
    intro h key value hw
    simp only [Viewable.SetString, Config.SetString]
    rcases setString_loop_spec h key value (h.configs c).items with
      ⟨h1, _⟩ | ⟨pre, item, post, _, _, _, h4, h5⟩
    · simp only [Viewable.IsWritable, Config.IsWritable] at hw
      rw [h1] at hw
      cases hw
    · rw [h5]
      exact Layer.setString_shape h item.layer key value h4
  | emptyViewable =>
    intro h key value hw
    cases hw
  | view p target w ih =>
    intro h key value hw
    simp only [Viewable.IsWritable, Bool.and_eq_true] at hw
    simp only [Viewable.SetString, hw.1, Bool.not_true, Bool.false_eq_true, if_false]
    exact ih h (p ++ key) value hw.2

/-- A write through a writable target does not panic and leaves the target writable. -/
theorem Viewable.setString_stays_writable (h : Heap) (v : Viewable) (key value : Str)
    (hw : Viewable.IsWritable h v = true) :
    ∃ h', Viewable.SetString h v key value = ⟨none, h'⟩ ∧
      h' = (Viewable.SetString h v key value).state ∧ Viewable.IsWritable h' v = true := by
  obtain ⟨h1, h2, h3⟩ := Viewable.setString_keeps_shape v h key value hw
  refine ⟨(Viewable.SetString h v key value).state, ?_, rfl, ?_⟩
  · cases hr : Viewable.SetString h v key value with
    | mk p st =>
      rw [hr] at h1
      simp only at h1
      rw [h1]
  · rw [Viewable.isWritable_congr h _ h2 h3 v]
    exact hw

theorem Viewable.storeAll_stays_writable (v : Viewable) (calls : List (Str × Str)) :
    ∀ h : Heap, Viewable.IsWritable h v = true →
      Viewable.IsWritable (Viewable.storeAll h v calls) v = true := by
  induction calls with
  | nil => intro h hw; exact hw
  | cons c cs ih =>
    intro h hw
    obtain ⟨h', _, hh', hw'⟩ := Viewable.setString_stays_writable h v c.1 c.2 hw
    have : Viewable.storeAll h v (c :: cs) = Viewable.storeAll h' v cs := by
      rw [hh']
      rfl
    rw [this]
    exact ih h' hw'

theorem Viewable.storeAll_concat (h : Heap) (v : Viewable) (a b : List (Str × Str)) :
    Viewable.storeAll h v (a ++ b) = Viewable.storeAll (Viewable.storeAll h v a) v b := by
  simp [Viewable.storeAll, List.foldl_append]

theorem storeAll_of_layer (l : Nat) (calls : List (Str × Str)) :
    ∀ h : Heap, Viewable.storeAll h (Viewable.layer l) calls = storeAll h l calls := by
  induction calls with
  | nil => intro h; rfl
  | cons c cs ih =>
    intro h
    exact ih _

/-- Reading complete lines into a writable target: the loop goes on behind them with the
section they leave and the heap after their calls. -/
theorem LoadIni.resume_lines_any (v : Viewable) (rest : Str) (e : GoError) :
    ∀ (lines : List Str) (h : Heap) (sect : Str), Viewable.IsWritable h v = true →
      (∀ ln ∈ lines, '\n' ∉ ln) →
      LoadIni.resume h v sect ⟨lines.flatMap (fun ln => ln ++ ['\n']) ++ rest, e⟩
        = LoadIni.resume (Viewable.storeAll h v (LoadIni.calls sect lines)) v
            (LoadIni.sectionAfter sect lines) ⟨rest, e⟩ := by
  intro lines
  induction lines with
  | nil => intro h sect _ _; simp [Viewable.storeAll, LoadIni.calls, LoadIni.sectionAfter]
  | cons b lines ih =>
    intro h sect hw hlines
    have hb : '\n' ∉ b := hlines b (List.mem_cons_self _ _)
    have hrest : ∀ ln ∈ lines, '\n' ∉ ln := fun x hx => hlines x (List.mem_cons_of_mem _ hx)
    have hdata : (b :: lines).flatMap (fun ln => ln ++ ['\n']) ++ rest
        = b ++ '\n' :: (lines.flatMap (fun ln => ln ++ ['\n']) ++ rest) := by
      simp [List.append_assoc]
    rw [hdata]
    obtain ⟨_, res, hline⟩ := LoadIni.lineChecked_eq sect (CutSuffix b ['\r']).1
    obtain ⟨sect', call⟩ := res
    cases call with
    | none =>
      rw [LoadIni.resume_step _ _ _ _ _ _ _
        (LoadIni.iter_line_skip h v sect sect' b _ e hb hline)]
      rw [ih h sect' hw hrest]
      simp only [LoadIni.calls, LoadIni.sectionAfter, hline]
    | some kv =>
      obtain ⟨key, val⟩ := kv
      obtain ⟨h', hset, hh', hw'⟩ := Viewable.setString_stays_writable h v key val hw
      rw [LoadIni.resume_step _ _ _ _ _ _ _
        (LoadIni.iter_line_set h h' v sect sect' b _ key val e hb hline hset)]
      rw [ih h' sect' hw' hrest, hh']
      simp only [LoadIni.calls, LoadIni.sectionAfter, hline, Viewable.storeAll,
        List.foldl_cons]

/-- At the end of the stream the bytes behind the last line feed are processed as a line,
and nil is returned. -/
theorem LoadIni.resume_eof_any (h : Heap) (v : Viewable) (sect last : Str)
    (hw : Viewable.IsWritable h v = true) (hlast : '\n' ∉ last) :
    LoadIni.resume h v sect ⟨last, GoError.EOF⟩
      = ⟨Exec.ret none, Viewable.storeAll h v (LoadIni.calls sect [last]),
          ⟨[], GoError.EOF⟩⟩ := by
  apply LoadIni.resume_stop
  unfold LoadIni.iter
  rw [readString_last last _ hlast]
  have hcut : (CutSuffix last ['\n']).1 = last := by
    apply cutSuffix_of_ne
    intro hl
    exact hlast (List.mem_of_getLast?_eq_some hl)
  obtain ⟨_, res, hline⟩ := LoadIni.lineChecked_eq sect (CutSuffix last ['\r']).1
  obtain ⟨sect', call⟩ := res
  cases call with
  | none =>
    simp only [hcut, hline, LoadIni.calls, Viewable.storeAll, List.foldl_nil]
    simp
  | some kv =>
    obtain ⟨key, val⟩ := kv
    obtain ⟨h', hset, _, _⟩ := Viewable.setString_stays_writable h v key val hw
    simp only [hcut, hline, hset, LoadIni.calls, Viewable.storeAll, List.foldl_cons,
      List.foldl_nil]
    simp

/-- C21, as claimed, fails for a target that is a config: the config at `0` has the layer at
`3`, which holds `my.dog` with value `bones`, as a read-only entry of priority 33 above the
writable layer at `9` of priority 5.  `LoadIni` of the complete line `my.dog=meat` followed by
a read error returns the error, and the value went to the layer at `9`, but `GetString` on the
target still gives `bones`: the target does not hold the key/value of the line. -/
theorem loadIni_read_error_counterexample :
    Viewable.IsWritable (shadowOps.foldl (ConfigOp.run 0) exampleHeap) (Viewable.config 0)
      = true ∧
    (LoadIni (shadowOps.foldl (ConfigOp.run 0) exampleHeap) (Viewable.config 0)
        ⟨"my.dog=meat\n".toList, GoError.other "no progress"⟩).exit
      = Exec.ret (some (GoError.other "no progress")) ∧
    Viewable.GetString
        (LoadIni (shadowOps.foldl (ConfigOp.run 0) exampleHeap) (Viewable.config 0)
          ⟨"my.dog=meat\n".toList, GoError.other "no progress"⟩).state
        (Viewable.config 0) "my.dog".toList
      = ("bones".toList, true) ∧
    Layer.GetString
        (LoadIni (shadowOps.foldl (ConfigOp.run 0) exampleHeap) (Viewable.config 0)
          ⟨"my.dog=meat\n".toList, GoError.other "no progress"⟩).state
        9 "my.dog".toList
      = ("meat".toList, true) := by
  decide

/-- C21, amended: `LoadIni` into any writable target, on a stream of complete lines that ends
with a read error other than the end of the stream, returns that error, and the heap it
leaves is the heap after the `SetString` calls of all the complete lines, made on the target
in order, none of which panics: nothing is undone (bytes that arrive with the error, behind
the last line feed, are dropped).  When the stream ends with the end of the stream instead,
`LoadIni` returns nil and the bytes behind the last line feed were processed as one more
line.  When the target is a layer, it holds after the calls, for every key, the value of the
last call with that key, and what it held before when no call has the key. -/
theorem loadIni_read_error (h : Heap) (v : Viewable) (lines : List Str) (last : Str)
    (msg : String) (hw : Viewable.IsWritable h v = true) (hlines : ∀ ln ∈ lines, '\n' ∉ ln)
    (hlast : '\n' ∉ last) :
    LoadIni h v ⟨lines.flatMap (fun ln => ln ++ ['\n']), GoError.other msg⟩
      = ⟨Exec.ret (some (GoError.other msg)), Viewable.storeAll h v (LoadIni.calls [] lines),
          ⟨[], GoError.other msg⟩⟩ ∧
    LoadIni h v ⟨lines.flatMap (fun ln => ln ++ ['\n']) ++ last, GoError.other msg⟩
      = ⟨Exec.ret (some (GoError.other msg)), Viewable.storeAll h v (LoadIni.calls [] lines),
          ⟨[], GoError.other msg⟩⟩ ∧
    LoadIni h v ⟨lines.flatMap (fun ln => ln ++ ['\n']) ++ last, GoError.EOF⟩
      = ⟨Exec.ret none, Viewable.storeAll h v (LoadIni.calls [] (lines ++ [last])),
          ⟨[], GoError.EOF⟩⟩ ∧
    (∀ (calls : List (Str × Str)) (c : Str × Str),
      (Viewable.SetString (Viewable.storeAll h v calls) v c.1 c.2).panic = none ∧
      Viewable.storeAll h v (calls ++ [c])
        = (Viewable.SetString (Viewable.storeAll h v calls) v c.1 c.2).state) ∧
    (∀ (l : Nat), v = Viewable.layer l → ∀ (calls : List (Str × Str)) (k : Str),
      mapGet ((Viewable.storeAll h v calls).layers l).values k
        = match calls.reverse.find? (fun c => decide (c.1 = k)) with
          | some c => some c.2
          | none => mapGet (h.layers l).values k) := by
  have hload : ∀ r, LoadIni h v r = LoadIni.resume h v [] r := by
    intro r
    unfold LoadIni
    rw [hw]
    rfl
  have herr : LoadIni h v ⟨lines.flatMap (fun ln => ln ++ ['\n']) ++ last, GoError.other msg⟩
      = ⟨Exec.ret (some (GoError.other msg)), Viewable.storeAll h v (LoadIni.calls [] lines),
          ⟨[], GoError.other msg⟩⟩ := by
    rw [hload, LoadIni.resume_lines_any v last _ lines h [] hw hlines]
    exact LoadIni.resume_error _ _ _ last msg hlast
  refine ⟨?_, herr, ?_, ?_, ?_⟩
  · have h0 : LoadIni h v ⟨lines.flatMap (fun ln => ln ++ ['\n']) ++ [], GoError.other msg⟩
        = ⟨Exec.ret (some (GoError.other msg)),
            Viewable.storeAll h v (LoadIni.calls [] lines), ⟨[], GoError.other msg⟩⟩ := by
      rw [hload, LoadIni.resume_lines_any v [] _ lines h [] hw hlines]
      exact LoadIni.resume_error _ _ _ [] msg (by simp)
    rw [List.append_nil] at h0
    exact h0
  · rw [hload, LoadIni.resume_lines_any v last _ lines h [] hw hlines,
      LoadIni.resume_eof_any _ v _ last (Viewable.storeAll_stays_writable v _ h hw) hlast,
      LoadIni.calls_append, Viewable.storeAll_concat]
  · intro calls c
    refine ⟨?_, ?_⟩
    · exact (Viewable.setString_keeps_shape v _ c.1 c.2 (Viewable.storeAll_stays_writable v calls h hw)).1
    · rw [Viewable.storeAll_concat]
      rfl
  · intro l hv calls k
    subst hv
    rw [storeAll_of_layer]
    exact storeAll_last l calls h hw k

theorem loadIni_read_error_witness :
    Viewable.IsWritable freshHeap (Viewable.layer 0) = true ∧
    (LoadIni freshHeap (Viewable.layer 0)
        ⟨"key=value\n".toList, GoError.other "multiple Read calls return no data or error"⟩).exit
      = Exec.ret (some (GoError.other "multiple Read calls return no data or error")) ∧
    Layer.GetString
        (LoadIni freshHeap (Viewable.layer 0)
          ⟨"key=value\n".toList,
            GoError.other "multiple Read calls return no data or error"⟩).state
        0 "key".toList
      = ("value".toList, true) := by
  have hthm : LoadIni freshHeap (Viewable.layer 0)
        ⟨"key=value\n".toList, GoError.other "multiple Read calls return no data or error"⟩
      = ⟨Exec.ret (some (GoError.other "multiple Read calls return no data or error")),
          Viewable.storeAll freshHeap (Viewable.layer 0)
            (LoadIni.calls [] ["key=value".toList]),
          ⟨[], GoError.other "multiple Read calls return no data or error"⟩⟩ :=
    (loadIni_read_error freshHeap (Viewable.layer 0) ["key=value".toList] []
      "multiple Read calls return no data or error" (by decide) (by decide) (by decide)).1
  refine ⟨by decide, ?_, ?_⟩
  · rw [hthm]
  · rw [hthm]
    decide

/-! ## The entry list and the insertions still present -/

theorem perm_slicesInsert {α : Type} (s : List α) (i : Nat) (v : α) :
    (slicesInsert s i v).Perm (v :: s) := by
  unfold slicesInsert
  have h1 : (s.take i ++ v :: s.drop i).Perm (v :: (s.take i ++ s.drop i)) := List.perm_middle
  rwa [List.take_append_drop] at h1

theorem pairwise_sortByPriority (ps : List (Nat × configItem))
    (hinc : ps.Pairwise (fun a b => a.1 < b.1)) : (sortByPriority ps).Pairwise lexBefore :=
  pairwise_insertionSort_prio ps hinc

theorem perm_sortByPriority (ps : List (Nat × configItem)) : (sortByPriority ps).Perm ps :=
  List.perm_insertionSort _ ps

/-- Adding an insertion with a new highest tag: its place in the sorted list is the slot
`addLayerImpl` picks. -/
theorem sortByPriority_add (ps : List (Nat × configItem)) (n : Nat) (it : configItem)
    (hinc : ps.Pairwise (fun a b => a.1 < b.1)) (hlt : ∀ t ∈ ps, t.1 < n) :
    sortByPriority (ps ++ [(n, it)])
      = slicesInsert (sortByPriority ps)
          (findSlot it.prio ((sortByPriority ps).map Prod.snd)) (n, it) := by
  refine eq_of_perm_of_lexBefore ?_ ?_ ?_
  · refine (perm_sortByPriority _).trans ?_
    refine List.Perm.trans ?_ (perm_slicesInsert _ _ _).symm
    refine (List.perm_append_singleton _ _).trans ?_
    exact List.Perm.cons _ (perm_sortByPriority ps).symm
  · apply pairwise_sortByPriority
    rw [List.pairwise_append]
    refine ⟨hinc, List.pairwise_singleton _ _, ?_⟩
    intro x hx y hy
    rw [List.mem_singleton] at hy
    subst hy
    exact hlt x hx
  · exact pairwise_insert_slot n it _ (pairwise_sortByPriority ps hinc)
      (fun t ht => hlt t ((perm_sortByPriority ps).subset ht))

/-- Taking an insertion away: the sorted list loses that entry and keeps its order. -/
theorem sortByPriority_remove (ps tpre tpost : List (Nat × configItem)) (t : Nat × configItem)
    (hinc : ps.Pairwise (fun a b => a.1 < b.1))
    (hsplit : sortByPriority ps = tpre ++ t :: tpost) (ht : t ∉ tpre) :
    sortByPriority (ps.filter (fun u => decide (u ≠ t))) = tpre ++ tpost := by
  have hsorted := pairwise_sortByPriority ps hinc
  rw [hsplit] at hsorted
  have hpost : t ∉ tpost := by
    intro hmem
    have h1 := (List.pairwise_cons.1 (List.pairwise_append.1 hsorted).2.1).1 t hmem
    exact lexBefore_asymm t t h1 h1
  refine eq_of_perm_of_lexBefore ?_ ?_ ?_
  · refine (perm_sortByPriority _).trans ?_
    have h1 : (ps.filter (fun u => decide (u ≠ t))).Perm
        ((sortByPriority ps).filter (fun u => decide (u ≠ t))) :=
      (perm_sortByPriority ps).symm.filter _
    have h2 : (tpre ++ t :: tpost).filter (fun u => decide (u ≠ t)) = tpre ++ tpost := by
      rw [List.filter_append, List.filter_cons_of_neg (by simp)]
      congr 1
      · rw [List.filter_eq_self]
        intro u hu
        have : u ≠ t := fun hc => ht (hc ▸ hu)
        simpa using this
      · rw [List.filter_eq_self]
        intro u hu
        have : u ≠ t := fun hc => hpost (hc ▸ hu)
        simpa using this
    rw [hsplit, h2] at h1
    exact h1
  · exact pairwise_sortByPriority _ (hinc.sublist (List.filter_sublist ps))
  · refine hsorted.sublist ?_
    exact List.Sublist.append (List.Sublist.refl _) (List.sublist_cons_self _ _)

/-- The first entry of a tagged list whose item is the first item of the list of items that
refers to the layer. -/
theorem find_first_tagged (ts : List (Nat × configItem)) (layer : Nat)
    (pre post : List configItem) (x : configItem)
    (hmap : ts.map Prod.snd = pre ++ x :: post) (hx : x.layer = layer)
    (hpre : ∀ y ∈ pre, y.layer ≠ layer) :
    ∃ tpre t tpost, ts = tpre ++ t :: tpost ∧ tpre.map Prod.snd = pre ∧
      tpost.map Prod.snd = post ∧ t ∉ tpre ∧
      ts.find? (fun t => decide (t.2.layer = layer)) = some t := by
  rw [List.map_eq_append_iff] at hmap
  obtain ⟨tpre, rest, hts, hpre', hrest⟩ := hmap
  rw [List.map_eq_cons_iff] at hrest
  obtain ⟨t, tpost, hrest', htx, hpost⟩ := hrest
  have hnot : ∀ u ∈ tpre, u.2.layer ≠ layer := by
    intro u hu
    apply hpre u.2
    rw [← hpre']
    exact List.mem_map_of_mem _ hu
  have htl : t.2.layer = layer := by rw [htx]; exact hx
  refine ⟨tpre, t, tpost, by rw [hts, hrest'], hpre', hpost, ?_, ?_⟩
  · intro hmem
    exact hnot t hmem htl
  · rw [hts, hrest', List.find?_append]
    have h1 : tpre.find? (fun t => decide (t.2.layer = layer)) = none := by
      rw [List.find?_eq_none]
      intro u hu
      simpa using hnot u hu
    rw [h1, Option.none_or]
    exact List.find?_cons_of_pos _ (by simpa using htl)

/-- The entry list the code keeps is the stable sort by descending priority of the insertions
still present; these carry the positions of their add calls, in increasing order. -/
theorem present_invariant (c : Nat) (h0 : Heap) (hnew : h0.configs c = NewConfig)
    (ops : List ConfigOp) :
    (ops.foldl presentStep ([], 0)).2 = ops.length ∧
    (ops.foldl presentStep ([], 0)).1.Pairwise (fun a b => a.1 < b.1) ∧
    (∀ t ∈ (ops.foldl presentStep ([], 0)).1,
      ∃ a, ops[t.1]? = some (ConfigOp.add a) ∧ t.2 = a.item) ∧
    ((ops.foldl (ConfigOp.run c) h0).configs c).items
      = (sortByPriority (ops.foldl presentStep ([], 0)).1).map Prod.snd ∧
    ((∀ op ∈ ops, ∃ a, op = ConfigOp.add a) → ∀ i a, ops[i]? = some (ConfigOp.add a) →
      (i, a.item) ∈ (ops.foldl presentStep ([], 0)).1) := by
  induction ops using List.reverseRecOn with
  | nil =>
    refine ⟨rfl, List.Pairwise.nil, ?_, ?_, ?_⟩
    · intro t ht; cases ht
    · simp [hnew, NewConfig, sortByPriority]
    · intro _ i a hi; simp at hi
  | append_singleton ops op ih =>
    obtain ⟨hn, hinc, htag, hitems, hall⟩ := ih
    rcases hst : ops.foldl presentStep ([], 0) with ⟨ps, n⟩
    rw [hst] at hn hinc htag hitems hall
    simp only at hn hinc htag hitems hall
    have hlt : ∀ t ∈ ps, t.1 < ops.length := by
      intro t ht
      obtain ⟨a, ha, _⟩ := htag t ht
      by_contra hcon
      rw [List.getElem?_eq_none (not_lt.1 hcon)] at ha
      cases ha
    have htag' : ∀ t ∈ ps, ∃ a, (ops ++ [op])[t.1]? = some (ConfigOp.add a) ∧ t.2 = a.item := by
      intro t ht
      obtain ⟨a, ha, hb⟩ := htag t ht
      exact ⟨a, by rw [List.getElem?_append_left (hlt t ht)]; exact ha, hb⟩
    rw [List.foldl_append, List.foldl_cons, List.foldl_nil, List.foldl_append, List.foldl_cons,
      List.foldl_nil, hst]
    cases op with
    | add a =>
      simp only [presentStep]
      refine ⟨by simp [hn], ?_, ?_, ?_, ?_⟩
      · rw [List.pairwise_append]
        refine ⟨hinc, List.pairwise_singleton _ _, ?_⟩
        intro x hx y hy
        rw [List.mem_singleton] at hy
        subst hy
        rw [hn]
        exact hlt x hx
      · intro t ht
        rcases List.mem_append.1 ht with h1 | h1
        · exact htag' t h1
        · rw [List.mem_singleton] at h1
          subst h1
          exact ⟨a, by simp [hn], rfl⟩
      · simp only [ConfigOp.run]
        rw [AddCall.run_items, hitems,
          sortByPriority_add ps n a.item hinc (fun t ht => by rw [hn]; exact hlt t ht),
          map_slicesInsert]
        rfl
      · intro hadd i b hi
        by_cases hlen : i < ops.length
        · rw [List.getElem?_append_left hlen] at hi
          exact List.mem_append_left _
            (hall (fun op hop => hadd op (List.mem_append_left _ hop)) i b hi)
        · have hi' : i = ops.length := by
            by_contra hne
            rw [List.getElem?_eq_none (by simp; omega)] at hi
            cases hi
          subst hi'
          simp only [List.getElem?_concat_length, Option.some.injEq, ConfigOp.add.injEq] at hi
          subst hi
          rw [hn]
          exact List.mem_append_right _ (List.mem_singleton_self _)
    | remove layer =>
      simp only [presentStep, ConfigOp.run]
      rcases RemoveLayer_spec (ops.foldl (ConfigOp.run c) h0) c layer with
        ⟨hno, hrm⟩ | ⟨pre, x, post, hsplit, hx, hpre, hrm⟩
      · have hfind : (sortByPriority ps).find? (fun t => decide (t.2.layer = layer)) = none := by
          rw [List.find?_eq_none]
          intro u hu
          have : u.2 ∈ ((ops.foldl (ConfigOp.run c) h0).configs c).items := by
            rw [hitems]
            exact List.mem_map_of_mem _ hu
          simpa using hno u.2 this
        rw [hfind, hrm]
        refine ⟨by simp [hn], hinc, htag', hitems, ?_⟩
        intro hadd
        obtain ⟨a, ha⟩ := hadd (ConfigOp.remove layer) (by simp)
        cases ha
      · rw [hitems] at hsplit
        obtain ⟨tpre, t, tpost, hts, hpre', hpost, hnot, hfind⟩ :=
          find_first_tagged (sortByPriority ps) layer pre post x hsplit hx hpre
        rw [hfind, hrm]
        refine ⟨by simp [hn], hinc.sublist (List.filter_sublist ps), ?_, ?_, ?_⟩
        · intro u hu
          exact htag' u (List.mem_of_mem_filter hu)
        · rw [setConfig_configs_self, sortByPriority_remove ps tpre tpost t hinc hts hnot,
            List.map_append, hpre', hpost]
        · intro hadd
          obtain ⟨a, ha⟩ := hadd (ConfigOp.remove layer) (by simp)
          cases ha

/-- The insertions still present after one more add call: the new insertion comes last,
tagged with the position of the call. -/
theorem presentInsertions_add (c : Nat) (h0 : Heap) (hnew : h0.configs c = NewConfig)
    (ops : List ConfigOp) (a : AddCall) :
    presentInsertions (ops ++ [ConfigOp.add a]) = presentInsertions ops ++ [(ops.length, a.item)] := by
  unfold presentInsertions
  rw [List.foldl_append, List.foldl_cons, List.foldl_nil]
  simp only [presentStep, (present_invariant c h0 hnew ops).1]

/-- The insertions still present after one more remove call: the first entry in resolution
order that refers to the layer is taken away, if there is one. -/
theorem presentInsertions_remove (ops : List ConfigOp) (layer : Nat) :
    presentInsertions (ops ++ [ConfigOp.remove layer])
      = match (sortByPriority (presentInsertions ops)).find?
            (fun t => decide (t.2.layer = layer)) with
        | some t => (presentInsertions ops).filter (fun u => decide (u ≠ t))
        | none => presentInsertions ops := by
  unfold presentInsertions
  rw [List.foldl_append, List.foldl_cons, List.foldl_nil]
  simp only [presentStep]
  split <;> rename_i hfind <;> simp only [hfind]

/-- C2: in every state reached from a new config by add and remove calls, the entry list is
the stable sort by descending priority of the insertions still present, taken in the order
they were added (an add call is an insertion, and a remove call takes away the first entry in
resolution order that refers to its layer), and `Layers` is the list of the layers of that
sort.  So the entries are ordered by non-increasing priority, and entries of equal priority
are in the order of the calls that added them.  Each insertion still present is the entry of
its add call, and when no remove call was made every add call is still present. -/
theorem config_entries_in_resolution_order (c : Nat) (h0 : Heap) (ops : List ConfigOp)
    (hnew : h0.configs c = NewConfig) :
    ((ops.foldl (ConfigOp.run c) h0).configs c).items
      = (sortByPriority (presentInsertions ops)).map Prod.snd ∧
    Config.Layers (ops.foldl (ConfigOp.run c) h0) c
      = (sortByPriority (presentInsertions ops)).map (fun t => t.2.layer) ∧
    (((ops.foldl (ConfigOp.run c) h0).configs c).items).Pairwise (fun a b => b.prio ≤ a.prio) ∧
    (sortByPriority (presentInsertions ops)).Pairwise
      (fun a b => a.2.prio = b.2.prio → a.1 < b.1) ∧
    (presentInsertions ops).Pairwise (fun a b => a.1 < b.1) ∧
    (∀ t ∈ presentInsertions ops, ∃ a, ops[t.1]? = some (ConfigOp.add a) ∧ t.2 = a.item) ∧
    ((∀ op ∈ ops, ∃ a, op = ConfigOp.add a) → ∀ i a, ops[i]? = some (ConfigOp.add a) →
      (i, a.item) ∈ presentInsertions ops) ∧
    (∀ a, presentInsertions (ops ++ [ConfigOp.add a])
      = presentInsertions ops ++ [(ops.length, a.item)]) ∧
    (∀ layer, presentInsertions (ops ++ [ConfigOp.remove layer])
      = match (sortByPriority (presentInsertions ops)).find?
            (fun t => decide (t.2.layer = layer)) with
        | some t => (presentInsertions ops).filter (fun u => decide (u ≠ t))
        | none => presentInsertions ops) := by
  obtain ⟨_, hinc, htag, hitems, hall⟩ := present_invariant c h0 hnew ops
  have hsorted := pairwise_sortByPriority _ hinc
  refine ⟨hitems, ?_, ?_, ?_, hinc, htag, hall, ?_, ?_⟩
  · unfold Config.Layers
    rw [hitems, List.map_map]
    rfl
  · rw [hitems, List.pairwise_map]
    exact hsorted.imp (fun h => lexBefore_prio_le h)
  · refine hsorted.imp ?_
    intro a b hab heq
    rcases hab with h1 | ⟨_, h2⟩
    · omega
    · exact h2
  · intro a
    exact presentInsertions_add c h0 hnew ops a
  · intro layer
    exact presentInsertions_remove ops layer

theorem config_entries_in_resolution_order_witness :
    exampleHeap.configs 0 = NewConfig ∧
    presentInsertions exampleOps = [(0, ⟨2, 22, false⟩), (2, ⟨1, 11, false⟩), (4, ⟨9, 99, true⟩)] ∧
    ((exampleOps.foldl (ConfigOp.run 0) exampleHeap).configs 0).items
      = (sortByPriority (presentInsertions exampleOps)).map Prod.snd ∧
    Config.Layers (exampleOps.foldl (ConfigOp.run 0) exampleHeap) 0 = [9, 2, 1] :=
  ⟨rfl, by decide, (config_entries_in_resolution_order 0 exampleHeap exampleOps rfl).1,
    (config_entries_in_resolution_order 0 exampleHeap exampleOps rfl).2.1.trans (by decide)⟩

end GoConfig
